import Mathlib

/-!
# GoCalc: lexer, recursive-descent parser and tree renderer

A shallow embedding of `main.go`.  Go strings are byte sequences, so the input
line, token texts and the rendered output are all lists of bytes.  The two
`os.Exit(1)` paths (`lexerError`, `parseError`, the `Unknown Node` branch of
`visit`) and the two runtime panics the code can reach (index out of range in
`NewLexer`, the failed type assertion `Value.(int)` in `factor`) are the error
values of an `Except`.  The loops of the lexer and the recursion of the parser
are driven by a fuel counter computed from the text length.
-/

namespace GoCalc

/-! ## Bytes and Go strings -/

/-- A Go `byte`. -/
abbrev Byte := Fin 256

/-- A Go `string`: a sequence of bytes. -/
abbrev GoString := List Byte

/-- The bytes (UTF-8) of a string literal of the Go source. -/
def str (s : String) : GoString :=
  (s.toList.flatMap String.utf8EncodeChar).map (fun b => Fin.ofNat b.toNat)

/-- Constant `NONE = 255`: "no more characters were found in input". -/
def NONE : Byte := 255

/-- Size in bits of the Go type `int` (a 64-bit platform). -/
def intSize : Nat := 64

/-! ## Library functions used by the program -/

/-- Loop of `strconv.ParseUint(s, 10, 64)`: accumulates the digits into a
`uint64`; yields `none` on a byte that is not a decimal digit (syntax error)
and `some (maxUint64, false)` as soon as the value leaves the range. -/
def parseUintLoop : List Byte → Nat → Option (Nat × Bool)
  | [], n => some (n, true)
  | c :: cs, n =>
    if 48 ≤ c.val ∧ c.val ≤ 57 then
      let d := c.val - 48
      if n ≥ (2 ^ 64 - 1) / 10 + 1 then some (2 ^ 64 - 1, false)
      else
        let n10 := n * 10
        let n1 := (n10 + d) % 2 ^ 64
        if n1 < n10 ∨ n1 > 2 ^ 64 - 1 then some (2 ^ 64 - 1, false)
        else parseUintLoop cs n1
    else none

/-- Value returned by `strconv.ParseUint(s, 10, 64)` with the error dropped. -/
def parseUint (s : GoString) : Option (Nat × Bool) :=
  if s = [] then none else parseUintLoop s 0

/-- Value returned by `strconv.ParseInt(s, 10, 0)` with the error dropped: an
optional sign, then the unsigned value clamped to the range of `int`. -/
def parseInt (s : GoString) : Int :=
  if s = [] then 0
  else
    let neg := s.head? = some 45
    let body := if s.head? = some 43 ∨ s.head? = some 45 then s.tail else s
    match parseUint body with
    | none => 0
    | some (un, _) =>
      let cutoff := 2 ^ (intSize - 1)
      if ¬ neg ∧ un ≥ cutoff then (cutoff : Int) - 1
      else if neg ∧ un > cutoff then - (cutoff : Int)
      else if neg then - (un : Int) else (un : Int)

/-- The call `num, _ := strconv.Atoi(result)`: the decimal value of the text
when it fits in an `int`, the nearest bound of `int` when it does not, and 0
when the text is not a number. -/
def atoi (s : GoString) : Int := parseInt s

/-- Decimal digits of a natural number, most significant first. -/
def natDigits : Nat → Nat → GoString → GoString
  | 0, _, acc => acc
  | fuel + 1, n, acc =>
    let acc1 := Fin.ofNat (48 + n % 10) :: acc
    if n / 10 = 0 then acc1 else natDigits fuel (n / 10) acc1

/-- Text produced by `fmt.Sprint(v)` and by `fmt.Sprintf("%d", v)` for an
`int`: the decimal digits, after a minus sign when negative. -/
def sprint (v : Int) : GoString :=
  match v with
  | Int.ofNat n => natDigits (n + 1) n []
  | Int.negSucc n => 45 :: natDigits (n + 2) (n + 1) []

/-! ## Tokens -/

/-- The token type constants. -/
inductive TokenType
  | INTEGER | PLUS | MINUS | MUL | DIV | LPAREN | RPAREN | EOF
  deriving DecidableEq, Repr

/-- The dynamic values stored in `Token.Value` (an `interface{}`): an `int`
or a `string`. -/
inductive Value
  | int (n : Int)
  | string (s : GoString)
  deriving DecidableEq, Repr

/-- Struct `Token`. -/
structure Token where
  Typ : TokenType
  Value : Value
  Literal : GoString
  deriving DecidableEq, Repr

/-- The ways a run ends without a result. -/
inductive Err
  /-- Outcome of `lexerError`: prints `Unknown character c` and exits. -/
  | LexError (c : Byte)
  /-- Outcome of `parseError`: prints `Syntax error` and exits. -/
  | SyntaxError
  /-- Default branch of `visit`: prints `Unknown Node` and exits. -/
  | UnknownNode
  /-- Runtime panic: index out of range. -/
  | IndexPanic
  /-- Runtime panic: failed type assertion `Value.(int)`. -/
  | TypeAssertPanic
  /-- The fuel of the model ran out (no counterpart in the program). -/
  | OutOfFuel
  deriving DecidableEq, Repr

/-- Equality of results is decidable. -/
instance instDecidableEqExcept {ε α : Type} [DecidableEq ε] [DecidableEq α] :
    DecidableEq (Except ε α)
  | .ok a, .ok b =>
    if h : a = b then isTrue (by rw [h]) else isFalse (by intro h1; cases h1; exact h rfl)
  | .error a, .error b =>
    if h : a = b then isTrue (by rw [h]) else isFalse (by intro h1; cases h1; exact h rfl)
  | .ok _, .error _ => isFalse (by intro h; cases h)
  | .error _, .ok _ => isFalse (by intro h; cases h)

/-! ## Lexer -/

/-- Struct `Lexer`. -/
structure Lexer where
  text : GoString
  pos : Nat
  currentChar : Byte
  deriving DecidableEq, Repr

/-- Function `NewLexer`: reading `text[0]` panics on the empty text. -/
def NewLexer (text : GoString) : Except Err Lexer :=
  match text[0]? with
  | some c => .ok { text := text, pos := 0, currentChar := c }
  | none => .error .IndexPanic

namespace Lexer

/-- Method `isSpace`. -/
def isSpace (ch : Byte) : Bool := ch = 32

/-- Method `isDigit`. -/
def isDigit (ch : Byte) : Bool := 48 ≤ ch.val ∧ ch.val ≤ 57

/-- Method `advance`. -/
def advance (l : Lexer) : Lexer :=
  let pos := l.pos + 1
  if h : (pos : Int) > (l.text.length : Int) - 1 then
    { l with pos := pos, currentChar := NONE }
  else
    { l with pos := pos, currentChar := l.text.get ⟨pos, by omega⟩ }

/-- The `for` loop of `skipWhiteSpace`. -/
def skipWhiteSpaceLoop : Nat → Lexer → Lexer
  | 0, l => l
  | fuel + 1, l =>
    if l.currentChar ≠ NONE ∧ isSpace l.currentChar then
      skipWhiteSpaceLoop fuel l.advance
    else l

/-- Method `skipWhiteSpace`. -/
def skipWhiteSpace (l : Lexer) : Lexer :=
  skipWhiteSpaceLoop (l.text.length - l.pos + 1) l

/-- The `for` loop of `integer`: appends the digits to `result`. -/
def integerLoop : Nat → GoString → Lexer → GoString × Lexer
  | 0, result, l => (result, l)
  | fuel + 1, result, l =>
    if l.currentChar ≠ NONE ∧ isDigit l.currentChar then
      integerLoop fuel (result ++ [l.currentChar]) l.advance
    else (result, l)

/-- Method `integer`. -/
def integer (l : Lexer) : Int × Lexer :=
  let (result, l1) := integerLoop (l.text.length - l.pos + 1) [] l
  (atoi result, l1)

/-- Method `getNextToken`.  The body of its `for` loop ends in a `return` or
in `lexerError`, which exits, so the body runs at most once. -/
def getNextToken (l : Lexer) : Except Err (Token × Lexer) :=
  if l.currentChar ≠ NONE then
    let l := if isSpace l.currentChar then l.skipWhiteSpace else l
    if isDigit l.currentChar then
      let (tokenValue, l) := l.integer
      .ok ({ Typ := .INTEGER, Value := .int tokenValue, Literal := sprint tokenValue }, l)
    else if l.currentChar = 40 then
      .ok ({ Typ := .LPAREN, Value := .string (str "("), Literal := str "(" }, l.advance)
    else if l.currentChar = 41 then
      .ok ({ Typ := .RPAREN, Value := .string (str ")"), Literal := str ")" }, l.advance)
    else if l.currentChar = 43 then
      .ok ({ Typ := .PLUS, Value := .string (str "+"), Literal := str "+" }, l.advance)
    else if l.currentChar = 45 then
      .ok ({ Typ := .MINUS, Value := .string (str "-"), Literal := str "-" }, l.advance)
    else if l.currentChar = 42 then
      .ok ({ Typ := .MUL, Value := .string (str "*"), Literal := str "*" }, l.advance)
    else if l.currentChar = 47 then
      .ok ({ Typ := .DIV, Value := .string (str "/"), Literal := str "/" }, l.advance)
    else .error (.LexError l.currentChar)
  else
    .ok ({ Typ := .EOF, Value := .int 255, Literal := str " " }, l)

end Lexer

/-! ## Syntax tree -/

/-- The values of interface `Node`: the structs `Num` and `BinOp`; `other`
stands for every other dynamic value (such as `nil`), which the default branch
of `visit` rejects. -/
inductive Node
  | Num (Token : Token) (Value : Int)
  | BinOp (Left : Node) (Op : Token) (Right : Node)
  | other
  deriving DecidableEq, Repr

/-! ## Parser -/

/-- Struct `Parser`. -/
structure Parser where
  lexer : Lexer
  currentToken : Token
  deriving DecidableEq, Repr

/-- Function `NewParser`. -/
def NewParser (lexer : Lexer) : Except Err Parser := do
  let (tok, l) ← lexer.getNextToken
  pure { lexer := l, currentToken := tok }

namespace Parser

/-- Method `eat`. -/
def eat (p : Parser) (tokenType : TokenType) : Except Err Parser :=
  if p.currentToken.Typ = tokenType then do
    let (tok, l) ← p.lexer.getNextToken
    pure { lexer := l, currentToken := tok }
  else .error .SyntaxError

/-- Method `factor`; the method `expr` it calls is the argument `expr`. -/
def factorWith (expr : Parser → Except Err (Node × Parser)) (p : Parser) :
    Except Err (Node × Parser) :=
  if p.currentToken.Typ = .LPAREN then do
    let p ← p.eat .LPAREN
    let (nodeFactor, p) ← expr p
    let p ← p.eat .RPAREN
    pure (nodeFactor, p)
  else
    match p.currentToken.Value with
    | .int v => do
      let nodeFactor := Node.Num p.currentToken v
      let p ← p.eat .INTEGER
      pure (nodeFactor, p)
    | .string _ => .error .TypeAssertPanic

/-- The `for` loop of `term`. -/
def termLoop (expr : Parser → Except Err (Node × Parser)) :
    Nat → Node → Parser → Except Err (Node × Parser)
  | 0, _, _ => .error .OutOfFuel
  | fuel + 1, nodeTerm, p =>
    if p.currentToken.Typ = .MUL ∨ p.currentToken.Typ = .DIV then do
      let curToken := p.currentToken
      let p ← p.eat curToken.Typ
      let (right, p) ← factorWith expr p
      termLoop expr fuel (Node.BinOp nodeTerm curToken right) p
    else pure (nodeTerm, p)

/-- Method `term`. -/
def termWith (expr : Parser → Except Err (Node × Parser)) (fuel : Nat) (p : Parser) :
    Except Err (Node × Parser) := do
  let (nodeTerm, p) ← factorWith expr p
  termLoop expr fuel nodeTerm p

/-- The `for` loop of `expr`. -/
def exprLoop (expr : Parser → Except Err (Node × Parser)) :
    Nat → Node → Parser → Except Err (Node × Parser)
  | 0, _, _ => .error .OutOfFuel
  | fuel + 1, nodeExpr, p =>
    if p.currentToken.Typ = .PLUS ∨ p.currentToken.Typ = .MINUS then do
      let curToken := p.currentToken
      let p ← p.eat curToken.Typ
      let (right, p) ← termWith expr fuel p
      exprLoop expr fuel (Node.BinOp nodeExpr curToken right) p
    else pure (nodeExpr, p)

/-- Method `expr`, with `fuel` bounding the nesting depth and the number of
iterations of each loop. -/
def expr : Nat → Parser → Except Err (Node × Parser)
  | 0, _ => .error .OutOfFuel
  | fuel + 1, p => do
    let (nodeExpr, p) ← termWith (expr fuel) fuel p
    exprLoop (expr fuel) fuel nodeExpr p

/-- Method `term`. -/
def term (fuel : Nat) (p : Parser) : Except Err (Node × Parser) :=
  termWith (expr fuel) fuel p

/-- Method `factor`. -/
def factor (fuel : Nat) (p : Parser) : Except Err (Node × Parser) :=
  factorWith (expr fuel) p

/-- Method `parse`: every nested `expr` and every loop iteration follows an
`eat` that reads at least one character, so the text length bounds both. -/
def parse (p : Parser) : Except Err (Node × Parser) :=
  expr (p.lexer.text.length + 2) p

end Parser

/-! ## Renderer -/

/-- Struct `VisitorNode`. -/
structure VisitorNode where
  Parser : Parser
  deriving DecidableEq, Repr

/-- Function `NewVisitor`. -/
def NewVisitor (parser : Parser) : VisitorNode := { Parser := parser }

namespace VisitorNode

/-- Method `visit`, with `visitBinOp` and `visitNum` inlined in its type
switch. -/
def visit (v : VisitorNode) : Node → Except Err GoString
  | .BinOp left op right => do
    let l ← visit v left
    let r ← visit v right
    pure (str "(" ++ op.Literal ++ str " " ++ l ++ str " " ++ r ++ str ")")
  | .Num _ value => pure (sprint value)
  | .other => .error .UnknownNode

/-- Method `visitBinOp`. -/
def visitBinOp (v : VisitorNode) (left : Node) (op : Token) (right : Node) :
    Except Err GoString :=
  v.visit (.BinOp left op right)

/-- Method `visitNum`. -/
def visitNum (_v : VisitorNode) (value : Int) : GoString := sprint value

/-- Method `interpret`. -/
def interpret (v : VisitorNode) : Except Err GoString := do
  let (tree, _) ← v.Parser.parse
  v.visit tree

end VisitorNode

/-- The body of the loop of `main` for one line: the string printed, or the
way the process ends. -/
def run (text : GoString) : Except Err GoString := do
  let lexer ← NewLexer text
  let parser ← NewParser lexer
  let visitor := NewVisitor parser
  visitor.interpret

/-- Repeated calls of `getNextToken` up to the first `EOF` token: the tokens
returned before it.  Every token other than `EOF` reads at least one byte, so
the length of the text bounds the number of calls. -/
def Lexer.tokensLoop : Nat → Lexer → Except Err (List Token)
  | 0, _ => .error .OutOfFuel
  | fuel + 1, l => do
    let (tok, l1) ← l.getNextToken
    if tok.Typ = .EOF then pure []
    else do
      let ts ← Lexer.tokensLoop fuel l1
      pure (tok :: ts)

/-- The token sequence of a line: the tokens `getNextToken` returns on a new
lexer before `EOF`. -/
def tokenize (text : GoString) : Except Err (List Token) := do
  let lexer ← NewLexer text
  lexer.tokensLoop (text.length + 1)

/-- The first two steps of the loop body of `main` with the call `parse()` of
`interpret`: the tree parsed from a line and the parser state afterwards. -/
def parseState (text : GoString) : Except Err (Node × Parser) := do
  let lexer ← NewLexer text
  let parser ← NewParser lexer
  parser.parse

/-- The first two steps of the loop body of `main` with the call `parse()` of
`interpret`: the tree parsed from a line. -/
def parseLine (text : GoString) : Except Err Node := do
  let lexer ← NewLexer text
  let parser ← NewParser lexer
  let (tree, _) ← parser.parse
  pure tree

end GoCalc


/-! ## The renderer of the specification -/

namespace GoCalc

/-- The syntax tree of the specification: `Literal { value }` and
`BinaryOp { operator, left, right }`. -/
inductive Ast
  | Literal (value : Int)
  | BinaryOp (operator : GoString) (left : Ast) (right : Ast)
  deriving DecidableEq, Repr

/-- The decimal text of a natural number: its base-10 digits (`Nat.digits`),
most significant first, each written as the character `'0' + digit`; the text
`0` for zero. -/
def decimalNat (n : Nat) : GoString :=
  if n = 0 then [48] else (Nat.digits 10 n).reverse.map (fun d => Fin.ofNat (48 + d))

/-- The decimal text of an integer: the decimal text of its absolute value,
after a minus sign when it is negative. -/
def decimalText (v : Int) : GoString :=
  if v < 0 then 45 :: decimalNat v.natAbs else decimalNat v.natAbs

/-- The function `render` of the specification: the decimal text of a literal,
and `"(" + operator_text + " " + render(left) + " " + render(right) + ")"`. -/
def render : Ast → GoString
  | .Literal value => decimalText value
  | .BinaryOp operator left right =>
    str "(" ++ operator ++ str " " ++ render left ++ str " " ++ render right ++ str ")"

/-- The specification tree of a node built from `Num` and `BinOp`: the value
of a `Num`, the text of the operator token of a `BinOp`. -/
def Node.toAst : Node → Option Ast
  | .Num _ value => some (.Literal value)
  | .BinOp left op right =>
    match left.toAst, right.toAst with
    | some l, some r => some (.BinaryOp op.Literal l r)
    | _, _ => none
  | .other => none

/-- The node is built from `Num` and `BinOp` only. -/
def Node.isTree : Node → Bool
  | .Num _ _ => true
  | .BinOp left _ right => left.isTree && right.isTree
  | .other => false

end GoCalc

/-! ## Notions of the specification -/

namespace GoCalc

/-- The `Integer` token of value `v`. -/
def tokInt (v : Int) : Token := { Typ := .INTEGER, Value := .int v, Literal := sprint v }

/-- The token of a single character. -/
def tokChar (t : TokenType) (c : Byte) : Token :=
  { Typ := t, Value := .string [c], Literal := [c] }

/-- The byte is one of the four operator characters `+ - * /`. -/
def isOp (c : Byte) : Bool := c = 43 || c = 45 || c = 42 || c = 47

/-- The token of an operator character. -/
def opTok (c : Byte) : Token :=
  tokChar (if c = 43 then .PLUS else if c = 45 then .MINUS else if c = 42 then .MUL else .DIV) c

/-- The `EOF` token. -/
def tokEOF : Token := { Typ := .EOF, Value := .int 255, Literal := [32] }

/-- An integer literal: a non-empty sequence of decimal digits. -/
def isLiteral (d : GoString) : Bool := !d.isEmpty && d.all Lexer.isDigit

/-- The `Num` node the parser builds for the literal `d`. -/
def numNode (d : GoString) : Node := .Num (tokInt (atoi d)) (atoi d)

/-- The line `n0 op1 n1 ... opk nk`, written with single spaces. -/
def chainText (n0 : GoString) (rest : List (Byte × GoString)) : GoString :=
  n0 ++ rest.flatMap (fun x => str " " ++ [x.1] ++ str " " ++ x.2)

/-- The tokens of `op1 n1 ... opk nk`. -/
def chainTokens (rest : List (Byte × GoString)) : List Token :=
  rest.flatMap (fun x => [opTok x.1, tokInt (atoi x.2)])

/-- The left fold `BinOp(...BinOp(BinOp(n0, op1, n1), op2, n2)..., opk, nk)`. -/
def leftFold (n0 : GoString) (rest : List (Byte × GoString)) : Node :=
  rest.foldl (fun acc x => Node.BinOp acc (opTok x.1) (numNode x.2)) (numNode n0)

/-- Every `BinOp` of the tree has a `Num` as right child. -/
def Node.rightsAreNum : Node → Bool
  | .Num _ _ => true
  | .BinOp left _ (.Num _ _) => left.rightsAreNum
  | _ => false

/-- An element of the in-order sequence of a tree or of a token sequence: the
value of a literal or the text of an operator. -/
inductive Item
  | lit (value : Int)
  | op (text : GoString)
  deriving DecidableEq, Repr

/-- The decimal text of a literal element. -/
def Item.litText : Item → Option GoString
  | .lit value => some (sprint value)
  | .op _ => none

/-- The element is an operator. -/
def Item.isOp : Item → Bool
  | .lit _ => false
  | .op _ => true

/-- The in-order sequence of the literal values and operators of a tree. -/
def Node.items : Node → List Item
  | .Num _ value => [.lit value]
  | .BinOp left op right => left.items ++ [.op op.Literal] ++ right.items
  | .other => []

/-- The element a token stands for: the value of an `INTEGER` token, the text
of an operator token; none for a parenthesis and for `EOF`. -/
def Token.item (tok : Token) : Option Item :=
  match tok.Typ with
  | .INTEGER =>
    match tok.Value with
    | .int v => some (.lit v)
    | .string _ => none
  | .PLUS | .MINUS | .MUL | .DIV => some (.op tok.Literal)
  | .LPAREN | .RPAREN | .EOF => none

/-- The maximal runs of decimal digits of `s`, in order; `cur` is the run being
read. -/
def digitRunsAux : GoString → GoString → List GoString
  | [], cur => if cur = [] then [] else [cur]
  | c :: s, cur =>
    if Lexer.isDigit c then digitRunsAux s (cur ++ [c])
    else (if cur = [] then [] else [cur]) ++ digitRunsAux s []

/-- The maximal runs of decimal digits of a string, in order. -/
def digitRuns (s : GoString) : List GoString := digitRunsAux s []

/-- The Go slice expression `text[i:j]`. -/
def slice (text : GoString) (i j : Nat) : GoString := (text.drop i).take (j - i)

/-- The base-10 integer denoted by a sequence of decimal digits. -/
def decVal (d : GoString) : Nat := d.foldl (fun n c => 10 * n + (c.val - 48)) 0

end GoCalc

/-! ## Auxiliary definitions for the proofs -/

namespace GoCalc

/-- The character under the cursor when the unread part of the text is `s`. -/
def peek : GoString → Byte
  | [] => NONE
  | c :: _ => c

/-- The lexer state over `text` whose cursor is at `pos`. -/
def Lexer.seek (text : GoString) (pos : Nat) : Lexer :=
  { text := text, pos := pos, currentChar := peek (text.drop pos) }

/-- The unread part of the text. -/
def Lexer.rest (l : Lexer) : GoString := l.text.drop l.pos

/-- The current character is the one at the cursor, or `NONE` past the end. -/
def Lexer.Wf (l : Lexer) : Prop := l.currentChar = peek (l.text.drop l.pos)

/-- What `getNextToken` returns, as a function of the unread part `s` of the
text: the token and the number of bytes read. -/
def lexRest (s : GoString) : Except Err (Token × Nat) :=
  if peek s ≠ NONE then
    let k := (s.takeWhile Lexer.isSpace).length
    let s1 := s.drop k
    let c := peek s1
    if Lexer.isDigit c then
      let ds := s1.takeWhile Lexer.isDigit
      .ok (tokInt (atoi ds), k + ds.length)
    else if c = 40 then .ok (tokChar .LPAREN 40, k + 1)
    else if c = 41 then .ok (tokChar .RPAREN 41, k + 1)
    else if c = 43 then .ok (tokChar .PLUS 43, k + 1)
    else if c = 45 then .ok (tokChar .MINUS 45, k + 1)
    else if c = 42 then .ok (tokChar .MUL 42, k + 1)
    else if c = 47 then .ok (tokChar .DIV 47, k + 1)
    else .error (.LexError c)
  else .ok (tokEOF, 0)

/-- The tokens `ts` that repeated `getNextToken` calls return when the unread
part of the text is `s`, and how they end: with `EOF` for ever (`none`) or with
an error. -/
inductive Yields : GoString → List Token → Option Err → Prop
  | eof {s : GoString} {tok : Token} {k : Nat} :
      lexRest s = .ok (tok, k) → tok.Typ = .EOF → Yields s [] none
  | err {s : GoString} {e : Err} : lexRest s = .error e → Yields s [] (some e)
  | tok {s : GoString} {tok : Token} {k : Nat} {ts : List Token} {e : Option Err} :
      lexRest s = .ok (tok, k) → tok.Typ ≠ .EOF → Yields (s.drop k) ts e →
      Yields s (tok :: ts) e

/-- The parser state seen through the token sequence: the lookahead token, the
tokens not yet read and the way they end. -/
structure AParser where
  cur : Token
  rest : List Token
  fin : Option Err
  deriving DecidableEq, Repr

namespace AParser

/-- Reading of `getNextToken` on a token sequence: the next token becomes the
lookahead. -/
def start : List Token → Option Err → Except Err AParser
  | t :: ts, fin => .ok { cur := t, rest := ts, fin := fin }
  | [], none => .ok { cur := tokEOF, rest := [], fin := none }
  | [], some e => .error e

/-- Reading of `Parser.eat` on a token sequence. -/
def eat (a : AParser) (tokenType : TokenType) : Except Err AParser :=
  if a.cur.Typ = tokenType then start a.rest a.fin
  else .error .SyntaxError

/-- Reading of `Parser.factorWith` on a token sequence. -/
def factorWith (expr : AParser → Except Err (Node × AParser)) (a : AParser) :
    Except Err (Node × AParser) :=
  if a.cur.Typ = .LPAREN then do
    let a ← a.eat .LPAREN
    let (nodeFactor, a) ← expr a
    let a ← a.eat .RPAREN
    pure (nodeFactor, a)
  else
    match a.cur.Value with
    | .int v => do
      let nodeFactor := Node.Num a.cur v
      let a ← a.eat .INTEGER
      pure (nodeFactor, a)
    | .string _ => .error .TypeAssertPanic

/-- Reading of `Parser.termLoop` on a token sequence. -/
def termLoop (expr : AParser → Except Err (Node × AParser)) :
    Nat → Node → AParser → Except Err (Node × AParser)
  | 0, _, _ => .error .OutOfFuel
  | fuel + 1, nodeTerm, a =>
    if a.cur.Typ = .MUL ∨ a.cur.Typ = .DIV then do
      let curToken := a.cur
      let a ← a.eat curToken.Typ
      let (right, a) ← factorWith expr a
      termLoop expr fuel (Node.BinOp nodeTerm curToken right) a
    else pure (nodeTerm, a)

/-- Reading of `Parser.termWith` on a token sequence. -/
def termWith (expr : AParser → Except Err (Node × AParser)) (fuel : Nat) (a : AParser) :
    Except Err (Node × AParser) := do
  let (nodeTerm, a) ← factorWith expr a
  termLoop expr fuel nodeTerm a

/-- Reading of `Parser.exprLoop` on a token sequence. -/
def exprLoop (expr : AParser → Except Err (Node × AParser)) :
    Nat → Node → AParser → Except Err (Node × AParser)
  | 0, _, _ => .error .OutOfFuel
  | fuel + 1, nodeExpr, a =>
    if a.cur.Typ = .PLUS ∨ a.cur.Typ = .MINUS then do
      let curToken := a.cur
      let a ← a.eat curToken.Typ
      let (right, a) ← termWith expr fuel a
      exprLoop expr fuel (Node.BinOp nodeExpr curToken right) a
    else pure (nodeExpr, a)

/-- Reading of `Parser.expr` on a token sequence. -/
def expr : Nat → AParser → Except Err (Node × AParser)
  | 0, _ => .error .OutOfFuel
  | fuel + 1, a => do
    let (nodeExpr, a) ← termWith (expr fuel) fuel a
    exprLoop (expr fuel) fuel nodeExpr a

/-- The state whose lookahead is the first of the tokens `ts`, which end with
`EOF`. -/
def ofTokens : List Token → AParser
  | [] => { cur := tokEOF, rest := [], fin := none }
  | t :: ts => { cur := t, rest := ts, fin := none }

/-- Reading of `NewParser` followed by `parse` on a token sequence: the tree. -/
def tree (fuel : Nat) (ts : List Token) (fin : Option Err) : Except Err Node := do
  let a ← start ts fin
  let (t, _) ← expr fuel a
  pure t

end AParser

/-- The token is one that `getNextToken` returns. -/
def Token.isLex (tok : Token) : Prop :=
  (∃ v : Int, 0 ≤ v ∧ tok = tokInt v) ∨ tok = tokChar .LPAREN 40 ∨ tok = tokChar .RPAREN 41 ∨
    (∃ c, isOp c = true ∧ tok = opTok c) ∨ tok = tokEOF

/-- The tokens of the state are tokens of the lexer, `EOF` only as lookahead. -/
def AParser.Inv (a : AParser) : Prop :=
  a.cur.isLex ∧ ∀ tok ∈ a.rest, tok.isLex ∧ tok.Typ ≠ .EOF

/-- The tokens `c` are eaten, one by one, between the states `a` and `a2`. -/
inductive Consumes : AParser → List Token → AParser → Prop
  | refl (a : AParser) : Consumes a [] a
  | step {a a1 a2 : AParser} {c : List Token} {tt : TokenType} :
      a.cur.Typ ≠ .EOF → a.eat tt = .ok a1 → Consumes a1 c a2 → Consumes a (a.cur :: c) a2

/-- The tree is built as the parser builds it: every `Num` from an `INTEGER`
token of the lexer, every `BinOp` around an operator token. -/
def Node.Good : Node → Prop
  | .Num tok value => tok = tokInt value ∧ 0 ≤ value
  | .BinOp left op right => (∃ c, isOp c = true ∧ op = opTok c) ∧ left.Good ∧ right.Good
  | .other => False

/-- A successful run of the parsing function `f` eats tokens `c` whose elements,
parentheses apart, are the in-order sequence of the tree it returns. -/
def ParsesOk (f : AParser → Except Err (Node × AParser)) : Prop :=
  ∀ a t a1, a.Inv → f a = .ok (t, a1) →
    ∃ c, Consumes a c a1 ∧ t.items = c.filterMap Token.item ∧ t.Good ∧ a1.Inv

/-- The parser state `p` reads the token sequence of `a`. -/
def Sim (p : Parser) (a : AParser) : Prop :=
  p.lexer.Wf ∧ p.currentToken = a.cur ∧ Yields p.lexer.rest a.rest a.fin

/-- Two results agree: the same error, or the same tree in matching states. -/
def ResSim (r : Except Err (Node × Parser)) (r1 : Except Err (Node × AParser)) : Prop :=
  (∃ n p a, r = .ok (n, p) ∧ r1 = .ok (n, a) ∧ Sim p a) ∨ (∃ e, r = .error e ∧ r1 = .error e)

/-- Two results of `eat` agree. -/
def EatSim (r : Except Err Parser) (r1 : Except Err AParser) : Prop :=
  (∃ p a, r = .ok p ∧ r1 = .ok a ∧ Sim p a) ∨ (∃ e, r = .error e ∧ r1 = .error e)

end GoCalc


/-! ## Further notions of the specification -/

namespace GoCalc

/-- The cursor invariant: the current character is `text[pos]` while `pos` is
inside the text and the end sentinel `NONE` once it is not. -/
def Lexer.CursorInv (l : Lexer) : Prop :=
  (∀ h : l.pos < l.text.length, l.currentChar = l.text.get ⟨l.pos, h⟩) ∧
  (l.text.length ≤ l.pos → l.currentChar = NONE)

/-- The result of the call number `n + 1` in a sequence of `getNextToken` calls
on a lexer. -/
def Lexer.nthCall : Nat → Lexer → Except Err (Token × Lexer)
  | 0, l => l.getNextToken
  | n + 1, l => do
    let (_, l1) ← l.getNextToken
    Lexer.nthCall n l1

/-- The token kind of each of the characters `( ) + - * /`. -/
def kindOf (c : Byte) : TokenType :=
  if c = 40 then .LPAREN else if c = 41 then .RPAREN else if c = 43 then .PLUS
  else if c = 45 then .MINUS else if c = 42 then .MUL else .DIV

/-- The byte is one of the characters `( ) + - * /`. -/
def isSingle (c : Byte) : Bool := c = 40 || c = 41 || isOp c

/-- Method `advance` with the index expression `l.text[l.pos]` checked at run
time, as Go does: an index out of range panics. -/
def Lexer.advanceChecked (l : Lexer) : Except Err Lexer :=
  let pos := l.pos + 1
  if (pos : Int) > (l.text.length : Int) - 1 then
    .ok { l with pos := pos, currentChar := NONE }
  else
    match l.text[pos]? with
    | some c => .ok { l with pos := pos, currentChar := c }
    | none => .error .IndexPanic

/-- The lexer states a run on `text` goes through: the state built by
`NewLexer`, and the states after `getNextToken`, `skipWhiteSpace`, `integer`,
and after `advance` called, as everywhere in the program, on a current
character other than `NONE`. -/
inductive Reachable (text : GoString) : Lexer → Prop
  | init {l : Lexer} : NewLexer text = .ok l → Reachable text l
  | next {l l1 : Lexer} {tok : Token} :
      Reachable text l → l.getNextToken = .ok (tok, l1) → Reachable text l1
  | skip {l : Lexer} : Reachable text l → Reachable text l.skipWhiteSpace
  | int {l : Lexer} : Reachable text l → Reachable text l.integer.2
  | adv {l : Lexer} : Reachable text l → l.currentChar ≠ NONE → Reachable text l.advance


/-- Repeated calls of `getNextToken` up to the first `EOF` token or the first
failure: the tokens returned before it, and the failure if there is one. -/
def Lexer.streamLoop : Nat → Lexer → List Token × Option Err
  | 0, _ => ([], some .OutOfFuel)
  | fuel + 1, l =>
    match l.getNextToken with
    | .error e => ([], some e)
    | .ok (tok, l1) =>
      if tok.Typ = .EOF then ([], none)
      else (tok :: (Lexer.streamLoop fuel l1).1, (Lexer.streamLoop fuel l1).2)

/-- The tokens that repeated `getNextToken` calls return on a new lexer over
`text`, and the failure that ends them if there is one. -/
def lexStream (text : GoString) : List Token × Option Err :=
  match NewLexer text with
  | .ok l => l.streamLoop (text.length + 1)
  | .error e => ([], some e)

/-- A digit, a space or one of the characters `( ) + - * /`. -/
def isPlain (c : Byte) : Bool := Lexer.isDigit c || Lexer.isSpace c || isSingle c

/-- A byte that no test of `getNextToken` accepts: not the end sentinel, not a
space, not a digit, not one of `( ) + - * /`. -/
def isUnknown (c : Byte) : Bool :=
  decide (c ≠ NONE) && !Lexer.isSpace c && !Lexer.isDigit c && !isSingle c


/-- The digit string has no leading zero: it is `0` itself or it does not
begin with the digit `0`. -/
def noLeadingZero (d : GoString) : Bool := decide (d = [48]) || decide (d.head? ≠ some 48)

/-- `NewLexer`, `NewParser` and `expr` run with a given fuel: the tree or the
error. -/
def parseWith (fuel : Nat) (text : GoString) : Except Err Node := do
  let lexer ← NewLexer text
  let parser ← NewParser lexer
  let (tree, _) ← parser.expr fuel
  pure tree

/-- Methods `BinOp.String` and `Num.String` of the `Node` interface; a value
that is neither has no such method to run. -/
def Node.String : Node → Option GoString
  | .BinOp left op right => do
    let l ← Node.String left
    let r ← Node.String right
    pure (str "(" ++ op.Literal ++ (str " " ++ l ++ str " " ++ r ++ str " ") ++ str ")")
  | .Num tok _ => some tok.Literal
  | .other => none

/-- The number of `BinOp` nodes of a tree. -/
def Node.numBinOp : Node → Nat
  | .BinOp left _ right => left.numBinOp + right.numBinOp + 1
  | .Num _ _ => 0
  | .other => 0

/-- The nodes of a tree: the tree itself and the nodes of its subtrees. -/
def Node.nodes : Node → List Node
  | .BinOp left op right => .BinOp left op right :: (left.nodes ++ right.nodes)
  | .Num tok value => [.Num tok value]
  | .other => [.other]

/-! ## Further auxiliary definitions for the proofs -/

/-- The parsing function `e1` agrees with `e` wherever `e` has fuel enough. -/
def FuelLe (e e1 : AParser → Except Err (Node × AParser)) : Prop :=
  ∀ a : AParser, e a ≠ .error .OutOfFuel → e1 a = e a

/-- The state `b` reads the tokens of the state `a` followed by one more token
`x`, where `a` ends with `EOF`. -/
def Ext (x : Token) (a b : AParser) : Prop :=
  a.fin = none ∧ b.fin = none ∧ (∀ tok ∈ a.rest, tok.Typ ≠ .EOF) ∧
  ((a.cur.Typ ≠ .EOF ∧ b.cur = a.cur ∧ b.rest = a.rest ++ [x]) ∨
    (a.cur.Typ = .EOF ∧ a.rest = [] ∧ b.cur = x ∧ b.rest = []))

/-- Whatever `e` parses, `e1` parses to the same tree when the token `x` follows. -/
def ExtFun (x : Token) (e e1 : AParser → Except Err (Node × AParser)) : Prop :=
  ∀ a b t a1, Ext x a b → e a = .ok (t, a1) → ∃ b1, e1 b = .ok (t, b1) ∧ Ext x a1 b1

end GoCalc

namespace GoCalc

theorem str_lparen : str "(" = [40] := by decide
theorem str_rparen : str ")" = [41] := by decide
theorem str_plus : str "+" = [43] := by decide
theorem str_minus : str "-" = [45] := by decide
theorem str_mul : str "*" = [42] := by decide
theorem str_div : str "/" = [47] := by decide
theorem str_space : str " " = [32] := by decide

theorem drop_succ_of_cons {t : GoString} {p : Nat} {c : Byte} {s : GoString}
    (h : t.drop p = c :: s) : t.drop (p + 1) = s := by
  rw [← List.tail_drop, h]; rfl

theorem drop_add_of_append {t : GoString} {p : Nat} {a s : GoString}
    (h : t.drop p = a ++ s) : t.drop (p + a.length) = s := by
  rw [← List.drop_drop, h, List.drop_left]

namespace Lexer

theorem isDigit_ne_NONE {c : Byte} (h : isDigit c = true) : c ≠ NONE := by
  intro hc; subst hc; revert h; decide

theorem isSpace_ne_NONE {c : Byte} (h : isSpace c = true) : c ≠ NONE := by
  intro hc; subst hc; revert h; decide

theorem advance_seek (t : GoString) (p : Nat) : (seek t p).advance = seek t (p + 1) := by
  unfold advance seek
  simp only
  split
  · rename_i h
    have : t.drop (p + 1) = [] := by
      apply List.drop_eq_nil_of_le; omega
    simp [this, peek]
  · rename_i h
    have hlt : p + 1 < t.length := by omega
    rw [List.drop_eq_getElem_cons hlt]
    simp [peek]


theorem integerLoop_seek (t : GoString) : ∀ (fuel : Nat) (r : GoString) (p : Nat) (s : GoString),
    t.drop p = s → (s.takeWhile isDigit).length < fuel →
    integerLoop fuel r (seek t p) =
      (r ++ s.takeWhile isDigit, seek t (p + (s.takeWhile isDigit).length)) := by
  intro fuel
  induction fuel with
  | zero => intro r p s _ h; omega
  | succ n ih =>
    intro r p s hs hlen
    cases s with
    | nil => simp [integerLoop, seek, hs, peek]
    | cons c s1 =>
      by_cases hd : isDigit c = true
      · have hne := isDigit_ne_NONE hd
        have hcur : (seek t p).currentChar = c := by simp [seek, hs, peek]
        rw [List.takeWhile_cons_of_pos hd] at hlen ⊢
        simp only [List.length_cons] at hlen ⊢
        rw [integerLoop, hcur, if_pos ⟨hne, hd⟩, advance_seek,
          ih (r ++ [c]) (p + 1) s1 (drop_succ_of_cons hs) (by omega)]
        simp [Nat.add_assoc, Nat.add_comm 1]
      · have hcur : (seek t p).currentChar = c := by simp [seek, hs, peek]
        rw [List.takeWhile_cons_of_neg hd]
        rw [integerLoop, hcur, if_neg (by simp [hd])]
        simp

theorem skipWhiteSpaceLoop_seek (t : GoString) : ∀ (fuel : Nat) (p : Nat) (s : GoString),
    t.drop p = s → (s.takeWhile isSpace).length < fuel →
    skipWhiteSpaceLoop fuel (seek t p) = seek t (p + (s.takeWhile isSpace).length) := by
  intro fuel
  induction fuel with
  | zero => intro p s _ h; omega
  | succ n ih =>
    intro p s hs hlen
    cases s with
    | nil => simp [skipWhiteSpaceLoop, seek, hs, peek]
    | cons c s1 =>
      by_cases hd : isSpace c = true
      · have hne := isSpace_ne_NONE hd
        have hcur : (seek t p).currentChar = c := by simp [seek, hs, peek]
        rw [List.takeWhile_cons_of_pos hd] at hlen ⊢
        simp only [List.length_cons] at hlen ⊢
        rw [skipWhiteSpaceLoop, hcur, if_pos ⟨hne, hd⟩, advance_seek,
          ih (p + 1) s1 (drop_succ_of_cons hs) (by omega)]
        simp [Nat.add_assoc, Nat.add_comm 1]
      · have hcur : (seek t p).currentChar = c := by simp [seek, hs, peek]
        rw [List.takeWhile_cons_of_neg hd]
        rw [skipWhiteSpaceLoop, hcur, if_neg (by simp [hd])]
        simp

theorem takeWhile_length_le (f : Byte → Bool) (t : GoString) (p : Nat) :
    ((t.drop p).takeWhile f).length < t.length - p + 1 := by
  have h1 : ((t.drop p).takeWhile f).length ≤ (t.drop p).length :=
    (List.takeWhile_sublist f).length_le
  simp only [List.length_drop] at h1
  omega

theorem skipWhiteSpace_seek (t : GoString) (p : Nat) :
    (seek t p).skipWhiteSpace = seek t (p + ((t.drop p).takeWhile isSpace).length) := by
  unfold skipWhiteSpace
  exact skipWhiteSpaceLoop_seek t _ p _ rfl (takeWhile_length_le _ t p)

theorem integer_seek (t : GoString) (p : Nat) :
    (seek t p).integer = (atoi ((t.drop p).takeWhile isDigit),
      seek t (p + ((t.drop p).takeWhile isDigit).length)) := by
  unfold integer
  have := integerLoop_seek t ((seek t p).text.length - (seek t p).pos + 1) [] p _ rfl
    (takeWhile_length_le _ t p)
  rw [this]; simp


theorem seek_currentChar (t : GoString) (p : Nat) :
    (seek t p).currentChar = peek (t.drop p) := rfl

theorem skip_if_seek (t : GoString) (p : Nat) :
    (if isSpace (seek t p).currentChar = true then (seek t p).skipWhiteSpace else seek t p)
      = seek t (p + ((t.drop p).takeWhile isSpace).length) := by
  split
  · exact skipWhiteSpace_seek t p
  · rename_i h
    rw [seek_currentChar] at h
    cases hs : t.drop p with
    | nil => simp
    | cons c s1 =>
      rw [hs] at h
      simp only [peek] at h
      rw [List.takeWhile_cons_of_neg h]; simp

theorem getNextToken_seek (t : GoString) (p : Nat) :
    (seek t p).getNextToken =
      match lexRest (t.drop p) with
      | .ok (tok, k) => .ok (tok, seek t (p + k))
      | .error e => .error e := by
  unfold getNextToken lexRest
  simp only [skip_if_seek]
  simp only [integer_seek, advance_seek, seek_currentChar, str_lparen, str_rparen,
    str_plus, str_minus, str_mul, str_div, str_space, List.drop_drop, tokInt, tokChar, tokEOF]
  by_cases h0 : peek (t.drop p) = NONE
  · simp [h0]
  · simp only [ne_eq, h0, not_false_eq_true, if_true]
    generalize (List.takeWhile isSpace (List.drop p t)).length = k
    generalize peek (List.drop (p + k) t) = c
    generalize List.takeWhile isDigit (List.drop (p + k) t) = ds
    by_cases hd : isDigit c = true
    · simp only [if_pos hd, Nat.add_assoc]
    by_cases h1 : c = 40
    · simp only [if_neg hd, if_pos h1, Nat.add_assoc]
    by_cases h2 : c = 41
    · simp only [if_neg hd, if_neg h1, if_pos h2, Nat.add_assoc]
    by_cases h3 : c = 43
    · simp only [if_neg hd, if_neg h1, if_neg h2, if_pos h3, Nat.add_assoc]
    by_cases h4 : c = 45
    · simp only [if_neg hd, if_neg h1, if_neg h2, if_neg h3, if_pos h4, Nat.add_assoc]
    by_cases h5 : c = 42
    · simp only [if_neg hd, if_neg h1, if_neg h2, if_neg h3, if_neg h4, if_pos h5, Nat.add_assoc]
    by_cases h6 : c = 47
    · simp only [if_neg hd, if_neg h1, if_neg h2, if_neg h3, if_neg h4, if_neg h5, if_pos h6,
        Nat.add_assoc]
    simp only [if_neg hd, if_neg h1, if_neg h2, if_neg h3, if_neg h4, if_neg h5, if_neg h6,
      Nat.add_assoc]

end Lexer
end GoCalc

namespace GoCalc

namespace Lexer

theorem wf_seek (t : GoString) (p : Nat) : (seek t p).Wf := rfl

theorem rest_seek (t : GoString) (p : Nat) : (seek t p).rest = t.drop p := rfl

theorem wf_eq_seek {l : Lexer} (h : l.Wf) : l = seek l.text l.pos := by
  cases l; simp only [Wf] at h; simp [seek, h]

theorem getNextToken_wf {l : Lexer} (h : l.Wf) :
    l.getNextToken =
      match lexRest l.rest with
      | .ok (tok, k) => .ok (tok, seek l.text (l.pos + k))
      | .error e => .error e := by
  conv_lhs => rw [wf_eq_seek h]
  rw [getNextToken_seek]; rfl

end Lexer

theorem NewLexer_cons (c : Byte) (s : GoString) : NewLexer (c :: s) = .ok (Lexer.seek (c :: s) 0) := by
  simp [NewLexer, Lexer.seek, peek]

theorem peek_ne_NONE_length {s : GoString} (h : peek s ≠ NONE) : 1 ≤ s.length := by
  cases s with
  | nil => simp [peek] at h
  | cons c s => simp

theorem takeWhile_pos_of_peek {f : Byte → Bool} {s : GoString}
    (h : f (peek s) = true) (hn : f NONE = false) : 1 ≤ (s.takeWhile f).length := by
  cases s with
  | nil => simp [peek, hn] at h
  | cons c s => simp only [peek] at h; simp [List.takeWhile_cons_of_pos h]

theorem takeWhile_drop_length_le (f g : Byte → Bool) (s : GoString) :
    (s.takeWhile f).length + ((s.drop (s.takeWhile f).length).takeWhile g).length ≤ s.length := by
  have h1 : ((s.drop (s.takeWhile f).length).takeWhile g).length
      ≤ (s.drop (s.takeWhile f).length).length := (List.takeWhile_sublist g).length_le
  have h2 : (s.takeWhile f).length ≤ s.length := (List.takeWhile_sublist f).length_le
  simp only [List.length_drop] at h1
  omega

theorem takeWhile_succ_le_of_peek (f : Byte → Bool) {s : GoString}
    (h : peek (s.drop (s.takeWhile f).length) ≠ NONE) :
    (s.takeWhile f).length + 1 ≤ s.length := by
  have := peek_ne_NONE_length h
  simp only [List.length_drop] at this
  omega

/-- The shape of a successful `lexRest`: `EOF` reading nothing at the end
sentinel, or a token other than `EOF` reading at least one byte. -/
theorem lexRest_ok_cases {s : GoString} {tok : Token} {k : Nat}
    (h : lexRest s = .ok (tok, k)) :
    (tok = tokEOF ∧ k = 0 ∧ peek s = NONE) ∨
    (tok.Typ ≠ .EOF ∧ 1 ≤ k ∧ k ≤ s.length ∧ peek s ≠ NONE) := by
  unfold lexRest at h
  by_cases hp : peek s = NONE
  · left
    rw [if_neg (by simpa using hp)] at h
    simp only [Except.ok.injEq, Prod.mk.injEq] at h
    exact ⟨h.1.symm, h.2.symm, hp⟩
  · right
    rw [if_pos hp] at h
    simp only at h
    generalize hc : peek (List.drop (List.takeWhile Lexer.isSpace s).length s) = c at h
    by_cases hd : Lexer.isDigit c = true
    · rw [if_pos hd] at h
      simp only [Except.ok.injEq, Prod.mk.injEq] at h
      obtain ⟨h1, h2⟩ := h
      subst h1 h2
      have h3 := takeWhile_drop_length_le Lexer.isSpace Lexer.isDigit s
      have h4 : 1 ≤ ((s.drop (s.takeWhile Lexer.isSpace).length).takeWhile Lexer.isDigit).length :=
        takeWhile_pos_of_peek (by rw [hc]; exact hd) (by decide)
      refine ⟨by simp [tokInt], by omega, h3, hp⟩
    · have hne : ∀ x : Byte, c = x → x ≠ NONE →
          (List.takeWhile Lexer.isSpace s).length + 1 ≤ s.length := by
        intro x hx hx2
        apply takeWhile_succ_le_of_peek
        rw [hc, hx]; exact hx2
      rw [if_neg hd] at h
      split_ifs at h with h1 h2 h3 h4 h5 h6
      all_goals
        simp only [Except.ok.injEq, Prod.mk.injEq] at h
        obtain ⟨ha, hb⟩ := h
        subst ha hb
      · exact ⟨by simp [tokChar], by omega, hne _ h1 (by decide), hp⟩
      · exact ⟨by simp [tokChar], by omega, hne _ h2 (by decide), hp⟩
      · exact ⟨by simp [tokChar], by omega, hne _ h3 (by decide), hp⟩
      · exact ⟨by simp [tokChar], by omega, hne _ h4 (by decide), hp⟩
      · exact ⟨by simp [tokChar], by omega, hne _ h5 (by decide), hp⟩
      · exact ⟨by simp [tokChar], by omega, hne _ h6 (by decide), hp⟩

theorem lexRest_eof {s : GoString} {tok : Token} {k : Nat}
    (h : lexRest s = .ok (tok, k)) (ht : tok.Typ = .EOF) : tok = tokEOF ∧ k = 0 := by
  rcases lexRest_ok_cases h with h1 | h1
  · exact ⟨h1.1, h1.2.1⟩
  · exact absurd ht h1.1

end GoCalc

namespace GoCalc

theorem ok_bind {α β : Type} (x : α) (f : α → Except Err β) :
    (Except.ok x >>= f) = f x := rfl

theorem error_bind {α β : Type} (e : Err) (f : α → Except Err β) :
    ((Except.error e : Except Err α) >>= f) = Except.error e := rfl

theorem eat_sim {p : Parser} {a : AParser} (h : Sim p a) (tt : TokenType) :
    EatSim (p.eat tt) (a.eat tt) := by
  obtain ⟨hwf, hcur, hy⟩ := h
  unfold Parser.eat AParser.eat
  rw [hcur]
  by_cases ht : a.cur.Typ = tt
  · rw [if_pos ht, if_pos ht, Lexer.getNextToken_wf hwf]
    obtain ⟨cur, rest, fin⟩ := a
    dsimp only at hy ⊢
    generalize hs : p.lexer.rest = s at hy
    cases hy with
    | eof hl hty =>
      obtain ⟨h1, h2⟩ := lexRest_eof hl hty
      subst h1 h2
      rw [hl]
      refine Or.inl ⟨_, _, rfl, rfl, Lexer.wf_seek _ _, rfl, ?_⟩
      simp only [Lexer.rest_seek, Nat.add_zero]
      have hs1 : List.drop p.lexer.pos p.lexer.text = s := hs
      rw [hs1]
      exact Yields.eof hl hty
    | err hl =>
      rw [hl]
      exact Or.inr ⟨_, rfl, rfl⟩
    | tok hl hty hrest =>
      rw [hl]
      refine Or.inl ⟨_, _, rfl, rfl, Lexer.wf_seek _ _, rfl, ?_⟩
      simp only [Lexer.rest_seek, ← List.drop_drop]
      have hs1 : List.drop p.lexer.pos p.lexer.text = s := hs
      rw [hs1]
      exact hrest
  · rw [if_neg ht, if_neg ht]
    exact Or.inr ⟨_, rfl, rfl⟩

theorem factorWith_sim {e : Parser → Except Err (Node × Parser)}
    {e1 : AParser → Except Err (Node × AParser)}
    (he : ∀ p a, Sim p a → ResSim (e p) (e1 a)) {p : Parser} {a : AParser} (h : Sim p a) :
    ResSim (Parser.factorWith e p) (AParser.factorWith e1 a) := by
  unfold Parser.factorWith AParser.factorWith
  rw [h.2.1]
  by_cases ht : a.cur.Typ = .LPAREN
  · rw [if_pos ht, if_pos ht]
    rcases eat_sim h .LPAREN with ⟨p1, a1, hp1, ha1, hs1⟩ | ⟨err, hp1, ha1⟩
    · rw [hp1, ha1, ok_bind, ok_bind]
      try dsimp only
      rcases he p1 a1 hs1 with ⟨n, p2, a2, hp2, ha2, hs2⟩ | ⟨err, hp2, ha2⟩
      · rw [hp2, ha2, ok_bind, ok_bind]
        try dsimp only
        rcases eat_sim hs2 .RPAREN with ⟨p3, a3, hp3, ha3, hs3⟩ | ⟨err, hp3, ha3⟩
        · rw [hp3, ha3, ok_bind, ok_bind]
          try dsimp only
          exact Or.inl ⟨_, _, _, rfl, rfl, hs3⟩
        · rw [hp3, ha3, error_bind, error_bind]
          exact Or.inr ⟨_, rfl, rfl⟩
      · rw [hp2, ha2, error_bind, error_bind]
        exact Or.inr ⟨_, rfl, rfl⟩
    · rw [hp1, ha1, error_bind, error_bind]
      exact Or.inr ⟨_, rfl, rfl⟩
  · rw [if_neg ht, if_neg ht]
    cases hv : a.cur.Value with
    | int v =>
      simp only []
      rcases eat_sim h .INTEGER with ⟨p1, a1, hp1, ha1, hs1⟩ | ⟨err, hp1, ha1⟩
      · rw [hp1, ha1, ok_bind, ok_bind]
        try dsimp only
        exact Or.inl ⟨_, _, _, rfl, rfl, hs1⟩
      · rw [hp1, ha1, error_bind, error_bind]
        exact Or.inr ⟨_, rfl, rfl⟩
    | string s =>
      exact Or.inr ⟨_, rfl, rfl⟩

theorem termLoop_sim {e : Parser → Except Err (Node × Parser)}
    {e1 : AParser → Except Err (Node × AParser)}
    (he : ∀ p a, Sim p a → ResSim (e p) (e1 a)) :
    ∀ (fuel : Nat) (n : Node) (p : Parser) (a : AParser), Sim p a →
      ResSim (Parser.termLoop e fuel n p) (AParser.termLoop e1 fuel n a) := by
  intro fuel
  induction fuel with
  | zero => intro n p a _; exact Or.inr ⟨_, rfl, rfl⟩
  | succ k ih =>
    intro n p a h
    unfold Parser.termLoop AParser.termLoop
    rw [h.2.1]
    by_cases ht : a.cur.Typ = .MUL ∨ a.cur.Typ = .DIV
    · rw [if_pos ht, if_pos ht]
      simp only []
      rcases eat_sim h a.cur.Typ with ⟨p1, a1, hp1, ha1, hs1⟩ | ⟨err, hp1, ha1⟩
      · rw [hp1, ha1, ok_bind, ok_bind]
        try dsimp only
        rcases factorWith_sim he hs1 with ⟨r, p2, a2, hp2, ha2, hs2⟩ | ⟨err, hp2, ha2⟩
        · rw [hp2, ha2, ok_bind, ok_bind]
          try dsimp only
          exact ih _ _ _ hs2
        · rw [hp2, ha2, error_bind, error_bind]
          exact Or.inr ⟨_, rfl, rfl⟩
      · rw [hp1, ha1, error_bind, error_bind]
        exact Or.inr ⟨_, rfl, rfl⟩
    · rw [if_neg ht, if_neg ht]
      exact Or.inl ⟨_, _, _, rfl, rfl, h⟩

theorem termWith_sim {e : Parser → Except Err (Node × Parser)}
    {e1 : AParser → Except Err (Node × AParser)}
    (he : ∀ p a, Sim p a → ResSim (e p) (e1 a)) (fuel : Nat) {p : Parser} {a : AParser}
    (h : Sim p a) : ResSim (Parser.termWith e fuel p) (AParser.termWith e1 fuel a) := by
  unfold Parser.termWith AParser.termWith
  rcases factorWith_sim he h with ⟨r, p2, a2, hp2, ha2, hs2⟩ | ⟨err, hp2, ha2⟩
  · rw [hp2, ha2, ok_bind, ok_bind]
    try dsimp only
    exact termLoop_sim he _ _ _ _ hs2
  · rw [hp2, ha2, error_bind, error_bind]
    exact Or.inr ⟨_, rfl, rfl⟩

theorem exprLoop_sim {e : Parser → Except Err (Node × Parser)}
    {e1 : AParser → Except Err (Node × AParser)}
    (he : ∀ p a, Sim p a → ResSim (e p) (e1 a)) :
    ∀ (fuel : Nat) (n : Node) (p : Parser) (a : AParser), Sim p a →
      ResSim (Parser.exprLoop e fuel n p) (AParser.exprLoop e1 fuel n a) := by
  intro fuel
  induction fuel with
  | zero => intro n p a _; exact Or.inr ⟨_, rfl, rfl⟩
  | succ k ih =>
    intro n p a h
    unfold Parser.exprLoop AParser.exprLoop
    rw [h.2.1]
    by_cases ht : a.cur.Typ = .PLUS ∨ a.cur.Typ = .MINUS
    · rw [if_pos ht, if_pos ht]
      simp only []
      rcases eat_sim h a.cur.Typ with ⟨p1, a1, hp1, ha1, hs1⟩ | ⟨err, hp1, ha1⟩
      · rw [hp1, ha1, ok_bind, ok_bind]
        try dsimp only
        rcases termWith_sim he k hs1 with ⟨r, p2, a2, hp2, ha2, hs2⟩ | ⟨err, hp2, ha2⟩
        · rw [hp2, ha2, ok_bind, ok_bind]
          try dsimp only
          exact ih _ _ _ hs2
        · rw [hp2, ha2, error_bind, error_bind]
          exact Or.inr ⟨_, rfl, rfl⟩
      · rw [hp1, ha1, error_bind, error_bind]
        exact Or.inr ⟨_, rfl, rfl⟩
    · rw [if_neg ht, if_neg ht]
      exact Or.inl ⟨_, _, _, rfl, rfl, h⟩

/-- The parser reads the text only through its token sequence. -/
theorem expr_sim : ∀ (fuel : Nat) (p : Parser) (a : AParser), Sim p a →
    ResSim (Parser.expr fuel p) (AParser.expr fuel a) := by
  intro fuel
  induction fuel with
  | zero => intro p a _; exact Or.inr ⟨_, rfl, rfl⟩
  | succ k ih =>
    intro p a h
    unfold Parser.expr AParser.expr
    rcases termWith_sim ih k h with ⟨r, p2, a2, hp2, ha2, hs2⟩ | ⟨err, hp2, ha2⟩
    · rw [hp2, ha2, ok_bind, ok_bind]
      try dsimp only
      exact exprLoop_sim ih _ _ _ _ hs2
    · rw [hp2, ha2, error_bind, error_bind]
      exact Or.inr ⟨_, rfl, rfl⟩

end GoCalc

namespace GoCalc

/-! ### Token sequences of texts of a known shape -/

theorem lexRest_nil : lexRest [] = .ok (tokEOF, 0) := rfl

theorem yields_nil : Yields [] [] none := Yields.eof lexRest_nil rfl

theorem lexRest_space {s : GoString} (h : peek s ≠ NONE) :
    lexRest (32 :: s) = (match lexRest s with
      | .ok (tok, k) => .ok (tok, k + 1)
      | .error e => .error e) := by
  have h32 : Lexer.isSpace 32 = true := by decide
  unfold lexRest
  rw [if_pos (by simp [peek]; decide), if_pos h]
  simp only [List.takeWhile_cons_of_pos h32, List.length_cons, List.drop_succ_cons]
  generalize (List.takeWhile Lexer.isSpace s).length = k
  generalize peek (List.drop k s) = c
  generalize List.takeWhile Lexer.isDigit (List.drop k s) = ds
  split_ifs <;> simp; omega

theorem yields_space {s : GoString} {ts : List Token} {e : Option Err} (h : peek s ≠ NONE)
    (hy : Yields s ts e) : Yields (32 :: s) ts e := by
  have hl := lexRest_space h
  cases hy with
  | eof hl1 hty =>
    rcases lexRest_ok_cases hl1 with h1 | h1
    · exact absurd h1.2.2 h
    · exact absurd hty h1.1
  | err hl1 =>
    rw [hl1] at hl
    exact Yields.err hl
  | tok hl1 hty hrest =>
    rw [hl1] at hl
    exact Yields.tok hl hty (by simpa using hrest)


theorem lexRest_char {c : Byte} (s : GoString) (hs : Lexer.isSpace c = false)
    (hn : c ≠ NONE) :
    lexRest (c :: s) =
      if Lexer.isDigit c then
        .ok (tokInt (atoi ((c :: s).takeWhile Lexer.isDigit)),
          ((c :: s).takeWhile Lexer.isDigit).length)
      else if c = 40 then .ok (tokChar .LPAREN 40, 1)
      else if c = 41 then .ok (tokChar .RPAREN 41, 1)
      else if c = 43 then .ok (tokChar .PLUS 43, 1)
      else if c = 45 then .ok (tokChar .MINUS 45, 1)
      else if c = 42 then .ok (tokChar .MUL 42, 1)
      else if c = 47 then .ok (tokChar .DIV 47, 1)
      else .error (.LexError c) := by
  unfold lexRest
  have h1 : List.takeWhile Lexer.isSpace (c :: s) = [] :=
    List.takeWhile_cons_of_neg (by simp [hs])
  rw [if_pos (by simpa [peek] using hn)]
  simp only [h1, List.length_nil, List.drop_zero, peek, Nat.zero_add]

theorem lexRest_lparen (s : GoString) : lexRest (40 :: s) = .ok (tokChar .LPAREN 40, 1) := by
  rw [lexRest_char s (by decide) (by decide)]; rfl

theorem lexRest_rparen (s : GoString) : lexRest (41 :: s) = .ok (tokChar .RPAREN 41, 1) := by
  rw [lexRest_char s (by decide) (by decide)]; rfl

theorem lexRest_plus (s : GoString) : lexRest (43 :: s) = .ok (tokChar .PLUS 43, 1) := by
  rw [lexRest_char s (by decide) (by decide)]; rfl

theorem lexRest_minus (s : GoString) : lexRest (45 :: s) = .ok (tokChar .MINUS 45, 1) := by
  rw [lexRest_char s (by decide) (by decide)]; rfl

theorem lexRest_mul (s : GoString) : lexRest (42 :: s) = .ok (tokChar .MUL 42, 1) := by
  rw [lexRest_char s (by decide) (by decide)]; rfl

theorem lexRest_div (s : GoString) : lexRest (47 :: s) = .ok (tokChar .DIV 47, 1) := by
  rw [lexRest_char s (by decide) (by decide)]; rfl

theorem isDigit_not_space {c : Byte} (h : Lexer.isDigit c = true) : Lexer.isSpace c = false := by
  by_cases hc : c = 32
  · subst hc; revert h; decide
  · simp [Lexer.isSpace, hc]

theorem takeWhile_digits_append {ds s : GoString} (hd : ∀ c ∈ ds, Lexer.isDigit c = true)
    (hs : Lexer.isDigit (peek s) = false) : (ds ++ s).takeWhile Lexer.isDigit = ds := by
  rw [List.takeWhile_append_of_pos hd]
  cases s with
  | nil => simp
  | cons c s =>
    simp only [peek] at hs
    rw [List.takeWhile_cons_of_neg (by simp [hs])]; simp

theorem lexRest_digits {ds s : GoString} (hne : ds ≠ [])
    (hd : ∀ c ∈ ds, Lexer.isDigit c = true) (hs : Lexer.isDigit (peek s) = false) :
    lexRest (ds ++ s) = .ok (tokInt (atoi ds), ds.length) := by
  cases ds with
  | nil => exact absurd rfl hne
  | cons c ds1 =>
    have hc : Lexer.isDigit c = true := hd c (by simp)
    have := lexRest_char (ds1 ++ s) (isDigit_not_space hc) (Lexer.isDigit_ne_NONE hc)
    rw [List.cons_append, this, if_pos hc]
    rw [← List.cons_append, takeWhile_digits_append hd hs]

theorem yields_digits {ds s : GoString} {ts : List Token} {e : Option Err} (hne : ds ≠ [])
    (hd : ∀ c ∈ ds, Lexer.isDigit c = true) (hs : Lexer.isDigit (peek s) = false)
    (hy : Yields s ts e) : Yields (ds ++ s) (tokInt (atoi ds) :: ts) e :=
  Yields.tok (lexRest_digits hne hd hs) (by simp [tokInt]) (by simpa using hy)

theorem yields_lparen {s : GoString} {ts : List Token} {e : Option Err} (hy : Yields s ts e) :
    Yields (40 :: s) (tokChar .LPAREN 40 :: ts) e :=
  Yields.tok (lexRest_lparen s) (by simp [tokChar]) (by simpa using hy)

theorem yields_rparen {s : GoString} {ts : List Token} {e : Option Err} (hy : Yields s ts e) :
    Yields (41 :: s) (tokChar .RPAREN 41 :: ts) e :=
  Yields.tok (lexRest_rparen s) (by simp [tokChar]) (by simpa using hy)

theorem yields_plus {s : GoString} {ts : List Token} {e : Option Err} (hy : Yields s ts e) :
    Yields (43 :: s) (tokChar .PLUS 43 :: ts) e :=
  Yields.tok (lexRest_plus s) (by simp [tokChar]) (by simpa using hy)

theorem yields_minus {s : GoString} {ts : List Token} {e : Option Err} (hy : Yields s ts e) :
    Yields (45 :: s) (tokChar .MINUS 45 :: ts) e :=
  Yields.tok (lexRest_minus s) (by simp [tokChar]) (by simpa using hy)

theorem yields_mul {s : GoString} {ts : List Token} {e : Option Err} (hy : Yields s ts e) :
    Yields (42 :: s) (tokChar .MUL 42 :: ts) e :=
  Yields.tok (lexRest_mul s) (by simp [tokChar]) (by simpa using hy)

theorem yields_div {s : GoString} {ts : List Token} {e : Option Err} (hy : Yields s ts e) :
    Yields (47 :: s) (tokChar .DIV 47 :: ts) e :=
  Yields.tok (lexRest_div s) (by simp [tokChar]) (by simpa using hy)


/-! ### The pipeline through the token sequence -/

theorem NewParser_sim {t : GoString} {ts : List Token} {fin : Option Err}
    (hy : Yields t ts fin) :
    EatSim (NewParser (Lexer.seek t 0)) (AParser.start ts fin) := by
  unfold NewParser
  rw [Lexer.getNextToken_seek]
  simp only [List.drop_zero, Nat.zero_add]
  cases hy with
  | eof hl hty =>
    obtain ⟨h1, h2⟩ := lexRest_eof hl hty
    subst h1 h2
    rw [hl]
    exact Or.inl ⟨_, _, rfl, rfl, Lexer.wf_seek _ _, rfl, Yields.eof hl hty⟩
  | err hl =>
    rw [hl]
    exact Or.inr ⟨_, rfl, rfl⟩
  | tok hl hty hrest =>
    rw [hl]
    exact Or.inl ⟨_, _, rfl, rfl, Lexer.wf_seek _ _, rfl, hrest⟩

theorem seek_text (t : GoString) (p : Nat) : (Lexer.seek t p).text = t := rfl

/-- The text stays the same through `getNextToken`. -/
theorem getNextToken_text {l l1 : Lexer} {tok : Token}
    (h : l.getNextToken = .ok (tok, l1)) (hwf : l.Wf) : l1.text = l.text := by
  rw [Lexer.getNextToken_wf hwf] at h
  cases hl : lexRest l.rest with
  | error e => rw [hl] at h; cases h
  | ok r =>
    obtain ⟨tok1, k⟩ := r
    rw [hl] at h
    simp only [Except.ok.injEq, Prod.mk.injEq] at h
    rw [← h.2]; rfl

theorem NewParser_text {l : Lexer} {p : Parser} (h : NewParser l = .ok p) (hwf : l.Wf) :
    p.lexer.text = l.text := by
  unfold NewParser at h
  cases hg : l.getNextToken with
  | error e => rw [hg] at h; cases h
  | ok r =>
    obtain ⟨tok, l1⟩ := r
    rw [hg] at h
    simp only [ok_bind] at h
    cases h
    exact getNextToken_text hg hwf

/-- The receiver of `visit` plays no part in the result. -/
theorem visit_indep (v w : VisitorNode) (n : Node) : v.visit n = w.visit n := by
  induction n with
  | Num tok value => rfl
  | BinOp left op right ihl ihr => simp only [VisitorNode.visit, ihl, ihr]
  | other => rfl

/-- The pipeline computes the tree from the token sequence of the line. -/
theorem run_of_yields {t : GoString} {ts : List Token} {fin : Option Err} (hne : t ≠ [])
    (hy : Yields t ts fin) (v : VisitorNode) :
    run t = (AParser.tree (t.length + 2) ts fin >>= v.visit) := by
  obtain ⟨c, s, rfl⟩ := List.exists_cons_of_ne_nil hne
  unfold run AParser.tree
  rw [NewLexer_cons, ok_bind]
  rcases NewParser_sim hy with ⟨p, a, hp, ha, hs⟩ | ⟨e, hp, ha⟩
  · rw [hp, ha, ok_bind, ok_bind]
    have ht : p.lexer.text = c :: s := by
      rw [NewParser_text hp (Lexer.wf_seek _ _)]; rfl
    unfold VisitorNode.interpret NewVisitor Parser.parse
    simp only [ht]
    rcases expr_sim ((c :: s).length + 2) p a hs with ⟨n, p2, a2, hp2, ha2, _⟩ | ⟨e, hp2, ha2⟩
    · rw [hp2, ha2, ok_bind, ok_bind]
      exact visit_indep _ _ _
    · rw [hp2, ha2, error_bind, error_bind]
      rfl
  · rw [hp, ha, error_bind, error_bind]
    rfl

end GoCalc

namespace GoCalc

theorem isLiteral_ne_nil {d : GoString} (h : isLiteral d = true) : d ≠ [] := by
  intro hd; subst hd; simp [isLiteral] at h

theorem isLiteral_digits {d : GoString} (h : isLiteral d = true) :
    ∀ c ∈ d, Lexer.isDigit c = true := by
  simp only [isLiteral, Bool.and_eq_true, List.all_eq_true] at h
  exact h.2

theorem peek_append_literal {d : GoString} (h : isLiteral d = true) (s : GoString) :
    peek (d ++ s) ≠ NONE := by
  cases d with
  | nil => simp [isLiteral] at h
  | cons c d1 => exact Lexer.isDigit_ne_NONE (isLiteral_digits h c (by simp))

theorem isDigit_peek_false_of {c : Byte} (s : GoString) (h : Lexer.isDigit c = false) :
    Lexer.isDigit (peek (c :: s)) = false := h

theorem isDigit_peek_nil : Lexer.isDigit (peek []) = false := by decide

theorem isOp_cases {c : Byte} (h : isOp c = true) : c = 43 ∨ c = 45 ∨ c = 42 ∨ c = 47 := by
  simpa [isOp, or_assoc] using h

theorem yields_op {c : Byte} (h : isOp c = true) {s : GoString} {ts : List Token}
    {e : Option Err} (hy : Yields s ts e) : Yields (c :: s) (opTok c :: ts) e := by
  rcases isOp_cases h with rfl | rfl | rfl | rfl
  · exact yields_plus hy
  · exact yields_minus hy
  · exact yields_mul hy
  · exact yields_div hy

theorem isOp_ne_NONE {c : Byte} (h : isOp c = true) : c ≠ NONE := by
  rcases isOp_cases h with rfl | rfl | rfl | rfl <;> decide

theorem isOp_not_digit {c : Byte} (h : isOp c = true) : Lexer.isDigit c = false := by
  rcases isOp_cases h with rfl | rfl | rfl | rfl <;> decide

theorem peek_cons_ne {c : Byte} (h : c ≠ NONE) (s : GoString) : peek (c :: s) ≠ NONE := h

/-- Tree of `x op1 y op2 z` when `op2` binds tighter. -/
theorem tree_low_high (n : Nat) (x y z : Int) (op1 op2 : Byte)
    (h1 : op1 = 43 ∨ op1 = 45) (h2 : op2 = 42 ∨ op2 = 47) :
    AParser.tree (n + 5) [tokInt x, opTok op1, tokInt y, opTok op2, tokInt z] none
      = .ok (.BinOp (.Num (tokInt x) x) (opTok op1)
          (.BinOp (.Num (tokInt y) y) (opTok op2) (.Num (tokInt z) z))) := by
  rcases h1 with rfl | rfl <;> rcases h2 with rfl | rfl <;> rfl

/-- Tree of `x op2 y op1 z` when `op2` binds tighter. -/
theorem tree_high_low (n : Nat) (x y z : Int) (op1 op2 : Byte)
    (h1 : op1 = 43 ∨ op1 = 45) (h2 : op2 = 42 ∨ op2 = 47) :
    AParser.tree (n + 5) [tokInt x, opTok op2, tokInt y, opTok op1, tokInt z] none
      = .ok (.BinOp (.BinOp (.Num (tokInt x) x) (opTok op2) (.Num (tokInt y) y)) (opTok op1)
          (.Num (tokInt z) z)) := by
  rcases h1 with rfl | rfl <;> rcases h2 with rfl | rfl <;> rfl

theorem opTok_Literal (c : Byte) : (opTok c).Literal = [c] := rfl

/-- Token sequence of `a x b y c` written with single spaces. -/
theorem yields_abc {a b c : GoString} (ha : isLiteral a = true) (hb : isLiteral b = true)
    (hc : isLiteral c = true) {x y : Byte} (hx : isOp x = true) (hy : isOp y = true) :
    Yields (a ++ str " " ++ [x] ++ str " " ++ b ++ str " " ++ [y] ++ str " " ++ c)
      [tokInt (atoi a), opTok x, tokInt (atoi b), opTok y, tokInt (atoi c)] none := by
  have e : a ++ str " " ++ [x] ++ str " " ++ b ++ str " " ++ [y] ++ str " " ++ c
      = a ++ (32 :: x :: 32 :: (b ++ (32 :: y :: 32 :: (c ++ [])))) := by
    simp [str_space]
  rw [e]
  have h5 : Yields (c ++ []) [tokInt (atoi c)] none :=
    yields_digits (isLiteral_ne_nil hc) (isLiteral_digits hc) isDigit_peek_nil yields_nil
  have h4 := yields_op hy (yields_space (peek_append_literal hc _) h5)
  have h3 := yields_digits (isLiteral_ne_nil hb) (isLiteral_digits hb)
    (isDigit_peek_false_of _ (by decide)) (yields_space (peek_cons_ne (isOp_ne_NONE hy) _) h4)
  have h2 := yields_op hx (yields_space (peek_append_literal hb _) h3)
  exact yields_digits (isLiteral_ne_nil ha) (isLiteral_digits ha)
    (isDigit_peek_false_of _ (by decide)) (yields_space (peek_cons_ne (isOp_ne_NONE hx) _) h2)

theorem length_abc (a b c : GoString) (x y : Byte) (ha : isLiteral a = true) :
    ∃ n, (a ++ str " " ++ [x] ++ str " " ++ b ++ str " " ++ [y] ++ str " " ++ c).length + 2
      = n + 5 ∧ a ++ str " " ++ [x] ++ str " " ++ b ++ str " " ++ [y] ++ str " " ++ c ≠ [] := by
  refine ⟨(a ++ str " " ++ [x] ++ str " " ++ b ++ str " " ++ [y] ++ str " " ++ c).length - 3,
    ?_, ?_⟩
  · simp [str_space]; omega
  · have := isLiteral_ne_nil ha
    simp [this]

/-- Precedence on arbitrary literals: for all non-empty digit strings `a`, `b`,
`c`, every `op1` in `+ -` and every `op2` in `* /`, the pipeline renders the line
`a op1 b op2 c` as `(op1 a1 (op2 b1 c1))` and the line `a op2 b op1 c` as
`(op1 (op2 a1 b1) c1)`, where `x1` is the decimal text of the `int` the lexer
reads from `x`. -/
theorem precedence_literals (a b c : GoString) (op1 op2 : Byte)
    (ha : isLiteral a = true) (hb : isLiteral b = true) (hc : isLiteral c = true)
    (h1 : op1 = 43 ∨ op1 = 45) (h2 : op2 = 42 ∨ op2 = 47) :
    run (a ++ str " " ++ [op1] ++ str " " ++ b ++ str " " ++ [op2] ++ str " " ++ c)
      = .ok (str "(" ++ [op1] ++ str " " ++ sprint (atoi a) ++ str " (" ++ [op2] ++ str " "
          ++ sprint (atoi b) ++ str " " ++ sprint (atoi c) ++ str "))")
    ∧ run (a ++ str " " ++ [op2] ++ str " " ++ b ++ str " " ++ [op1] ++ str " " ++ c)
      = .ok (str "(" ++ [op1] ++ str " (" ++ [op2] ++ str " " ++ sprint (atoi a) ++ str " "
          ++ sprint (atoi b) ++ str ") " ++ sprint (atoi c) ++ str ")") := by
  have v : VisitorNode := ⟨⟨Lexer.seek [] 0, tokEOF⟩⟩
  have s1 : str " (" = [32, 40] := by decide
  have s2 : str "))" = [41, 41] := by decide
  have s3 : str ") " = [41, 32] := by decide
  have o1 : isOp op1 = true := by rcases h1 with rfl | rfl <;> decide
  have o2 : isOp op2 = true := by rcases h2 with rfl | rfl <;> decide
  constructor
  · obtain ⟨n, hn, hne⟩ := length_abc a b c op1 op2 ha
    rw [run_of_yields hne (yields_abc ha hb hc o1 o2) v, hn, tree_low_high n _ _ _ _ _ h1 h2,
      ok_bind]
    simp [VisitorNode.visit, opTok_Literal, str_lparen, str_rparen, str_space, s1, s2, s3,
      ok_bind]
    rfl
  · obtain ⟨n, hn, hne⟩ := length_abc a b c op2 op1 ha
    rw [run_of_yields hne (yields_abc ha hb hc o2 o1) v, hn, tree_high_low n _ _ _ _ _ h1 h2,
      ok_bind]
    simp [VisitorNode.visit, opTok_Literal, str_lparen, str_rparen, str_space, s1, s2, s3,
      ok_bind]
    rfl

end GoCalc

namespace GoCalc

/-- The parser computes the tree from the token sequence of the line. -/
theorem parseLine_of_yields {t : GoString} {ts : List Token} {fin : Option Err} (hne : t ≠ [])
    (hy : Yields t ts fin) : parseLine t = AParser.tree (t.length + 2) ts fin := by
  obtain ⟨c, s, rfl⟩ := List.exists_cons_of_ne_nil hne
  unfold parseLine AParser.tree
  rw [NewLexer_cons, ok_bind]
  rcases NewParser_sim hy with ⟨p, a, hp, ha, hs⟩ | ⟨e, hp, ha⟩
  · rw [hp, ha, ok_bind, ok_bind]
    have ht : p.lexer.text = c :: s := by
      rw [NewParser_text hp (Lexer.wf_seek _ _)]; rfl
    unfold Parser.parse
    simp only [ht]
    rcases expr_sim ((c :: s).length + 2) p a hs with ⟨n, p2, a2, hp2, ha2, _⟩ | ⟨e, hp2, ha2⟩
    · rw [hp2, ha2, ok_bind, ok_bind]
    · rw [hp2, ha2, error_bind, error_bind]
  · rw [hp, ha, error_bind, error_bind]

/-- Token sequence of `(a x b) y c`. -/
theorem yields_paren_left {a b c : GoString} (ha : isLiteral a = true)
    (hb : isLiteral b = true) (hc : isLiteral c = true) {x y : Byte} (hx : isOp x = true)
    (hy : isOp y = true) :
    Yields (str "(" ++ a ++ str " " ++ [x] ++ str " " ++ b ++ str ") " ++ [y] ++ str " " ++ c)
      [tokChar .LPAREN 40, tokInt (atoi a), opTok x, tokInt (atoi b), tokChar .RPAREN 41,
        opTok y, tokInt (atoi c)] none := by
  have s3 : str ") " = [41, 32] := by decide
  have e : str "(" ++ a ++ str " " ++ [x] ++ str " " ++ b ++ str ") " ++ [y] ++ str " " ++ c
      = 40 :: (a ++ (32 :: x :: 32 :: (b ++ (41 :: 32 :: y :: 32 :: (c ++ []))))) := by
    simp [str_space, str_lparen, s3]
  rw [e]
  have h5 : Yields (c ++ []) [tokInt (atoi c)] none :=
    yields_digits (isLiteral_ne_nil hc) (isLiteral_digits hc) isDigit_peek_nil yields_nil
  have h4 := yields_op hy (yields_space (peek_append_literal hc _) h5)
  have h3 := yields_digits (isLiteral_ne_nil hb) (isLiteral_digits hb)
    (isDigit_peek_false_of _ (by decide))
    (yields_rparen (yields_space (peek_cons_ne (isOp_ne_NONE hy) _) h4))
  have h2 := yields_op hx (yields_space (peek_append_literal hb _) h3)
  exact yields_lparen (yields_digits (isLiteral_ne_nil ha) (isLiteral_digits ha)
    (isDigit_peek_false_of _ (by decide)) (yields_space (peek_cons_ne (isOp_ne_NONE hx) _) h2))

/-- Token sequence of `a y (b x c)`. -/
theorem yields_paren_right {a b c : GoString} (ha : isLiteral a = true)
    (hb : isLiteral b = true) (hc : isLiteral c = true) {x y : Byte} (hx : isOp x = true)
    (hy : isOp y = true) :
    Yields (a ++ str " " ++ [y] ++ str " (" ++ b ++ str " " ++ [x] ++ str " " ++ c ++ str ")")
      [tokInt (atoi a), opTok y, tokChar .LPAREN 40, tokInt (atoi b), opTok x,
        tokInt (atoi c), tokChar .RPAREN 41] none := by
  have s1 : str " (" = [32, 40] := by decide
  have e : a ++ str " " ++ [y] ++ str " (" ++ b ++ str " " ++ [x] ++ str " " ++ c ++ str ")"
      = a ++ (32 :: y :: 32 :: 40 :: (b ++ (32 :: x :: 32 :: (c ++ [41])))) := by
    simp [str_space, str_rparen, s1]
  rw [e]
  have h5 : Yields (c ++ [41]) [tokInt (atoi c), tokChar .RPAREN 41] none :=
    yields_digits (isLiteral_ne_nil hc) (isLiteral_digits hc)
      (isDigit_peek_false_of _ (by decide)) (yields_rparen yields_nil)
  have h4 := yields_op hx (yields_space (peek_append_literal hc _) h5)
  have h3 := yields_lparen (yields_digits (isLiteral_ne_nil hb) (isLiteral_digits hb)
    (isDigit_peek_false_of _ (by decide)) (yields_space (peek_cons_ne (isOp_ne_NONE hx) _) h4))
  have h2 := yields_op hy (yields_space (peek_cons_ne (by decide) _) h3)
  exact yields_digits (isLiteral_ne_nil ha) (isLiteral_digits ha)
    (isDigit_peek_false_of _ (by decide)) (yields_space (peek_cons_ne (isOp_ne_NONE hy) _) h2)

/-- Tree of `(x op1 y) op2 z`. -/
theorem tree_paren_left (n : Nat) (x y z : Int) (op1 op2 : Byte)
    (h1 : isOp op1 = true) (h2 : isOp op2 = true) :
    AParser.tree (n + 5) [tokChar .LPAREN 40, tokInt x, opTok op1, tokInt y,
        tokChar .RPAREN 41, opTok op2, tokInt z] none
      = .ok (.BinOp (.BinOp (.Num (tokInt x) x) (opTok op1) (.Num (tokInt y) y)) (opTok op2)
          (.Num (tokInt z) z)) := by
  rcases isOp_cases h1 with rfl | rfl | rfl | rfl <;>
    rcases isOp_cases h2 with rfl | rfl | rfl | rfl <;> rfl

/-- Tree of `x op2 (y op1 z)`. -/
theorem tree_paren_right (n : Nat) (x y z : Int) (op1 op2 : Byte)
    (h1 : isOp op1 = true) (h2 : isOp op2 = true) :
    AParser.tree (n + 5) [tokInt x, opTok op2, tokChar .LPAREN 40, tokInt y, opTok op1,
        tokInt z, tokChar .RPAREN 41] none
      = .ok (.BinOp (.Num (tokInt x) x) (opTok op2)
          (.BinOp (.Num (tokInt y) y) (opTok op1) (.Num (tokInt z) z))) := by
  rcases isOp_cases h1 with rfl | rfl | rfl | rfl <;>
    rcases isOp_cases h2 with rfl | rfl | rfl | rfl <;> rfl

/-- Parentheses on arbitrary literals: for all non-empty digit strings `a`, `b`,
`c` and all operators `op1`, `op2` among `+ - * /`, the pipeline renders the line
`(a op1 b) op2 c` as `(op2 (op1 a1 b1) c1)` and the line `a op2 (b op1 c)` as
`(op2 a1 (op1 b1 c1))`, where `x1` is the decimal text of the `int` the lexer
reads from `x`. -/
theorem parentheses_literals (a b c : GoString) (op1 op2 : Byte)
    (ha : isLiteral a = true) (hb : isLiteral b = true) (hc : isLiteral c = true)
    (h1 : isOp op1 = true) (h2 : isOp op2 = true) :
    run (str "(" ++ a ++ str " " ++ [op1] ++ str " " ++ b ++ str ") " ++ [op2] ++ str " " ++ c)
      = .ok (str "(" ++ [op2] ++ str " (" ++ [op1] ++ str " " ++ sprint (atoi a) ++ str " "
          ++ sprint (atoi b) ++ str ") " ++ sprint (atoi c) ++ str ")")
    ∧ run (a ++ str " " ++ [op2] ++ str " (" ++ b ++ str " " ++ [op1] ++ str " " ++ c ++ str ")")
      = .ok (str "(" ++ [op2] ++ str " " ++ sprint (atoi a) ++ str " (" ++ [op1] ++ str " "
          ++ sprint (atoi b) ++ str " " ++ sprint (atoi c) ++ str "))") := by
  have v : VisitorNode := ⟨⟨Lexer.seek [] 0, tokEOF⟩⟩
  have s1 : str " (" = [32, 40] := by decide
  have s2 : str "))" = [41, 41] := by decide
  have s3 : str ") " = [41, 32] := by decide
  constructor
  · have hlen : ∃ n, (str "(" ++ a ++ str " " ++ [op1] ++ str " " ++ b ++ str ") " ++ [op2]
        ++ str " " ++ c).length + 2 = n + 5 :=
      ⟨(str "(" ++ a ++ str " " ++ [op1] ++ str " " ++ b ++ str ") " ++ [op2]
        ++ str " " ++ c).length - 3, by simp [str_space, str_lparen, s3]; omega⟩
    obtain ⟨n, hn⟩ := hlen
    rw [run_of_yields (by simp [str_lparen]) (yields_paren_left ha hb hc h1 h2) v, hn,
      tree_paren_left n _ _ _ _ _ h1 h2, ok_bind]
    simp [VisitorNode.visit, opTok_Literal, str_lparen, str_rparen, str_space, s1, s2, s3,
      ok_bind]
    rfl
  · have hlen : ∃ n, (a ++ str " " ++ [op2] ++ str " (" ++ b ++ str " " ++ [op1] ++ str " "
        ++ c ++ str ")").length + 2 = n + 5 :=
      ⟨(a ++ str " " ++ [op2] ++ str " (" ++ b ++ str " " ++ [op1] ++ str " "
        ++ c ++ str ")").length - 3, by simp [str_space, str_rparen, s1]; omega⟩
    obtain ⟨n, hn⟩ := hlen
    rw [run_of_yields (by simp [str_rparen]) (yields_paren_right ha hb hc h1 h2) v, hn,
      tree_paren_right n _ _ _ _ _ h1 h2, ok_bind]
    simp [VisitorNode.visit, opTok_Literal, str_lparen, str_rparen, str_space, s1, s2, s3,
      ok_bind]
    rfl

end GoCalc

namespace GoCalc

namespace AParser

theorem start_none (ts : List Token) : start ts none = .ok (ofTokens ts) := by
  cases ts <;> rfl

theorem eat_ofTokens (t : Token) (ts : List Token) :
    (ofTokens (t :: ts)).eat t.Typ = .ok (ofTokens ts) := by
  unfold eat
  rw [if_pos (show (ofTokens (t :: ts)).cur.Typ = t.Typ from rfl)]
  exact start_none ts

theorem factorWith_int (e : AParser → Except Err (Node × AParser)) (v : Int)
    (ts : List Token) :
    factorWith e (ofTokens (tokInt v :: ts)) = .ok (.Num (tokInt v) v, ofTokens ts) := by
  cases ts <;> rfl

theorem termLoop_stop (e : AParser → Except Err (Node × AParser)) (f : Nat) (n : Node)
    (a : AParser) (h : ¬ (a.cur.Typ = .MUL ∨ a.cur.Typ = .DIV)) :
    termLoop e (f + 1) n a = .ok (n, a) := by
  unfold termLoop
  rw [if_neg h]; rfl

theorem exprLoop_stop (e : AParser → Except Err (Node × AParser)) (f : Nat) (n : Node)
    (a : AParser) (h : ¬ (a.cur.Typ = .PLUS ∨ a.cur.Typ = .MINUS)) :
    exprLoop e (f + 1) n a = .ok (n, a) := by
  unfold exprLoop
  rw [if_neg h]; rfl

theorem termLoop_step (e : AParser → Except Err (Node × AParser)) (f : Nat) (n : Node)
    (a : AParser) (h : a.cur.Typ = .MUL ∨ a.cur.Typ = .DIV) :
    termLoop e (f + 1) n a = (a.eat a.cur.Typ >>= fun a1 =>
      factorWith e a1 >>= fun r => termLoop e f (.BinOp n a.cur r.1) r.2) := by
  conv_lhs => unfold termLoop
  rw [if_pos h]

theorem exprLoop_step (e : AParser → Except Err (Node × AParser)) (f : Nat) (n : Node)
    (a : AParser) (h : a.cur.Typ = .PLUS ∨ a.cur.Typ = .MINUS) :
    exprLoop e (f + 1) n a = (a.eat a.cur.Typ >>= fun a1 =>
      termWith e f a1 >>= fun r => exprLoop e f (.BinOp n a.cur r.1) r.2) := by
  conv_lhs => unfold exprLoop
  rw [if_pos h]

end AParser

theorem opTok_Typ_add {c : Byte} (h : c = 43 ∨ c = 45) :
    (opTok c).Typ = .PLUS ∨ (opTok c).Typ = .MINUS := by
  rcases h with rfl | rfl
  · left; rfl
  · right; rfl

theorem opTok_Typ_mul {c : Byte} (h : c = 42 ∨ c = 47) :
    (opTok c).Typ = .MUL ∨ (opTok c).Typ = .DIV := by
  rcases h with rfl | rfl
  · left; rfl
  · right; rfl

theorem chainTokens_cons (x : Byte × GoString) (rest : List (Byte × GoString)) :
    chainTokens (x :: rest) = opTok x.1 :: tokInt (atoi x.2) :: chainTokens rest := by
  simp [chainTokens]

theorem cur_chain_add (rest : List (Byte × GoString))
    (h : ∀ x ∈ rest, x.1 = 43 ∨ x.1 = 45) :
    ¬ ((AParser.ofTokens (chainTokens rest)).cur.Typ = .MUL ∨
       (AParser.ofTokens (chainTokens rest)).cur.Typ = .DIV) := by
  cases rest with
  | nil => decide
  | cons x rest =>
    rw [chainTokens_cons]
    rcases h x (by simp) with h1 | h1 <;>
      (simp only [AParser.ofTokens, h1]; decide)

theorem cur_chain_mul (rest : List (Byte × GoString))
    (h : ∀ x ∈ rest, x.1 = 42 ∨ x.1 = 47) :
    ¬ ((AParser.ofTokens (chainTokens rest)).cur.Typ = .PLUS ∨
       (AParser.ofTokens (chainTokens rest)).cur.Typ = .MINUS) := by
  cases rest with
  | nil => decide
  | cons x rest =>
    rw [chainTokens_cons]
    rcases h x (by simp) with h1 | h1 <;>
      (simp only [AParser.ofTokens, h1]; decide)

theorem exprLoop_chain (e : AParser → Except Err (Node × AParser)) :
    ∀ (rest : List (Byte × GoString)) (f : Nat) (n : Node),
      (∀ x ∈ rest, x.1 = 43 ∨ x.1 = 45) → rest.length + 1 ≤ f →
      AParser.exprLoop e f n (AParser.ofTokens (chainTokens rest))
        = .ok (rest.foldl (fun acc x => Node.BinOp acc (opTok x.1) (numNode x.2)) n,
            AParser.ofTokens []) := by
  intro rest
  induction rest with
  | nil =>
    intro f n _ hf
    obtain ⟨f1, rfl⟩ : ∃ f1, f = f1 + 1 := ⟨f - 1, by omega⟩
    rfl
  | cons x rest ih =>
    intro f n h hf
    simp only [List.length_cons] at hf
    obtain ⟨f1, rfl⟩ : ∃ f1, f = f1 + 2 := ⟨f - 2, by omega⟩
    have hx := h x (by simp)
    have hrest : ∀ y ∈ rest, y.1 = 43 ∨ y.1 = 45 := fun y hy => h y (by simp [hy])
    rw [chainTokens_cons, AParser.exprLoop_step _ _ _ _ (opTok_Typ_add hx)]
    have h1 : (AParser.ofTokens (opTok x.1 :: tokInt (atoi x.2) :: chainTokens rest)).cur
        = opTok x.1 := rfl
    rw [h1, AParser.eat_ofTokens, ok_bind]
    unfold AParser.termWith
    rw [AParser.factorWith_int, ok_bind]
    dsimp only
    rw [AParser.termLoop_stop _ _ _ _ (cur_chain_add rest hrest), ok_bind]
    dsimp only
    rw [ih (f1 + 1) _ hrest (by omega)]
    rfl

theorem termLoop_chain (e : AParser → Except Err (Node × AParser)) :
    ∀ (rest : List (Byte × GoString)) (f : Nat) (n : Node),
      (∀ x ∈ rest, x.1 = 42 ∨ x.1 = 47) → rest.length + 1 ≤ f →
      AParser.termLoop e f n (AParser.ofTokens (chainTokens rest))
        = .ok (rest.foldl (fun acc x => Node.BinOp acc (opTok x.1) (numNode x.2)) n,
            AParser.ofTokens []) := by
  intro rest
  induction rest with
  | nil =>
    intro f n _ hf
    obtain ⟨f1, rfl⟩ : ∃ f1, f = f1 + 1 := ⟨f - 1, by omega⟩
    rfl
  | cons x rest ih =>
    intro f n h hf
    simp only [List.length_cons] at hf
    obtain ⟨f1, rfl⟩ : ∃ f1, f = f1 + 2 := ⟨f - 2, by omega⟩
    have hx := h x (by simp)
    have hrest : ∀ y ∈ rest, y.1 = 42 ∨ y.1 = 47 := fun y hy => h y (by simp [hy])
    rw [chainTokens_cons, AParser.termLoop_step _ _ _ _ (opTok_Typ_mul hx)]
    have h1 : (AParser.ofTokens (opTok x.1 :: tokInt (atoi x.2) :: chainTokens rest)).cur
        = opTok x.1 := rfl
    rw [h1, AParser.eat_ofTokens, ok_bind, AParser.factorWith_int, ok_bind]
    dsimp only
    rw [ih (f1 + 1) _ hrest (by omega)]
    rfl

/-- Tree of a chain of operators of one precedence class. -/
theorem tree_chain (v : Int) (rest : List (Byte × GoString)) (f : Nat)
    (h : (∀ x ∈ rest, x.1 = 43 ∨ x.1 = 45) ∨ (∀ x ∈ rest, x.1 = 42 ∨ x.1 = 47))
    (hf : rest.length + 2 ≤ f) :
    AParser.tree f (tokInt v :: chainTokens rest) none
      = .ok (rest.foldl (fun acc x => Node.BinOp acc (opTok x.1) (numNode x.2))
          (.Num (tokInt v) v)) := by
  obtain ⟨f1, rfl⟩ : ∃ f1, f = f1 + 2 := ⟨f - 2, by omega⟩
  unfold AParser.tree
  rw [AParser.start_none, ok_bind]
  unfold AParser.expr AParser.termWith
  rw [AParser.factorWith_int, ok_bind]
  dsimp only
  rcases h with h | h
  · rw [AParser.termLoop_stop _ _ _ _ (cur_chain_add rest h), ok_bind]
    dsimp only
    rw [exprLoop_chain _ rest (f1 + 1) _ h (by omega)]
    rfl
  · rw [termLoop_chain _ rest (f1 + 1) _ h (by omega), ok_bind]
    dsimp only
    rw [AParser.exprLoop_stop _ _ _ _ (by decide)]
    rfl


theorem chainText_cons (n0 : GoString) (x : Byte × GoString) (rest : List (Byte × GoString)) :
    chainText n0 (x :: rest) = n0 ++ (32 :: x.1 :: 32 :: chainText x.2 rest) := by
  simp [chainText, str_space]

theorem chainText_nil (n0 : GoString) : chainText n0 [] = n0 ++ [] := by
  simp [chainText]

theorem peek_chainText {n0 : GoString} (h : isLiteral n0 = true)
    (rest : List (Byte × GoString)) : peek (chainText n0 rest) ≠ NONE :=
  peek_append_literal h _

theorem yields_chain : ∀ (rest : List (Byte × GoString)) (n0 : GoString),
    isLiteral n0 = true → (∀ x ∈ rest, isOp x.1 = true ∧ isLiteral x.2 = true) →
    Yields (chainText n0 rest) (tokInt (atoi n0) :: chainTokens rest) none := by
  intro rest
  induction rest with
  | nil =>
    intro n0 h0 _
    rw [chainText_nil]
    exact yields_digits (isLiteral_ne_nil h0) (isLiteral_digits h0) isDigit_peek_nil yields_nil
  | cons x rest ih =>
    intro n0 h0 h
    obtain ⟨hx1, hx2⟩ := h x (by simp)
    have hrest : ∀ y ∈ rest, isOp y.1 = true ∧ isLiteral y.2 = true :=
      fun y hy => h y (by simp [hy])
    rw [chainText_cons, chainTokens_cons]
    exact yields_digits (isLiteral_ne_nil h0) (isLiteral_digits h0)
      (isDigit_peek_false_of _ (by decide))
      (yields_space (peek_cons_ne (isOp_ne_NONE hx1) _)
        (yields_op hx1 (yields_space (peek_chainText hx2 rest) (ih x.2 hx2 hrest))))

theorem length_chainText (n0 : GoString) (rest : List (Byte × GoString)) :
    rest.length ≤ (chainText n0 rest).length := by
  induction rest generalizing n0 with
  | nil => simp
  | cons x rest ih =>
    rw [chainText_cons]
    have := ih x.2
    simp only [List.length_append, List.length_cons]
    omega

theorem rightsAreNum_foldl (rest : List (Byte × GoString)) (n : Node)
    (h : n.rightsAreNum = true) :
    (rest.foldl (fun acc x => Node.BinOp acc (opTok x.1) (numNode x.2)) n).rightsAreNum
      = true := by
  induction rest generalizing n with
  | nil => exact h
  | cons x rest ih => exact ih _ (by simpa [Node.rightsAreNum, numNode] using h)

theorem isOp_of_class {rest : List (Byte × GoString)}
    (h : (∀ x ∈ rest, x.1 = 43 ∨ x.1 = 45) ∨ (∀ x ∈ rest, x.1 = 42 ∨ x.1 = 47)) :
    ∀ x ∈ rest, isOp x.1 = true := by
  intro x hx
  rcases h with h | h <;> rcases h x hx with h1 | h1 <;> (rw [h1]; decide)

/-- Claim C2. For every chain `n0 op1 n1 ... opk nk` of integer literals whose
operators all belong to one precedence class (all among `+ -` or all among
`* /`), the parser returns the left fold
`BinOp(...BinOp(BinOp(n0, op1, n1), op2, n2)..., opk, nk)`, in which the right
child of every `BinOp` is a literal. -/
theorem C2_left_associativity (n0 : GoString) (rest : List (Byte × GoString))
    (h0 : isLiteral n0 = true) (hlit : ∀ x ∈ rest, isLiteral x.2 = true)
    (hops : (∀ x ∈ rest, x.1 = 43 ∨ x.1 = 45) ∨ (∀ x ∈ rest, x.1 = 42 ∨ x.1 = 47)) :
    parseLine (chainText n0 rest) = .ok (leftFold n0 rest)
    ∧ (leftFold n0 rest).rightsAreNum = true := by
  constructor
  · have hne : chainText n0 rest ≠ [] := by
      have := isLiteral_ne_nil h0
      simp [chainText, this]
    rw [parseLine_of_yields hne (yields_chain rest n0 h0
      (fun x hx => ⟨isOp_of_class hops x hx, hlit x hx⟩))]
    rw [tree_chain _ rest _ hops (by have := length_chainText n0 rest; omega)]
    rfl
  · exact rightsAreNum_foldl rest _ rfl

end GoCalc

namespace GoCalc

/-! ### The value read by `strconv.Atoi` -/

/-- The digits `cs` appended to the number `n`. -/
theorem foldl_dec_ge (cs : GoString) (n : Nat) :
    n ≤ cs.foldl (fun n c => 10 * n + (c.val - 48)) n := by
  induction cs generalizing n with
  | nil => exact Nat.le_refl _
  | cons c cs ih =>
    simp only [List.foldl_cons]
    exact Nat.le_trans (by omega) (ih _)

theorem parseUintLoop_digits (cs : GoString) (hd : ∀ c ∈ cs, Lexer.isDigit c = true) :
    ∀ n : Nat, n < 18446744073709551616 →
    parseUintLoop cs n =
      some (if cs.foldl (fun n c => 10 * n + (c.val - 48)) n < 18446744073709551616
        then (cs.foldl (fun n c => 10 * n + (c.val - 48)) n, true)
        else (18446744073709551615, false)) := by
  induction cs with
  | nil => intro n hn; simp [parseUintLoop, hn]
  | cons c cs ih =>
    intro n hn
    have hc : 48 ≤ c.val ∧ c.val ≤ 57 := by
      have := hd c (by simp)
      simpa [Lexer.isDigit] using this
    have hcs : ∀ x ∈ cs, Lexer.isDigit x = true := fun x hx => hd x (by simp [hx])
    have hge := foldl_dec_ge cs (10 * n + (c.val - 48))
    unfold parseUintLoop
    rw [if_pos hc]
    simp only [List.foldl_cons]
    norm_num only
    by_cases h1 : 1844674407370955162 ≤ n
    · rw [if_pos h1, if_neg (by omega)]
    · rw [if_neg h1]
      by_cases h2 : n * 10 + (c.val - 48) < 18446744073709551616
      · rw [Nat.mod_eq_of_lt h2, if_neg (by omega), ih hcs _ h2]
        rw [show n * 10 = 10 * n from Nat.mul_comm _ _]
      · have h3 : (n * 10 + (c.val - 48)) % 18446744073709551616
            = n * 10 + (c.val - 48) - 18446744073709551616 := by
          omega
        rw [h3, if_pos (by omega), if_neg (by omega)]

/-- On a non-empty digit string `strconv.Atoi` returns its decimal value,
capped at the largest `int`. -/
theorem atoi_digits {d : GoString} (h : isLiteral d = true) :
    atoi d = ((min (decVal d) (2 ^ 63 - 1) : Nat) : Int) := by
  have hne := isLiteral_ne_nil h
  have hd := isLiteral_digits h
  obtain ⟨c, cs, rfl⟩ := List.exists_cons_of_ne_nil hne
  have hc : 48 ≤ c.val ∧ c.val ≤ 57 := by
    have := hd c (by simp)
    simpa [Lexer.isDigit] using this
  have h43 : c ≠ 43 := by intro hx; subst hx; revert hc; decide
  have h45 : c ≠ 45 := by intro hx; subst hx; revert hc; decide
  unfold atoi parseInt parseUint
  simp only [List.head?_cons, Option.some.injEq, h43, h45, or_self, if_false, reduceCtorEq,
    intSize]
  rw [parseUintLoop_digits _ hd 0 (by norm_num)]
  unfold decVal
  generalize List.foldl (fun n c => 10 * n + (c.val - 48)) 0 (c :: cs) = v
  by_cases hv : v < 18446744073709551616
  · simp only [hv, if_true]
    by_cases hv2 : v ≥ 2 ^ 63
    · simp [hv2]; omega
    · simp [hv2]; omega
  · simp only [hv, if_false]
    norm_num
    omega

end GoCalc

namespace GoCalc

theorem take_length_takeWhile (f : Byte → Bool) (s : GoString) :
    s.take (s.takeWhile f).length = s.takeWhile f := by
  induction s with
  | nil => rfl
  | cons c s ih =>
    by_cases h : f c = true
    · rw [List.takeWhile_cons_of_pos h]; simp [ih]
    · rw [List.takeWhile_cons_of_neg h]; simp

theorem peek_drop_takeWhile (f : Byte → Bool) (hn : f NONE = false) (s : GoString) :
    f (peek (s.drop (s.takeWhile f).length)) = false := by
  induction s with
  | nil => simpa [peek] using hn
  | cons c s ih =>
    by_cases h : f c = true
    · rw [List.takeWhile_cons_of_pos h]; simpa using ih
    · rw [List.takeWhile_cons_of_neg h]; simpa [peek] using h

theorem mem_takeWhile_imp (f : Byte → Bool) (s : GoString) :
    ∀ c ∈ s.takeWhile f, f c = true := by
  intro c hc
  exact List.mem_takeWhile_imp hc

/-- Claim C5 (amended). For every non-empty string `d` of decimal digits, the
first `getNextToken` call on a lexer built from `d` returns an `INTEGER` token
whose value is the base-10 integer denoted by `d` capped at the largest `int`,
`2^63 - 1`, and the next call returns `EOF`. -/
theorem C5_digits_single_token (d : GoString) (h : isLiteral d = true) :
    ∃ l0 l1 l2 t1 t2, NewLexer d = .ok l0 ∧ l0.getNextToken = .ok (t1, l1) ∧
      t1.Typ = .INTEGER ∧ t1.Value = .int ((min (decVal d) (2 ^ 63 - 1) : Nat) : Int) ∧
      l1.getNextToken = .ok (t2, l2) ∧ t2.Typ = .EOF := by
  obtain ⟨c, cs, hd⟩ := List.exists_cons_of_ne_nil (isLiteral_ne_nil h)
  have h1 : (Lexer.seek d 0).getNextToken = .ok (tokInt (atoi d), Lexer.seek d d.length) := by
    rw [Lexer.getNextToken_seek]
    simp only [List.drop_zero, Nat.zero_add]
    have := lexRest_digits (s := []) (isLiteral_ne_nil h) (isLiteral_digits h) isDigit_peek_nil
    rw [List.append_nil] at this
    rw [this]
  have h2 : (Lexer.seek d d.length).getNextToken = .ok (tokEOF, Lexer.seek d (d.length + 0)) := by
    rw [Lexer.getNextToken_seek]
    simp only [List.drop_length]
    rfl
  refine ⟨Lexer.seek d 0, Lexer.seek d d.length, _, tokInt (atoi d), tokEOF, ?_, h1, rfl, ?_,
    h2, rfl⟩
  · rw [hd]; exact NewLexer_cons c cs
  · rw [← atoi_digits h]; rfl

/-- Whenever `getNextToken` is called with a decimal digit as current
character, it reads the maximal run of digits at the cursor (the
bytes `text[pos:pos1]` are digits and the current character afterwards is not
one) and returns an `INTEGER` token whose value is the `int` read from that run
and whose text is the decimal text of that value. -/
theorem integer_token (l : Lexer) (hwf : l.Wf) (hd : Lexer.isDigit l.currentChar = true) :
    ∃ tok l1, l.getNextToken = .ok (tok, l1) ∧ l1.text = l.text ∧ l.pos < l1.pos ∧
      l1.pos ≤ l.text.length ∧ l1.Wf ∧
      (∀ c ∈ slice l.text l.pos l1.pos, Lexer.isDigit c = true) ∧
      Lexer.isDigit l1.currentChar = false ∧
      tok.Typ = .INTEGER ∧ tok.Value = .int (atoi (slice l.text l.pos l1.pos)) ∧
      tok.Literal = sprint (atoi (slice l.text l.pos l1.pos)) := by
  have hl := Lexer.wf_eq_seek hwf
  generalize l.text = t at hl
  generalize l.pos = p at hl
  subst hl
  rw [Lexer.seek_currentChar] at hd
  have hlex : lexRest (t.drop p) = .ok (tokInt (atoi ((t.drop p).takeWhile Lexer.isDigit)),
      ((t.drop p).takeWhile Lexer.isDigit).length) := by
    cases hs : t.drop p with
    | nil => rw [hs] at hd; revert hd; decide
    | cons c s =>
      rw [hs] at hd
      simp only [peek] at hd
      rw [lexRest_char s (isDigit_not_space hd) (Lexer.isDigit_ne_NONE hd), if_pos hd]
  have hpos : 1 ≤ ((t.drop p).takeWhile Lexer.isDigit).length :=
    takeWhile_pos_of_peek hd (by decide)
  have hle : ((t.drop p).takeWhile Lexer.isDigit).length ≤ (t.drop p).length :=
    (List.takeWhile_sublist _).length_le
  simp only [List.length_drop] at hle
  have hslice : slice t p (p + ((t.drop p).takeWhile Lexer.isDigit).length)
      = (t.drop p).takeWhile Lexer.isDigit := by
    unfold slice
    rw [Nat.add_sub_cancel_left]
    exact take_length_takeWhile _ _
  refine ⟨tokInt (atoi ((t.drop p).takeWhile Lexer.isDigit)),
    Lexer.seek t (p + ((t.drop p).takeWhile Lexer.isDigit).length), ?_, rfl, ?_, ?_,
    Lexer.wf_seek _ _, ?_, ?_, ?_, ?_, ?_⟩
  · rw [Lexer.getNextToken_seek, hlex]
  · show p < p + _
    omega
  · show p + _ ≤ t.length
    omega
  · show ∀ c ∈ slice t p (p + _), _
    rw [hslice]
    exact mem_takeWhile_imp _ _
  · show Lexer.isDigit (peek (t.drop (p + _))) = false
    rw [← List.drop_drop]
    exact peek_drop_takeWhile _ (by decide) _
  · rfl
  · show _ = Value.int (atoi (slice t p (p + _)))
    rw [hslice]; rfl
  · show _ = sprint (atoi (slice t p (p + _)))
    rw [hslice]; rfl

end GoCalc

namespace GoCalc

theorem AParser.factorWith_lparen (e : AParser → Except Err (Node × AParser)) (a : AParser)
    (h : a.cur.Typ = .LPAREN) :
    AParser.factorWith e a = (a.eat .LPAREN >>= fun a1 => e a1 >>= fun r =>
      r.2.eat .RPAREN >>= fun a2 => pure (r.1, a2)) := by
  conv_lhs => unfold AParser.factorWith
  rw [if_pos h]

theorem AParser.eat_of_typ (a : AParser) (tt : TokenType) (h : a.cur.Typ = tt) :
    a.eat tt = AParser.start a.rest a.fin := by
  unfold AParser.eat
  rw [if_pos h]

theorem AParser.eat_of_ne (a : AParser) (tt : TokenType) (h : a.cur.Typ ≠ tt) :
    a.eat tt = .error .SyntaxError := by
  unfold AParser.eat
  rw [if_neg h]

/-! ### Existence of the token sequence -/

theorem yields_exists : ∀ (n : Nat) (s : GoString), s.length ≤ n →
    ∃ ts fin, Yields s ts fin := by
  intro n
  induction n with
  | zero =>
    intro s hs
    have : s = [] := List.eq_nil_of_length_eq_zero (by omega)
    subst this
    exact ⟨[], none, yields_nil⟩
  | succ n ih =>
    intro s hs
    cases hl : lexRest s with
    | error e => exact ⟨[], some e, Yields.err hl⟩
    | ok r =>
      obtain ⟨tok, k⟩ := r
      rcases lexRest_ok_cases hl with h1 | h1
      · exact ⟨[], none, Yields.eof hl (by rw [h1.1]; rfl)⟩
      · obtain ⟨ts, fin, hy⟩ := ih (s.drop k) (by simp only [List.length_drop]; omega)
        exact ⟨tok :: ts, fin, Yields.tok hl h1.1 hy⟩

/-- The state of the parser after a successful `parseState`, read on the token
sequence of the line. -/
theorem parseState_of_yields {t : GoString} {ts : List Token} {fin : Option Err}
    (hne : t ≠ []) (hy : Yields t ts fin) :
    (∃ n p a a0, parseState t = .ok (n, p) ∧ AParser.start ts fin = .ok a0 ∧
      AParser.expr (t.length + 2) a0 = .ok (n, a) ∧ Sim p a) ∨
    (∃ e, parseState t = .error e ∧ AParser.tree (t.length + 2) ts fin = .error e) := by
  obtain ⟨c, s, rfl⟩ := List.exists_cons_of_ne_nil hne
  unfold parseState AParser.tree
  rw [NewLexer_cons, ok_bind]
  rcases NewParser_sim hy with ⟨p, a, hp, ha, hs⟩ | ⟨e, hp, ha⟩
  · rw [hp, ha, ok_bind, ok_bind]
    have ht : p.lexer.text = c :: s := by
      rw [NewParser_text hp (Lexer.wf_seek _ _)]; rfl
    unfold Parser.parse
    simp only [ht]
    rcases expr_sim ((c :: s).length + 2) p a hs with ⟨n, p2, a2, hp2, ha2, hs2⟩ | ⟨e, hp2, ha2⟩
    · exact Or.inl ⟨n, p2, a2, a, hp2, rfl, ha2, hs2⟩
    · rw [hp2, ha2, error_bind]
      exact Or.inr ⟨e, rfl, rfl⟩
  · rw [hp, ha, error_bind]
    exact Or.inr ⟨e, rfl, rfl⟩

theorem parseState_ne_nil {e : GoString} {t : Node} {p : Parser}
    (h : parseState e = .ok (t, p)) : e ≠ [] := by
  intro he; subst he
  simp only [parseState, NewLexer, List.getElem?_nil] at h
  cases h

/-- Claim C9. For every expression `e` that parses successfully with all of its
tokens consumed (the lookahead after `parse` is `EOF`), parsing the line
`"(" ++ e` fails with `SyntaxError`. -/
theorem C9_missing_rparen (e : GoString) (t : Node) (p : Parser)
    (h : parseState e = .ok (t, p)) (hEOF : p.currentToken.Typ = .EOF) :
    parseLine (str "(" ++ e) = .error .SyntaxError
    ∧ run (str "(" ++ e) = .error .SyntaxError := by
  have hne := parseState_ne_nil h
  obtain ⟨ts, fin, hy⟩ := yields_exists e.length e (Nat.le_refl _)
  have v : VisitorNode := ⟨⟨Lexer.seek [] 0, tokEOF⟩⟩
  have htree : AParser.tree ((str "(" ++ e).length + 2) (tokChar .LPAREN 40 :: ts) fin
      = .error .SyntaxError := by
    rcases parseState_of_yields hne hy with ⟨n, p1, a, a0, h1, h2, h3, hs⟩ | ⟨err, h1, _⟩
    · rw [h] at h1
      simp only [Except.ok.injEq, Prod.mk.injEq] at h1
      obtain ⟨rfl, rfl⟩ := h1
      have hcur : a.cur.Typ = .EOF := by rw [← hs.2.1]; exact hEOF
      have hlen : (str "(" ++ e).length + 2 = (e.length + 2) + 1 := by
        simp [str_lparen]
      rw [hlen]
      have hstart : AParser.start (tokChar .LPAREN 40 :: ts) fin
          = .ok ⟨tokChar .LPAREN 40, ts, fin⟩ := rfl
      have heat : (⟨tokChar .LPAREN 40, ts, fin⟩ : AParser).eat .LPAREN = .ok a0 := by
        rw [AParser.eat_of_typ ⟨tokChar .LPAREN 40, ts, fin⟩ .LPAREN rfl]
        exact h2
      have heat2 : a.eat .RPAREN = .error .SyntaxError := by
        exact AParser.eat_of_ne _ _ (by rw [hcur]; decide)
      unfold AParser.tree
      rw [hstart, ok_bind]
      unfold AParser.expr AParser.termWith
      rw [AParser.factorWith_lparen _ _ rfl, heat, ok_bind, h3, ok_bind, heat2]
      rfl
    · rw [h] at h1; cases h1
  have hy2 : Yields (str "(" ++ e) (tokChar .LPAREN 40 :: ts) fin := by
    rw [str_lparen]; exact yields_lparen hy
  constructor
  · rw [parseLine_of_yields (by simp [str_lparen]) hy2, htree]
  · rw [run_of_yields (by simp [str_lparen]) hy2 v, htree]
    rfl

end GoCalc

namespace GoCalc

/-- Claim C2, instance: `1 - 2 - 3` parses to the left fold and renders as
`(- (- 1 2) 3)`. -/
theorem C2_left_associativity_witness :
    chainText (str "1") [(45, str "2"), (45, str "3")] = str "1 - 2 - 3" ∧
    (parseLine (str "1 - 2 - 3") = .ok (leftFold (str "1") [(45, str "2"), (45, str "3")])
      ∧ (leftFold (str "1") [(45, str "2"), (45, str "3")]).rightsAreNum = true) ∧
    run (str "1 - 2 - 3") = .ok (str "(- (- 1 2) 3)") :=
  ⟨by decide, C2_left_associativity (str "1") [(45, str "2"), (45, str "3")] (by decide)
    (by decide) (Or.inl (by decide)), by decide⟩

/-- Claim C4 at the failing input: the line ` 1 + 2 ` with a trailing space
ends in `lexerError` on the end sentinel, whereas `1+2` and ` 1 + 2` (no
trailing space) both render as `(+ 1 2)`. -/
theorem C4_trailing_space_fails :
    run (str " 1 + 2 ") = .error (.LexError NONE) ∧
    run (str "1+2") = .ok (str "(+ 1 2)") ∧
    run (str " 1 + 2") = .ok (str "(+ 1 2)") := by
  decide

/-- Claim C5, instance of the amended statement on the digits `007`. -/
theorem C5_digits_single_token_witness :
    isLiteral (str "007") = true ∧ decVal (str "007") = 7 ∧
    ∃ l0 l1 l2 t1 t2, NewLexer (str "007") = .ok l0 ∧ l0.getNextToken = .ok (t1, l1) ∧
      t1.Typ = .INTEGER ∧
      t1.Value = .int ((min (decVal (str "007")) (2 ^ 63 - 1) : Nat) : Int) ∧
      l1.getNextToken = .ok (t2, l2) ∧ t2.Typ = .EOF :=
  ⟨by decide, by decide, C5_digits_single_token (str "007") (by decide)⟩

/-- Claim C5 as stated fails on digits beyond the range of `int`: the token read
from `9223372036854775808` has the value `2^63 - 1`. -/
theorem C5_counterexample :
    (NewLexer (str "9223372036854775808") >>= Lexer.getNextToken).map (fun r => r.1.Value)
      = .ok (.int 9223372036854775807) ∧
    decVal (str "9223372036854775808") = 9223372036854775808 := by
  decide

/-- Claim C6 as stated fails on `007`: the three bytes `007` are read, and the
text of the token is `7`. -/
theorem C6_counterexample :
    (NewLexer (str "007") >>= Lexer.getNextToken).map (fun r => (r.1.Literal, r.2.pos))
      = .ok (str "7", 3) ∧
    slice (str "007") 0 3 = str "007" ∧ str "7" ≠ str "007" := by
  decide

/-- Claim C9, instance: `1 + 2` parses with all tokens consumed and `(1 + 2`
fails with `SyntaxError`. -/
theorem C9_missing_rparen_witness :
    (parseState (str "1 + 2") = .ok (.BinOp (.Num (tokInt 1) 1) (opTok 43) (.Num (tokInt 2) 2),
      ⟨Lexer.seek (str "1 + 2") 5, tokEOF⟩) ∧ tokEOF.Typ = .EOF) ∧
    parseLine (str "(1 + 2") = .error .SyntaxError ∧
    run (str "(1 + 2") = .error .SyntaxError :=
  ⟨by decide, C9_missing_rparen (str "1 + 2") _ _
    (show parseState (str "1 + 2") = .ok (.BinOp (.Num (tokInt 1) 1) (opTok 43)
      (.Num (tokInt 2) 2), ⟨Lexer.seek (str "1 + 2") 5, tokEOF⟩) by decide) rfl⟩

/-- What `factor` does on a lookahead token of the lexer that is neither
`INTEGER` nor `LPAREN`: on `EOF`, whose value is an `int`, `eat(INTEGER)`
reports the syntax error; on `) + - * /`, whose value is a string, the type
assertion panics first. -/
theorem factor_unexpected_token (fuel : Nat) (p : Parser) (hlex : p.currentToken.isLex)
    (h1 : p.currentToken.Typ ≠ .INTEGER) (h2 : p.currentToken.Typ ≠ .LPAREN) :
    Parser.factor fuel p =
      if p.currentToken.Typ = .EOF then .error .SyntaxError else .error .TypeAssertPanic := by
  unfold Parser.factor Parser.factorWith
  rw [if_neg h2]
  rcases hlex with ⟨v, _, hv⟩ | hv | hv | ⟨c, hc, hv⟩ | hv
  · rw [hv] at h1; exact absurd rfl h1
  · rw [hv] at h2; exact absurd rfl h2
  · rw [hv]; rfl
  · rw [hv]
    rcases isOp_cases hc with rfl | rfl | rfl | rfl <;> rfl
  · unfold Parser.eat
    rw [hv]; rfl

/-- Claim C10 at the failing input: on the line `)` the type assertion
`Value.(int)` of `factor` panics before `eat(INTEGER)` can report the syntax
error; with the lookahead `EOF`, whose value is an `int`, as after `(`, the
result is `SyntaxError`. -/
theorem C10_rparen_panics :
    run (str ")") = .error .TypeAssertPanic ∧
    run (str "1 + *") = .error .TypeAssertPanic ∧
    run (str "(") = .error .SyntaxError := by
  decide

end GoCalc

namespace GoCalc

/-! ### Decimal text and digit runs -/

theorem isDigit_ofNat_digit (n : Nat) : Lexer.isDigit (Fin.ofNat (48 + n % 10)) = true := by
  have h : n % 10 < 10 := Nat.mod_lt _ (by decide)
  have hv : (Fin.ofNat (48 + n % 10) : Fin 256).val = 48 + n % 10 := by
    show (48 + n % 10) % 256 = 48 + n % 10
    omega
  simp only [Lexer.isDigit, hv, decide_eq_true_eq]
  omega

theorem natDigits_digits : ∀ (fuel n : Nat) (acc : GoString),
    (∀ c ∈ acc, Lexer.isDigit c = true) →
    ∀ c ∈ natDigits fuel n acc, Lexer.isDigit c = true := by
  intro fuel
  induction fuel with
  | zero => intro n acc h; exact h
  | succ k ih =>
    intro n acc h
    have h1 : ∀ c ∈ (Fin.ofNat (48 + n % 10) : Byte) :: acc, Lexer.isDigit c = true := by
      intro c hc
      rcases List.mem_cons.1 hc with rfl | hc
      · exact isDigit_ofNat_digit n
      · exact h c hc
    unfold natDigits
    dsimp only
    split
    · exact h1
    · exact ih _ _ h1

theorem natDigits_ne_nil : ∀ (fuel n : Nat) (acc : GoString),
    (0 < fuel ∨ acc ≠ []) → natDigits fuel n acc ≠ [] := by
  intro fuel
  induction fuel with
  | zero =>
    intro n acc h
    rcases h with h | h
    · omega
    · exact h
  | succ k ih =>
    intro n acc _
    unfold natDigits
    dsimp only
    split
    · simp
    · exact ih _ _ (Or.inr (by simp))

theorem sprint_isLiteral {v : Int} (h : 0 ≤ v) : isLiteral (sprint v) = true := by
  obtain ⟨n, rfl⟩ := Int.eq_ofNat_of_zero_le h
  have h1 : sprint (n : Int) = natDigits (n + 1) n [] := rfl
  have h2 := natDigits_ne_nil (n + 1) n [] (Or.inl (by omega))
  have h3 := natDigits_digits (n + 1) n [] (by simp)
  rw [h1]
  simp only [isLiteral, Bool.and_eq_true, Bool.not_eq_true', List.all_eq_true]
  refine ⟨?_, h3⟩
  cases hn : natDigits (n + 1) n [] with
  | nil => exact absurd hn h2
  | cons c s => rfl

theorem digitRunsAux_digits : ∀ (ds cur : GoString), (∀ c ∈ ds, Lexer.isDigit c = true) →
    cur ++ ds ≠ [] → digitRunsAux ds cur = [cur ++ ds] := by
  intro ds
  induction ds with
  | nil =>
    intro cur _ h
    simp only [List.append_nil] at h
    simp [digitRunsAux, h]
  | cons c ds ih =>
    intro cur hd _
    unfold digitRunsAux
    rw [if_pos (hd c (by simp)), ih _ (fun x hx => hd x (by simp [hx])) (by simp)]
    simp

theorem digitRunsAux_cons_pos {d : Byte} (h : Lexer.isDigit d = true) (s cur : GoString) :
    digitRunsAux (d :: s) cur = digitRunsAux s (cur ++ [d]) := by
  conv_lhs => unfold digitRunsAux
  rw [if_pos h]

theorem digitRunsAux_cons_neg {d : Byte} (h : ¬ Lexer.isDigit d = true) (s cur : GoString) :
    digitRunsAux (d :: s) cur = (if cur = [] then [] else [cur]) ++ digitRunsAux s [] := by
  conv_lhs => unfold digitRunsAux
  rw [if_neg h]

theorem digitRunsAux_nil (cur : GoString) :
    digitRunsAux [] cur = if cur = [] then [] else [cur] := by
  unfold digitRunsAux; rfl

theorem digitRunsAux_split (c : Byte) (hc : Lexer.isDigit c = false) (y : GoString) :
    ∀ (x cur : GoString),
      digitRunsAux (x ++ c :: y) cur = digitRunsAux x cur ++ digitRunsAux y [] := by
  intro x
  induction x with
  | nil =>
    intro cur
    rw [List.nil_append, digitRunsAux_cons_neg (by simp [hc]), digitRunsAux_nil]
  | cons d x ih =>
    intro cur
    rw [List.cons_append]
    by_cases hd : Lexer.isDigit d = true
    · rw [digitRunsAux_cons_pos hd, digitRunsAux_cons_pos hd, ih]
    · rw [digitRunsAux_cons_neg hd, digitRunsAux_cons_neg hd, ih, List.append_assoc]

theorem digitRuns_literal {ds : GoString} (h : isLiteral ds = true) : digitRuns ds = [ds] := by
  have := digitRunsAux_digits ds [] (isLiteral_digits h) (by simpa using isLiteral_ne_nil h)
  simpa [digitRuns] using this

theorem digitRunsAux_cons_nondigit (c : Byte) (hc : Lexer.isDigit c = false) (y : GoString) :
    digitRunsAux (c :: y) [] = digitRunsAux y [] := by
  have := digitRunsAux_split c hc y [] []
  simpa [digitRunsAux] using this


theorem count_literal_eq_zero {ds : GoString} (h : isLiteral ds = true) {c : Byte}
    (hc : Lexer.isDigit c = false) : ds.count c = 0 := by
  apply List.count_eq_zero_of_not_mem
  intro hm
  have := isLiteral_digits h c hm
  rw [hc] at this
  cases this

/-- The rendering of a tree built by the parser, counted: its digit runs are
the literals in order, each operator character occurs once per operator of that
text, and there is one pair of parentheses per operator. -/
theorem visit_good (v : VisitorNode) (t : Node) (h : t.Good) :
    ∃ s, v.visit t = .ok s ∧ digitRuns s = t.items.filterMap Item.litText ∧
      (∀ c, isOp c = true → s.count c = t.items.count (.op [c])) ∧
      s.count 40 = (t.items.filter Item.isOp).length ∧
      s.count 41 = (t.items.filter Item.isOp).length := by
  induction t with
  | Num tok value =>
    obtain ⟨_, hv⟩ := h
    have hlit := sprint_isLiteral hv
    refine ⟨sprint value, rfl, ?_, ?_, ?_, ?_⟩
    · rw [digitRuns_literal hlit]; rfl
    · intro c hc
      rw [count_literal_eq_zero hlit (isOp_not_digit hc)]
      simp [Node.items]
    · rw [count_literal_eq_zero hlit (by decide)]; rfl
    · rw [count_literal_eq_zero hlit (by decide)]; rfl
  | BinOp left op right ihl ihr =>
    obtain ⟨⟨c0, hc0, rfl⟩, hgl, hgr⟩ := h
    obtain ⟨sl, hl1, hl2, hl3, hl4, hl5⟩ := ihl hgl
    obtain ⟨sr, hr1, hr2, hr3, hr4, hr5⟩ := ihr hgr
    have hs : v.visit (.BinOp left (opTok c0) right)
        = .ok (40 :: c0 :: 32 :: (sl ++ 32 :: (sr ++ 41 :: []))) := by
      simp only [VisitorNode.visit, hl1, hr1, ok_bind, opTok_Literal, str_lparen, str_rparen,
        str_space]
      simp
      rfl
    have hc0d := isOp_not_digit hc0
    refine ⟨_, hs, ?_, ?_, ?_, ?_⟩
    · unfold digitRuns
      rw [digitRunsAux_cons_nondigit 40 (by decide), digitRunsAux_cons_nondigit c0 hc0d,
        digitRunsAux_cons_nondigit 32 (by decide), digitRunsAux_split 32 (by decide),
        digitRunsAux_split 41 (by decide), digitRunsAux_nil]
      unfold digitRuns at hl2 hr2
      rw [hl2, hr2]
      simp [Node.items, Item.litText]
    · intro c hc
      have h40 : (40 : Byte) ≠ c := by rintro rfl; revert hc; decide
      have h41 : (41 : Byte) ≠ c := by rintro rfl; revert hc; decide
      have h32 : (32 : Byte) ≠ c := by rintro rfl; revert hc; decide
      simp only [List.count_cons, List.count_append, List.count_nil, hl3 c hc, hr3 c hc,
        Node.items, opTok_Literal, beq_iff_eq, h40, h41, h32, if_false]
      by_cases hcc : c0 = c
      · simp [hcc]; omega
      · simp [hcc]
    · have hne : c0 ≠ 40 := by rintro rfl; revert hc0; decide
      simp only [List.count_cons, List.count_append, List.count_nil, hl4, hr4, Node.items,
        beq_iff_eq, hne, if_false, List.filter_append, List.length_append]
      simp [Item.isOp]
      omega
    · have hne : c0 ≠ 41 := by rintro rfl; revert hc0; decide
      simp only [List.count_cons, List.count_append, List.count_nil, hl5, hr5, Node.items,
        beq_iff_eq, hne, if_false, List.filter_append, List.length_append]
      simp [Item.isOp]
      omega
  | other => exact absurd h (by simp [Node.Good])

end GoCalc

namespace GoCalc

/-! ### The tokens eaten by the parser -/

theorem bind_ok_inv {α β : Type} {x : Except Err α} {f : α → Except Err β} {b : β}
    (h : (x >>= f) = .ok b) : ∃ a, x = .ok a ∧ f a = .ok b := by
  cases x with
  | error e => cases h
  | ok a => exact ⟨a, rfl, h⟩

theorem atoi_nonneg_of_digits {ds : GoString} (h : isLiteral ds = true) : 0 ≤ atoi ds := by
  rw [atoi_digits h]; exact Int.ofNat_nonneg _

theorem isLex_opTok {c : Byte} (h : isOp c = true) : (opTok c).isLex :=
  Or.inr (Or.inr (Or.inr (Or.inl ⟨c, h, rfl⟩)))

/-- Every token of `lexRest` is a token of the lexer. -/
theorem lexRest_isLex {s : GoString} {tok : Token} {k : Nat}
    (h : lexRest s = .ok (tok, k)) : tok.isLex := by
  unfold lexRest at h
  by_cases hp : peek s = NONE
  · rw [if_neg (by simpa using hp)] at h
    simp only [Except.ok.injEq, Prod.mk.injEq] at h
    exact Or.inr (Or.inr (Or.inr (Or.inr h.1.symm)))
  · rw [if_pos hp] at h
    simp only at h
    generalize hs1 : List.drop (List.takeWhile Lexer.isSpace s).length s = s1 at h
    by_cases hd : Lexer.isDigit (peek s1) = true
    · rw [if_pos hd] at h
      simp only [Except.ok.injEq, Prod.mk.injEq] at h
      have hlit : isLiteral (s1.takeWhile Lexer.isDigit) = true := by
        have h1 : 1 ≤ (s1.takeWhile Lexer.isDigit).length :=
          takeWhile_pos_of_peek hd (by decide)
        simp only [isLiteral, Bool.and_eq_true, Bool.not_eq_true', List.all_eq_true]
        refine ⟨?_, mem_takeWhile_imp _ _⟩
        cases hn : s1.takeWhile Lexer.isDigit with
        | nil => rw [hn] at h1; simp at h1
        | cons c s => rfl
      exact Or.inl ⟨_, atoi_nonneg_of_digits hlit, h.1.symm⟩
    · rw [if_neg hd] at h
      split_ifs at h
      all_goals
        simp only [Except.ok.injEq, Prod.mk.injEq] at h
        obtain ⟨ha, _⟩ := h
        subst ha
      · exact Or.inr (Or.inl rfl)
      · exact Or.inr (Or.inr (Or.inl rfl))
      · exact isLex_opTok (c := 43) (by decide)
      · exact isLex_opTok (c := 45) (by decide)
      · exact isLex_opTok (c := 42) (by decide)
      · exact isLex_opTok (c := 47) (by decide)

theorem yields_isLex {s : GoString} {ts : List Token} {fin : Option Err}
    (h : Yields s ts fin) : ∀ tok ∈ ts, tok.isLex ∧ tok.Typ ≠ .EOF := by
  induction h with
  | eof _ _ => intro tok htok; cases htok
  | err _ => intro tok htok; cases htok
  | tok hl hty _ ih =>
    intro t ht
    rcases List.mem_cons.1 ht with rfl | ht
    · exact ⟨lexRest_isLex hl, hty⟩
    · exact ih t ht

theorem isLex_tokEOF : tokEOF.isLex := Or.inr (Or.inr (Or.inr (Or.inr rfl)))

theorem start_inv {ts : List Token} {fin : Option Err} {a : AParser}
    (h : AParser.start ts fin = .ok a) (hts : ∀ tok ∈ ts, tok.isLex ∧ tok.Typ ≠ .EOF) :
    a.Inv := by
  cases ts with
  | nil =>
    cases fin with
    | none =>
      simp only [AParser.start, Except.ok.injEq] at h
      subst h
      exact ⟨isLex_tokEOF, fun _ ht => by cases ht⟩
    | some e => cases h
  | cons t ts =>
    simp only [AParser.start, Except.ok.injEq] at h
    subst h
    exact ⟨(hts t (by simp)).1, fun x hx => hts x (by simp [hx])⟩

theorem eat_inv {a a1 : AParser} {tt : TokenType} (h : a.eat tt = .ok a1) (hi : a.Inv) :
    a.cur.Typ = tt ∧ AParser.start a.rest a.fin = .ok a1 ∧ a1.Inv := by
  unfold AParser.eat at h
  by_cases ht : a.cur.Typ = tt
  · rw [if_pos ht] at h
    exact ⟨ht, h, start_inv h hi.2⟩
  · rw [if_neg ht] at h
    cases h

theorem consumes_trans {a a1 a2 : AParser} {c1 c2 : List Token}
    (h1 : Consumes a c1 a1) (h2 : Consumes a1 c2 a2) : Consumes a (c1 ++ c2) a2 := by
  induction h1 with
  | refl _ => exact h2
  | step hne heat _ ih => exact Consumes.step hne heat (ih h2)

theorem consumes_one {a a1 : AParser} {tt : TokenType} (hne : a.cur.Typ ≠ .EOF)
    (h : a.eat tt = .ok a1) : Consumes a [a.cur] a1 :=
  Consumes.step hne h (Consumes.refl a1)

theorem item_paren {tok : Token} (h : tok.Typ = .LPAREN ∨ tok.Typ = .RPAREN) :
    tok.item = none := by
  rcases h with h | h <;> simp [Token.item, h]

theorem isLex_integer {tok : Token} (h : tok.isLex) (ht : tok.Typ = .INTEGER) :
    ∃ v : Int, 0 ≤ v ∧ tok = tokInt v := by
  rcases h with h | rfl | rfl | ⟨c, hc, rfl⟩ | rfl
  · exact h
  · cases ht
  · cases ht
  · rcases isOp_cases hc with rfl | rfl | rfl | rfl <;> cases ht
  · cases ht

theorem isLex_operator {tok : Token} (h : tok.isLex)
    (ht : tok.Typ = .MUL ∨ tok.Typ = .DIV ∨ tok.Typ = .PLUS ∨ tok.Typ = .MINUS) :
    ∃ c, isOp c = true ∧ tok = opTok c := by
  rcases h with ⟨v, _, rfl⟩ | rfl | rfl | h | rfl
  · rcases ht with ht | ht | ht | ht <;> cases ht
  · rcases ht with ht | ht | ht | ht <;> cases ht
  · rcases ht with ht | ht | ht | ht <;> cases ht
  · exact h
  · rcases ht with ht | ht | ht | ht <;> cases ht

theorem item_opTok {c : Byte} (h : isOp c = true) : (opTok c).item = some (.op [c]) := by
  rcases isOp_cases h with rfl | rfl | rfl | rfl <;> rfl

theorem item_tokInt (v : Int) : (tokInt v).item = some (.lit v) := rfl


theorem typ_ne_EOF_of_eq {tok : Token} {tt : TokenType} (h : tok.Typ = tt) (hn : tt ≠ .EOF) :
    tok.Typ ≠ .EOF := by rw [h]; exact hn

theorem factorWith_ok {e : AParser → Except Err (Node × AParser)} (he : ParsesOk e) :
    ParsesOk (AParser.factorWith e) := by
  intro a t a3 hi h
  unfold AParser.factorWith at h
  by_cases ht : a.cur.Typ = .LPAREN
  · rw [if_pos ht] at h
    obtain ⟨a1, h1, h⟩ := bind_ok_inv h
    obtain ⟨r, h2, h⟩ := bind_ok_inv h
    obtain ⟨n, a2⟩ := r
    dsimp only at h
    obtain ⟨a3', h3, h⟩ := bind_ok_inv h
    cases h
    obtain ⟨_, _, hi1⟩ := eat_inv h1 hi
    obtain ⟨c, hc1, hc2, hc3, hi2⟩ := he a1 _ a2 hi1 h2
    obtain ⟨ht2, _, hi3⟩ := eat_inv h3 hi2
    refine ⟨[a.cur] ++ (c ++ [a2.cur]), ?_, ?_, hc3, hi3⟩
    · exact consumes_trans (consumes_one (typ_ne_EOF_of_eq ht (by decide)) h1)
        (consumes_trans hc1 (consumes_one (typ_ne_EOF_of_eq ht2 (by decide)) h3))
    · simp [List.filterMap_append, item_paren (Or.inl ht), item_paren (Or.inr ht2), hc2]
  · rw [if_neg ht] at h
    cases hv : a.cur.Value with
    | string s => rw [hv] at h; cases h
    | int v =>
      rw [hv] at h
      dsimp only at h
      obtain ⟨a1, h1, h⟩ := bind_ok_inv h
      cases h
      obtain ⟨ht1, _, hi1⟩ := eat_inv h1 hi
      obtain ⟨v1, hv1, hcur⟩ := isLex_integer hi.1 ht1
      have hvv : v = v1 := by
        rw [hcur] at hv
        simp only [tokInt, Value.int.injEq] at hv
        exact hv.symm
      subst hvv
      refine ⟨[a.cur], consumes_one (typ_ne_EOF_of_eq ht1 (by decide)) h1, ?_, ?_, hi1⟩
      · rw [hcur]; rfl
      · exact ⟨hcur, hv1⟩

theorem termLoop_ok {e : AParser → Except Err (Node × AParser)} (he : ParsesOk e) :
    ∀ (fuel : Nat) (n : Node) (a : AParser) (t : Node) (a3 : AParser), a.Inv → n.Good →
      AParser.termLoop e fuel n a = .ok (t, a3) →
      ∃ c, Consumes a c a3 ∧ t.items = n.items ++ c.filterMap Token.item ∧ t.Good ∧ a3.Inv := by
  intro fuel
  induction fuel with
  | zero => intro n a t a3 _ _ h; cases h
  | succ k ih =>
    intro n a t a3 hi hn h
    unfold AParser.termLoop at h
    by_cases ht : a.cur.Typ = .MUL ∨ a.cur.Typ = .DIV
    · rw [if_pos ht] at h
      dsimp only at h
      obtain ⟨a1, h1, h⟩ := bind_ok_inv h
      obtain ⟨r, h2, h⟩ := bind_ok_inv h
      obtain ⟨right, a2⟩ := r
      dsimp only at h
      obtain ⟨_, _, hi1⟩ := eat_inv h1 hi
      obtain ⟨c, hc1, hc2, hc3, hi2⟩ := factorWith_ok he a1 right a2 hi1 h2
      obtain ⟨c0, hc0, hop⟩ := isLex_operator hi.1
        (by rcases ht with ht | ht; exact Or.inl ht; exact Or.inr (Or.inl ht))
      obtain ⟨c3, hd1, hd2, hd3, hi3⟩ := ih (Node.BinOp n a.cur right) a2 t a3 hi2
        (show (Node.BinOp n a.cur right).Good from ⟨⟨c0, hc0, hop⟩, hn, hc3⟩) h
      have hne : a.cur.Typ ≠ .EOF := by
        rcases ht with ht | ht <;> exact typ_ne_EOF_of_eq ht (by decide)
      refine ⟨[a.cur] ++ (c ++ c3), consumes_trans (consumes_one hne h1)
        (consumes_trans hc1 hd1), ?_, hd3, hi3⟩
      rw [hd2]
      simp only [Node.items, hc2, List.filterMap_append, List.filterMap_cons,
        List.filterMap_nil, List.append_assoc]
      rw [hop, item_opTok hc0, opTok_Literal]
    · rw [if_neg ht] at h
      cases h
      exact ⟨[], Consumes.refl _, by simp, hn, hi⟩

theorem termWith_ok {e : AParser → Except Err (Node × AParser)} (he : ParsesOk e)
    (fuel : Nat) : ParsesOk (AParser.termWith e fuel) := by
  intro a t a3 hi h
  unfold AParser.termWith at h
  obtain ⟨r, h1, h⟩ := bind_ok_inv h
  obtain ⟨n, a1⟩ := r
  dsimp only at h
  obtain ⟨c, hc1, hc2, hc3, hi1⟩ := factorWith_ok he a n a1 hi h1
  obtain ⟨c3, hd1, hd2, hd3, hi3⟩ := termLoop_ok he fuel n a1 t a3 hi1 hc3 h
  refine ⟨c ++ c3, consumes_trans hc1 hd1, ?_, hd3, hi3⟩
  rw [hd2, hc2, List.filterMap_append]

theorem exprLoop_ok {e : AParser → Except Err (Node × AParser)} (he : ParsesOk e) :
    ∀ (fuel : Nat) (n : Node) (a : AParser) (t : Node) (a3 : AParser), a.Inv → n.Good →
      AParser.exprLoop e fuel n a = .ok (t, a3) →
      ∃ c, Consumes a c a3 ∧ t.items = n.items ++ c.filterMap Token.item ∧ t.Good ∧ a3.Inv := by
  intro fuel
  induction fuel with
  | zero => intro n a t a3 _ _ h; cases h
  | succ k ih =>
    intro n a t a3 hi hn h
    unfold AParser.exprLoop at h
    by_cases ht : a.cur.Typ = .PLUS ∨ a.cur.Typ = .MINUS
    · rw [if_pos ht] at h
      dsimp only at h
      obtain ⟨a1, h1, h⟩ := bind_ok_inv h
      obtain ⟨r, h2, h⟩ := bind_ok_inv h
      obtain ⟨right, a2⟩ := r
      dsimp only at h
      obtain ⟨_, _, hi1⟩ := eat_inv h1 hi
      obtain ⟨c, hc1, hc2, hc3, hi2⟩ := termWith_ok he k a1 right a2 hi1 h2
      obtain ⟨c0, hc0, hop⟩ := isLex_operator hi.1
        (by rcases ht with ht | ht; exact Or.inr (Or.inr (Or.inl ht));
            exact Or.inr (Or.inr (Or.inr ht)))
      obtain ⟨c3, hd1, hd2, hd3, hi3⟩ := ih (Node.BinOp n a.cur right) a2 t a3 hi2
        (show (Node.BinOp n a.cur right).Good from ⟨⟨c0, hc0, hop⟩, hn, hc3⟩) h
      have hne : a.cur.Typ ≠ .EOF := by
        rcases ht with ht | ht <;> exact typ_ne_EOF_of_eq ht (by decide)
      refine ⟨[a.cur] ++ (c ++ c3), consumes_trans (consumes_one hne h1)
        (consumes_trans hc1 hd1), ?_, hd3, hi3⟩
      rw [hd2]
      simp only [Node.items, hc2, List.filterMap_append, List.filterMap_cons,
        List.filterMap_nil, List.append_assoc]
      rw [hop, item_opTok hc0, opTok_Literal]
    · rw [if_neg ht] at h
      cases h
      exact ⟨[], Consumes.refl _, by simp, hn, hi⟩

/-- The tokens eaten by `expr`, parentheses apart, are the in-order sequence of
its tree. -/
theorem expr_ok : ∀ fuel : Nat, ParsesOk (AParser.expr fuel) := by
  intro fuel
  induction fuel with
  | zero => intro a t a3 _ h; cases h
  | succ k ih =>
    intro a t a3 hi h
    unfold AParser.expr at h
    obtain ⟨r, h1, h⟩ := bind_ok_inv h
    obtain ⟨n, a1⟩ := r
    dsimp only at h
    obtain ⟨c, hc1, hc2, hc3, hi1⟩ := termWith_ok ih k a n a1 hi h1
    obtain ⟨c3, hd1, hd2, hd3, hi3⟩ := exprLoop_ok ih k n a1 t a3 hi1 hc3 h
    refine ⟨c ++ c3, consumes_trans hc1 hd1, ?_, hd3, hi3⟩
    rw [hd2, hc2, List.filterMap_append]

/-- Tokens eaten from the start of a token sequence up to the lookahead `EOF`
are the whole sequence, which ends without an error. -/
theorem consumes_all {a a1 : AParser} {c : List Token} (h : Consumes a c a1) :
    ∀ (ts : List Token) (fin : Option Err), AParser.start ts fin = .ok a →
      (∀ tok ∈ ts, tok.isLex ∧ tok.Typ ≠ .EOF) → a1.cur.Typ = .EOF → c = ts ∧ fin = none := by
  induction h with
  | refl a =>
    intro ts fin hs hts hEOF
    cases ts with
    | nil =>
      cases fin with
      | none => exact ⟨rfl, rfl⟩
      | some e => cases hs
    | cons t ts =>
      simp only [AParser.start, Except.ok.injEq] at hs
      subst hs
      exact absurd hEOF (hts t (by simp)).2
  | step hne heat _ ih =>
    intro ts fin hs hts hEOF
    cases ts with
    | nil =>
      cases fin with
      | none =>
        simp only [AParser.start, Except.ok.injEq] at hs
        subst hs
        exact absurd rfl hne
      | some e => cases hs
    | cons t ts =>
      simp only [AParser.start, Except.ok.injEq] at hs
      subst hs
      have hi : (⟨t, ts, fin⟩ : AParser).Inv :=
        ⟨(hts t (by simp)).1, fun x hx => hts x (by simp [hx])⟩
      obtain ⟨_, hst, _⟩ := eat_inv heat hi
      obtain ⟨h1, h2⟩ := ih ts fin hst (fun x hx => hts x (by simp [hx])) hEOF
      exact ⟨by rw [h1], h2⟩

end GoCalc

namespace GoCalc

/-! ### The token sequence of a line -/

theorem tokensLoop_of_yields {s : GoString} {ts : List Token} {fin : Option Err}
    (h : Yields s ts fin) : fin = none → ∀ (t : GoString) (p fuel : Nat), t.drop p = s →
      s.length < fuel → Lexer.tokensLoop fuel (Lexer.seek t p) = .ok ts := by
  induction h with
  | eof hl hty =>
    intro _ t p fuel hs hf
    obtain ⟨f, rfl⟩ : ∃ f, fuel = f + 1 := ⟨fuel - 1, by omega⟩
    unfold Lexer.tokensLoop
    rw [Lexer.getNextToken_seek, hs, hl, ok_bind]
    dsimp only
    rw [if_pos hty]
    rfl
  | err _ => intro hfin; cases hfin
  | @tok s tok k ts e hl hty _ ih =>
    intro hfin t p fuel hs hf
    obtain ⟨f, rfl⟩ : ∃ f, fuel = f + 1 := ⟨fuel - 1, by omega⟩
    have hk : 1 ≤ k ∧ k ≤ s.length := by
      rcases lexRest_ok_cases hl with h1 | h1
      · exact absurd (by rw [h1.1]; rfl) hty
      · exact ⟨h1.2.1, h1.2.2.1⟩
    unfold Lexer.tokensLoop
    rw [Lexer.getNextToken_seek, hs, hl, ok_bind]
    dsimp only
    rw [if_neg hty, ih hfin t (p + k) f (by rw [← List.drop_drop, hs])
      (by simp only [List.length_drop]; omega), ok_bind]
    rfl

theorem tokenize_of_yields {e : GoString} {ts : List Token} (hne : e ≠ [])
    (h : Yields e ts none) : tokenize e = .ok ts := by
  obtain ⟨c, s, rfl⟩ := List.exists_cons_of_ne_nil hne
  unfold tokenize
  rw [NewLexer_cons, ok_bind]
  exact tokensLoop_of_yields h rfl _ 0 _ rfl (by omega)

theorem item_isSome_of_isLex {tok : Token} (h : tok.isLex) (hne : tok.Typ ≠ .EOF) :
    tok.item.isSome = true ∨ tok.Typ = .LPAREN ∨ tok.Typ = .RPAREN := by
  rcases h with ⟨v, _, rfl⟩ | rfl | rfl | ⟨c, hc, rfl⟩ | rfl
  · exact Or.inl rfl
  · exact Or.inr (Or.inl rfl)
  · exact Or.inr (Or.inr rfl)
  · left; rw [item_opTok hc]; rfl
  · exact absurd rfl hne

/-- For every line `e` that parses with all of its tokens consumed: the
in-order sequence of the literal values and operators of the tree is the token
sequence of `e` with the parentheses removed, and the rendered string is
counted against that token sequence. -/
theorem tokens_preserved (e : GoString) (t : Node) (p : Parser)
    (h : parseState e = .ok (t, p)) (hEOF : p.currentToken.Typ = .EOF) :
    ∃ ts s, tokenize e = .ok ts ∧
      (∀ tok ∈ ts, tok.item.isSome = true ∨ tok.Typ = .LPAREN ∨ tok.Typ = .RPAREN) ∧
      t.items = ts.filterMap Token.item ∧
      run e = .ok s ∧
      digitRuns s = (ts.filterMap Token.item).filterMap Item.litText ∧
      (∀ c, isOp c = true → s.count c = (ts.filterMap Token.item).count (.op [c])) ∧
      s.count 40 = ((ts.filterMap Token.item).filter Item.isOp).length ∧
      s.count 41 = ((ts.filterMap Token.item).filter Item.isOp).length := by
  have hne := parseState_ne_nil h
  have v : VisitorNode := ⟨⟨Lexer.seek [] 0, tokEOF⟩⟩
  obtain ⟨ts, fin, hy⟩ := yields_exists e.length e (Nat.le_refl _)
  have hts := yields_isLex hy
  rcases parseState_of_yields hne hy with ⟨n, p1, a, a0, h1, h2, h3, hs⟩ | ⟨err, h1, _⟩
  · rw [h] at h1
    simp only [Except.ok.injEq, Prod.mk.injEq] at h1
    obtain ⟨rfl, rfl⟩ := h1
    have hcur : a.cur.Typ = .EOF := by rw [← hs.2.1]; exact hEOF
    obtain ⟨c, hc1, hc2, hc3, _⟩ := expr_ok _ a0 t a (start_inv h2 hts) h3
    obtain ⟨rfl, rfl⟩ := consumes_all hc1 ts fin h2 hts hcur
    obtain ⟨s, hv1, hv2, hv3, hv4, hv5⟩ := visit_good v t hc3
    have hrun : run e = .ok s := by
      rw [run_of_yields hne hy v]
      unfold AParser.tree
      rw [h2, ok_bind, h3, ok_bind]
      exact hv1
    refine ⟨c, s, tokenize_of_yields hne hy,
      fun tok htok => item_isSome_of_isLex (hts tok htok).1 (hts tok htok).2, hc2, hrun, ?_, ?_,
      ?_, ?_⟩
    · rw [hv2, hc2]
    · intro x hx; rw [hv3 x hx, hc2]
    · rw [hv4, hc2]
    · rw [hv5, hc2]
  · rw [h] at h1; cases h1

end GoCalc

namespace GoCalc

/-! ### Reading back the decimal text of a number -/

theorem natDigits_append : ∀ (fuel n : Nat) (acc : GoString),
    natDigits fuel n acc = natDigits fuel n [] ++ acc := by
  intro fuel
  induction fuel with
  | zero => intro n acc; rfl
  | succ k ih =>
    intro n acc
    unfold natDigits
    dsimp only
    split
    · rfl
    · rw [ih _ (_ :: acc), ih _ [_]]
      simp

theorem decVal_append_single (xs : GoString) (d : Byte) :
    decVal (xs ++ [d]) = 10 * decVal xs + (d.val - 48) := by
  simp [decVal, List.foldl_append]

theorem val_ofNat_digit (n : Nat) : (Fin.ofNat (48 + n % 10) : Fin 256).val - 48 = n % 10 := by
  have h : n % 10 < 10 := Nat.mod_lt _ (by decide)
  have hv : (Fin.ofNat (48 + n % 10) : Fin 256).val = 48 + n % 10 := by
    show (48 + n % 10) % 256 = 48 + n % 10
    omega
  rw [hv]; omega

theorem decVal_natDigits : ∀ (fuel n : Nat), n < fuel → decVal (natDigits fuel n []) = n := by
  intro fuel
  induction fuel with
  | zero => intro n h; omega
  | succ k ih =>
    intro n h
    unfold natDigits
    dsimp only
    split
    · rename_i h0
      have : decVal [(Fin.ofNat (48 + n % 10) : Fin 256)] = n % 10 := by
        simp only [decVal, List.foldl_cons, List.foldl_nil, val_ofNat_digit]
        omega
      rw [this]
      omega
    · rename_i h0
      rw [natDigits_append, decVal_append_single, ih (n / 10) (by omega), val_ofNat_digit]
      omega

/-- The lexer reads back a number below `2^63` from its decimal text. -/
theorem atoi_sprint (n : Nat) (h : n < 2 ^ 63) : atoi (sprint (n : Int)) = (n : Int) := by
  have hlit : isLiteral (sprint (n : Int)) = true := sprint_isLiteral (Int.ofNat_nonneg n)
  rw [atoi_digits hlit]
  have h1 : sprint (n : Int) = natDigits (n + 1) n [] := rfl
  rw [h1, decVal_natDigits (n + 1) n (by omega)]
  congr 1
  omega

/-- Claim C1 (amended). For all non-negative integers `a`, `b`, `c` below
`2^63`, written as decimal literals, every `op1` in `+ -` and every `op2` in
`* /`, the pipeline renders the line `a op1 b op2 c` as `(op1 a (op2 b c))` and
the line `a op2 b op1 c` as `(op1 (op2 a b) c)`. -/
theorem C1_precedence (a b c : Nat) (op1 op2 : Byte)
    (ha : a < 2 ^ 63) (hb : b < 2 ^ 63) (hc : c < 2 ^ 63)
    (h1 : op1 = 43 ∨ op1 = 45) (h2 : op2 = 42 ∨ op2 = 47) :
    run (sprint a ++ str " " ++ [op1] ++ str " " ++ sprint b ++ str " " ++ [op2] ++ str " "
        ++ sprint c)
      = .ok (str "(" ++ [op1] ++ str " " ++ sprint a ++ str " (" ++ [op2] ++ str " "
          ++ sprint b ++ str " " ++ sprint c ++ str "))")
    ∧ run (sprint a ++ str " " ++ [op2] ++ str " " ++ sprint b ++ str " " ++ [op1] ++ str " "
        ++ sprint c)
      = .ok (str "(" ++ [op1] ++ str " (" ++ [op2] ++ str " " ++ sprint a ++ str " "
          ++ sprint b ++ str ") " ++ sprint c ++ str ")") := by
  have h := precedence_literals (sprint a) (sprint b) (sprint c) op1 op2
    (sprint_isLiteral (Int.ofNat_nonneg a)) (sprint_isLiteral (Int.ofNat_nonneg b))
    (sprint_isLiteral (Int.ofNat_nonneg c)) h1 h2
  rw [atoi_sprint a ha, atoi_sprint b hb, atoi_sprint c hc] at h
  exact h

/-- Claim C1, instance of the amended statement: `1 + 2 * 3` renders as
`(+ 1 (* 2 3))` and `1 * 2 + 3` as `(+ (* 1 2) 3)`. -/
theorem C1_precedence_witness :
    ((1 : Nat) < 2 ^ 63 ∧ (2 : Nat) < 2 ^ 63 ∧ (3 : Nat) < 2 ^ 63) ∧
    run (str "1 + 2 * 3") = .ok (str "(+ 1 (* 2 3))") ∧
    run (str "1 * 2 + 3") = .ok (str "(+ (* 1 2) 3)") :=
  ⟨by decide, C1_precedence 1 2 3 43 42 (by decide) (by decide) (by decide) (Or.inl rfl)
    (Or.inl rfl)⟩

/-- Claim C1 as stated fails on a literal beyond the range of `int`: the line
`9223372036854775808 + 2 * 3` does not render as
`(+ 9223372036854775808 (* 2 3))` but with the literal replaced by `2^63 - 1`. -/
theorem C1_counterexample :
    run (str "9223372036854775808 + 2 * 3") = .ok (str "(+ 9223372036854775807 (* 2 3))") ∧
    run (str "9223372036854775808 + 2 * 3") ≠ .ok (str "(+ 9223372036854775808 (* 2 3))") := by
  decide

/-- Claim C3 (amended). For all non-negative integers `a`, `b`, `c` below
`2^63`, written as decimal literals, and all operators `op1`, `op2` among
`+ - * /`, the pipeline renders the line `(a op1 b) op2 c` as
`(op2 (op1 a b) c)` and the line `a op2 (b op1 c)` as `(op2 a (op1 b c))`. -/
theorem C3_parentheses (a b c : Nat) (op1 op2 : Byte)
    (ha : a < 2 ^ 63) (hb : b < 2 ^ 63) (hc : c < 2 ^ 63)
    (h1 : isOp op1 = true) (h2 : isOp op2 = true) :
    run (str "(" ++ sprint a ++ str " " ++ [op1] ++ str " " ++ sprint b ++ str ") " ++ [op2]
        ++ str " " ++ sprint c)
      = .ok (str "(" ++ [op2] ++ str " (" ++ [op1] ++ str " " ++ sprint a ++ str " "
          ++ sprint b ++ str ") " ++ sprint c ++ str ")")
    ∧ run (sprint a ++ str " " ++ [op2] ++ str " (" ++ sprint b ++ str " " ++ [op1] ++ str " "
        ++ sprint c ++ str ")")
      = .ok (str "(" ++ [op2] ++ str " " ++ sprint a ++ str " (" ++ [op1] ++ str " "
          ++ sprint b ++ str " " ++ sprint c ++ str "))") := by
  have h := parentheses_literals (sprint a) (sprint b) (sprint c) op1 op2
    (sprint_isLiteral (Int.ofNat_nonneg a)) (sprint_isLiteral (Int.ofNat_nonneg b))
    (sprint_isLiteral (Int.ofNat_nonneg c)) h1 h2
  rw [atoi_sprint a ha, atoi_sprint b hb, atoi_sprint c hc] at h
  exact h

/-- Claim C3, instance of the amended statement: `(1 + 2) * 3` renders as
`(* (+ 1 2) 3)` and `1 * (2 + 3)` as `(* 1 (+ 2 3))`. -/
theorem C3_parentheses_witness :
    ((1 : Nat) < 2 ^ 63 ∧ isOp 43 = true ∧ isOp 42 = true) ∧
    run (str "(1 + 2) * 3") = .ok (str "(* (+ 1 2) 3)") ∧
    run (str "1 * (2 + 3)") = .ok (str "(* 1 (+ 2 3))") :=
  ⟨by decide, C3_parentheses 1 2 3 43 42 (by decide) (by decide) (by decide) (by decide)
    (by decide)⟩

/-- Claim C3 as stated fails on a literal beyond the range of `int`: the line
`(9223372036854775808 + 2) * 3` renders with the literal replaced by `2^63 - 1`. -/
theorem C3_counterexample :
    run (str "(9223372036854775808 + 2) * 3") = .ok (str "(* (+ 9223372036854775807 2) 3)") ∧
    run (str "(9223372036854775808 + 2) * 3") ≠ .ok (str "(* (+ 9223372036854775808 2) 3)") := by
  decide

end GoCalc

namespace GoCalc

/-! ### The lexer cursor -/

theorem peek_drop_of_lt {t : GoString} {p : Nat} (h : p < t.length) :
    peek (t.drop p) = t.get ⟨p, h⟩ := by
  rw [List.drop_eq_getElem_cons h]; rfl

theorem peek_drop_of_le {t : GoString} {p : Nat} (h : t.length ≤ p) :
    peek (t.drop p) = NONE := by
  rw [List.drop_eq_nil_of_le h]; rfl

theorem cursorInv_iff_wf (l : Lexer) : l.CursorInv ↔ l.Wf := by
  unfold Lexer.CursorInv Lexer.Wf
  by_cases h : l.pos < l.text.length
  · rw [peek_drop_of_lt h]
    constructor
    · intro hc; exact hc.1 h
    · intro hc; exact ⟨fun _ => hc, fun h2 => absurd h (by omega)⟩
  · rw [peek_drop_of_le (by omega)]
    constructor
    · intro hc; exact hc.2 (by omega)
    · intro hc; exact ⟨fun h2 => absurd h2 h, fun _ => hc⟩

theorem cursorInv_seek (t : GoString) (p : Nat) : (Lexer.seek t p).CursorInv :=
  (cursorInv_iff_wf _).2 (Lexer.wf_seek t p)

theorem advance_eq_seek (l : Lexer) : l.advance = Lexer.seek l.text (l.pos + 1) := by
  have h := Lexer.advance_seek l.text l.pos
  have h2 : l.advance = (Lexer.seek l.text l.pos).advance := by
    unfold Lexer.advance Lexer.seek
    rfl
  rw [h2, h]

/-- The state after a successful `getNextToken` from a state with the cursor
invariant. -/
theorem getNextToken_state {l l1 : Lexer} {tok : Token} (hwf : l.Wf)
    (h : l.getNextToken = .ok (tok, l1)) :
    ∃ k, lexRest l.rest = .ok (tok, k) ∧ l1 = Lexer.seek l.text (l.pos + k) ∧
      l.pos + k ≤ max l.pos l.text.length := by
  rw [Lexer.getNextToken_wf hwf] at h
  cases hl : lexRest l.rest with
  | error e => rw [hl] at h; cases h
  | ok r =>
    obtain ⟨tok1, k⟩ := r
    rw [hl] at h
    simp only [Except.ok.injEq, Prod.mk.injEq] at h
    obtain ⟨rfl, rfl⟩ := h
    refine ⟨k, rfl, rfl, ?_⟩
    rcases lexRest_ok_cases hl with h1 | h1
    · rw [h1.2.1]; simp
    · have := h1.2.2.1
      simp only [Lexer.rest, List.length_drop] at this
      omega


theorem NewLexer_ok {t : GoString} {l : Lexer} (h : NewLexer t = .ok l) :
    l = Lexer.seek t 0 ∧ t ≠ [] := by
  cases t with
  | nil => simp only [NewLexer, List.getElem?_nil] at h; cases h
  | cons c s =>
    rw [NewLexer_cons] at h
    simp only [Except.ok.injEq] at h
    exact ⟨h.symm, by simp⟩

theorem skipWhiteSpace_wf {l : Lexer} (h : l.Wf) :
    l.skipWhiteSpace = Lexer.seek l.text
      (l.pos + ((l.text.drop l.pos).takeWhile Lexer.isSpace).length) := by
  conv_lhs => rw [Lexer.wf_eq_seek h]
  exact Lexer.skipWhiteSpace_seek _ _

theorem integer_wf {l : Lexer} (h : l.Wf) :
    l.integer = (atoi ((l.text.drop l.pos).takeWhile Lexer.isDigit),
      Lexer.seek l.text (l.pos + ((l.text.drop l.pos).takeWhile Lexer.isDigit).length)) := by
  conv_lhs => rw [Lexer.wf_eq_seek h]
  exact Lexer.integer_seek _ _

/-- Claim C14. For a lexer built from a non-empty text: the state after
construction has the cursor invariant (the current character is `text[pos]`
when `pos < len(text)` and `NONE` when `pos >= len(text)`), and from every
state with the invariant each of `advance`, `skipWhiteSpace`, `integer` and
`getNextToken` leads to a state with the invariant, over the same text, whose
position is not smaller. -/
theorem C14_cursor_invariant (text : GoString) (hne : text ≠ []) :
    (∃ l, NewLexer text = .ok l ∧ l.CursorInv ∧ l.pos = 0 ∧ l.text = text) ∧
    ∀ l : Lexer, l.CursorInv →
      (l.advance.CursorInv ∧ l.pos ≤ l.advance.pos ∧ l.advance.text = l.text) ∧
      (l.skipWhiteSpace.CursorInv ∧ l.pos ≤ l.skipWhiteSpace.pos ∧
        l.skipWhiteSpace.text = l.text) ∧
      (l.integer.2.CursorInv ∧ l.pos ≤ l.integer.2.pos ∧ l.integer.2.text = l.text) ∧
      (∀ tok l1, l.getNextToken = .ok (tok, l1) →
        l1.CursorInv ∧ l.pos ≤ l1.pos ∧ l1.text = l.text) := by
  constructor
  · obtain ⟨c, s, rfl⟩ := List.exists_cons_of_ne_nil hne
    exact ⟨_, NewLexer_cons c s, cursorInv_seek _ _, rfl, rfl⟩
  · intro l hl
    have hwf := (cursorInv_iff_wf l).1 hl
    refine ⟨?_, ?_, ?_, ?_⟩
    · rw [advance_eq_seek]
      exact ⟨cursorInv_seek _ _, Nat.le_succ _, rfl⟩
    · rw [skipWhiteSpace_wf hwf]
      exact ⟨cursorInv_seek _ _, Nat.le_add_right _ _, rfl⟩
    · rw [integer_wf hwf]
      exact ⟨cursorInv_seek _ _, Nat.le_add_right _ _, rfl⟩
    · intro tok l1 h
      obtain ⟨k, _, rfl, _⟩ := getNextToken_state hwf h
      exact ⟨cursorInv_seek _ _, Nat.le_add_right _ _, rfl⟩

/-- Claim C14, instance: the text `12 +`. -/
theorem C14_cursor_invariant_witness :
    str "12 +" ≠ [] ∧
    (∃ l, NewLexer (str "12 +") = .ok l ∧ l.CursorInv ∧ l.pos = 0 ∧ l.text = str "12 +") ∧
    ∀ l : Lexer, l.CursorInv →
      (l.advance.CursorInv ∧ l.pos ≤ l.advance.pos ∧ l.advance.text = l.text) ∧
      (l.skipWhiteSpace.CursorInv ∧ l.pos ≤ l.skipWhiteSpace.pos ∧
        l.skipWhiteSpace.text = l.text) ∧
      (l.integer.2.CursorInv ∧ l.pos ≤ l.integer.2.pos ∧ l.integer.2.text = l.text) ∧
      (∀ tok l1, l.getNextToken = .ok (tok, l1) →
        l1.CursorInv ∧ l.pos ≤ l1.pos ∧ l1.text = l.text) :=
  ⟨by decide, C14_cursor_invariant (str "12 +") (by decide)⟩


/-- A call of `getNextToken` that returns an `EOF` token found the current
character `NONE` and left the state as it was. -/
theorem getNextToken_eof {l l1 : Lexer} {tok : Token} (h : l.getNextToken = .ok (tok, l1))
    (ht : tok.Typ = .EOF) : l.currentChar = NONE ∧ l1 = l ∧ tok = tokEOF := by
  unfold Lexer.getNextToken at h
  by_cases hc : l.currentChar ≠ NONE
  · rw [if_pos hc] at h
    dsimp only at h
    split_ifs at h
    all_goals
      simp only [Except.ok.injEq, Prod.mk.injEq] at h
      obtain ⟨h1, _⟩ := h
      rw [← h1] at ht
      cases ht
  · rw [if_neg hc] at h
    simp only [Except.ok.injEq, Prod.mk.injEq, str_space] at h
    exact ⟨by simpa using hc, h.2.symm, h.1.symm⟩

theorem getNextToken_of_NONE {l : Lexer} (h : l.currentChar = NONE) :
    l.getNextToken = .ok (tokEOF, l) := by
  unfold Lexer.getNextToken
  rw [if_neg (by simp [h]), str_space]
  rfl

theorem nthCall_of_NONE {l : Lexer} (h : l.currentChar = NONE) :
    ∀ n, l.nthCall n = .ok (tokEOF, l) := by
  intro n
  induction n with
  | zero => exact getNextToken_of_NONE h
  | succ k ih =>
    unfold Lexer.nthCall
    rw [getNextToken_of_NONE h, ok_bind]
    exact ih

/-- Claim C12. Once a `getNextToken` call returns an `EOF` token, the lexer
state is unchanged by that call, and every subsequent call on the lexer returns
the `EOF` token again, without failing and without changing the state. -/
theorem C12_eof_persistent (l l1 : Lexer) (tok : Token)
    (h : l.getNextToken = .ok (tok, l1)) (ht : tok.Typ = .EOF) :
    l1 = l ∧ ∀ n, l1.nthCall n = .ok (tok, l1) ∧
      (∀ r, l1.nthCall n = .ok r → r.1.Typ = .EOF ∧ r.2.pos = l.pos ∧
        r.2.currentChar = l.currentChar) := by
  obtain ⟨hc, rfl, rfl⟩ := getNextToken_eof h ht
  refine ⟨rfl, fun n => ⟨nthCall_of_NONE hc n, ?_⟩⟩
  intro r hr
  rw [nthCall_of_NONE hc n] at hr
  simp only [Except.ok.injEq] at hr
  subst hr
  exact ⟨rfl, rfl, rfl⟩

/-- Claim C12, instance: the lexer at the end of the text `7`. -/
theorem C12_eof_persistent_witness :
    ((Lexer.seek (str "7") 1).getNextToken = .ok (tokEOF, Lexer.seek (str "7") 1) ∧
      tokEOF.Typ = .EOF) ∧
    (Lexer.seek (str "7") 1 = Lexer.seek (str "7") 1 ∧
      ∀ n, (Lexer.seek (str "7") 1).nthCall n = .ok (tokEOF, Lexer.seek (str "7") 1) ∧
        (∀ r, (Lexer.seek (str "7") 1).nthCall n = .ok r → r.1.Typ = .EOF ∧
          r.2.pos = (Lexer.seek (str "7") 1).pos ∧
          r.2.currentChar = (Lexer.seek (str "7") 1).currentChar)) :=
  ⟨by decide, C12_eof_persistent (Lexer.seek (str "7") 1) (Lexer.seek (str "7") 1) tokEOF
    (by decide) rfl⟩

theorem isSingle_cases {c : Byte} (h : isSingle c = true) :
    c = 40 ∨ c = 41 ∨ c = 43 ∨ c = 45 ∨ c = 42 ∨ c = 47 := by
  simpa [isSingle, isOp, or_assoc] using h

/-- Claim C16. Whenever `getNextToken` is called with the current character `c`
one of `( ) + - * /`, it returns the token of the corresponding kind (`LPAREN`,
`RPAREN`, `PLUS`, `MINUS`, `MUL`, `DIV`) whose text is the one-character string
`c`, over the same text and with the position advanced by exactly one. -/
theorem C16_single_char_token (l : Lexer) (h : isSingle l.currentChar = true) :
    ∃ l1, l.getNextToken = .ok (tokChar (kindOf l.currentChar) l.currentChar, l1) ∧
      (tokChar (kindOf l.currentChar) l.currentChar).Literal = [l.currentChar] ∧
      l1.pos = l.pos + 1 ∧ l1.text = l.text ∧
      (l.currentChar = 40 → kindOf l.currentChar = .LPAREN) ∧
      (l.currentChar = 41 → kindOf l.currentChar = .RPAREN) ∧
      (l.currentChar = 43 → kindOf l.currentChar = .PLUS) ∧
      (l.currentChar = 45 → kindOf l.currentChar = .MINUS) ∧
      (l.currentChar = 42 → kindOf l.currentChar = .MUL) ∧
      (l.currentChar = 47 → kindOf l.currentChar = .DIV) := by
  have hadv : l.advance.pos = l.pos + 1 ∧ l.advance.text = l.text := by
    rw [advance_eq_seek]; exact ⟨rfl, rfl⟩
  refine ⟨l.advance, ?_, rfl, hadv.1, hadv.2, ?_, ?_, ?_, ?_, ?_, ?_⟩
  · have hsp : Lexer.isSpace l.currentChar = false := by
      rcases isSingle_cases h with hc | hc | hc | hc | hc | hc <;> (rw [hc]; decide)
    have hd : Lexer.isDigit l.currentChar = false := by
      rcases isSingle_cases h with hc | hc | hc | hc | hc | hc <;> (rw [hc]; decide)
    have hn : l.currentChar ≠ NONE := by
      rcases isSingle_cases h with hc | hc | hc | hc | hc | hc <;> (rw [hc]; decide)
    unfold Lexer.getNextToken
    rw [if_pos hn]
    simp only [hsp, hd, Bool.false_eq_true, if_false, str_lparen, str_rparen, str_plus,
      str_minus, str_mul, str_div]
    rcases isSingle_cases h with hc | hc | hc | hc | hc | hc <;>
      simp [hc, kindOf, tokChar]
  all_goals (intro hc; rw [hc]; rfl)

/-- Claim C16, instance: the lexer on the `*` of `2*3`. -/
theorem C16_single_char_token_witness :
    isSingle (Lexer.seek (str "2*3") 1).currentChar = true ∧
    (Lexer.seek (str "2*3") 1).getNextToken
      = .ok (tokChar .MUL 42, Lexer.seek (str "2*3") 2) ∧
    ∃ l1, (Lexer.seek (str "2*3") 1).getNextToken = .ok (tokChar
        (kindOf (Lexer.seek (str "2*3") 1).currentChar)
        (Lexer.seek (str "2*3") 1).currentChar, l1) ∧
      (tokChar (kindOf (Lexer.seek (str "2*3") 1).currentChar)
        (Lexer.seek (str "2*3") 1).currentChar).Literal
          = [(Lexer.seek (str "2*3") 1).currentChar] ∧
      l1.pos = (Lexer.seek (str "2*3") 1).pos + 1 ∧
      l1.text = (Lexer.seek (str "2*3") 1).text ∧
      ((Lexer.seek (str "2*3") 1).currentChar = 40 →
        kindOf (Lexer.seek (str "2*3") 1).currentChar = .LPAREN) ∧
      ((Lexer.seek (str "2*3") 1).currentChar = 41 →
        kindOf (Lexer.seek (str "2*3") 1).currentChar = .RPAREN) ∧
      ((Lexer.seek (str "2*3") 1).currentChar = 43 →
        kindOf (Lexer.seek (str "2*3") 1).currentChar = .PLUS) ∧
      ((Lexer.seek (str "2*3") 1).currentChar = 45 →
        kindOf (Lexer.seek (str "2*3") 1).currentChar = .MINUS) ∧
      ((Lexer.seek (str "2*3") 1).currentChar = 42 →
        kindOf (Lexer.seek (str "2*3") 1).currentChar = .MUL) ∧
      ((Lexer.seek (str "2*3") 1).currentChar = 47 →
        kindOf (Lexer.seek (str "2*3") 1).currentChar = .DIV) :=
  ⟨by decide, by decide, C16_single_char_token (Lexer.seek (str "2*3") 1) (by decide)⟩


/-! ### Bounds -/

theorem pos_lt_of_ne_NONE {l : Lexer} (h : l.CursorInv) (hc : l.currentChar ≠ NONE) :
    l.pos < l.text.length := by
  by_contra hlt
  exact hc (h.2 (by omega))

theorem advanceChecked_eq (l : Lexer) : l.advanceChecked = .ok l.advance := by
  unfold Lexer.advanceChecked Lexer.advance
  dsimp only
  split
  · rfl
  · rename_i h
    have hlt : l.pos + 1 < l.text.length := by omega
    rw [List.getElem?_eq_getElem hlt]
    rfl

theorem getNextToken_ne_indexPanic (l : Lexer) : l.getNextToken ≠ .error .IndexPanic := by
  unfold Lexer.getNextToken
  dsimp only
  split_ifs <;> simp

theorem reachable_inv {text : GoString} {l : Lexer} (h : Reachable text l) :
    l.text = text ∧ l.pos ≤ text.length ∧ l.CursorInv := by
  induction h with
  | init h0 =>
    obtain ⟨rfl, _⟩ := NewLexer_ok h0
    exact ⟨rfl, Nat.zero_le _, cursorInv_seek _ _⟩
  | @next l l1 tok _ hg ih =>
    obtain ⟨ht, hp, hi⟩ := ih
    obtain ⟨k, _, rfl, hk⟩ := getNextToken_state ((cursorInv_iff_wf l).1 hi) hg
    refine ⟨ht, ?_, cursorInv_seek _ _⟩
    show l.pos + k ≤ text.length
    rw [ht] at hk
    omega
  | @skip l _ ih =>
    obtain ⟨ht, hp, hi⟩ := ih
    rw [skipWhiteSpace_wf ((cursorInv_iff_wf l).1 hi)]
    refine ⟨ht, ?_, cursorInv_seek _ _⟩
    have := Lexer.takeWhile_length_le Lexer.isSpace l.text l.pos
    show l.pos + _ ≤ text.length
    rw [ht] at this ⊢
    omega
  | @int l _ ih =>
    obtain ⟨ht, hp, hi⟩ := ih
    rw [integer_wf ((cursorInv_iff_wf l).1 hi)]
    refine ⟨ht, ?_, cursorInv_seek _ _⟩
    have := Lexer.takeWhile_length_le Lexer.isDigit l.text l.pos
    show l.pos + _ ≤ text.length
    rw [ht] at this ⊢
    omega
  | @adv l _ hc ih =>
    obtain ⟨ht, hp, hi⟩ := ih
    have hlt := pos_lt_of_ne_NONE hi hc
    rw [advance_eq_seek]
    refine ⟨ht, ?_, cursorInv_seek _ _⟩
    show l.pos + 1 ≤ text.length
    rw [ht] at hlt
    omega

/-- Claim C17. `NewLexer` fails on the empty text, where its read of `text[0]`
is out of range, and succeeds on every other text; in every state a run goes
through the position is at most the length of the text and the cursor
invariant holds; under that invariant a current character other than `NONE`,
the condition of every call of `advance`, means that the position is inside the
text; the index expression of `advance` is never out of range, and
`getNextToken` never ends in an index panic. -/
theorem C17_bounds_safety :
    NewLexer [] = .error .IndexPanic ∧
    (∀ text : GoString, text ≠ [] → ∃ l, NewLexer text = .ok l) ∧
    (∀ (text : GoString) (l : Lexer), Reachable text l →
      l.text = text ∧ 0 ≤ l.pos ∧ l.pos ≤ text.length ∧ l.CursorInv) ∧
    (∀ l : Lexer, l.CursorInv → l.currentChar ≠ NONE → l.pos < l.text.length) ∧
    (∀ l : Lexer, l.advanceChecked = .ok l.advance) ∧
    (∀ l : Lexer, l.getNextToken ≠ .error .IndexPanic) := by
  refine ⟨rfl, ?_, ?_, fun l => pos_lt_of_ne_NONE, advanceChecked_eq,
    getNextToken_ne_indexPanic⟩
  · intro text hne
    obtain ⟨c, s, rfl⟩ := List.exists_cons_of_ne_nil hne
    exact ⟨_, NewLexer_cons c s⟩
  · intro text l h
    obtain ⟨h1, h2, h3⟩ := reachable_inv h
    exact ⟨h1, Nat.zero_le _, h2, h3⟩

/-- Claim C15 at the failing input: on the text of the three bytes `1`, `0xFF`,
`2` the first `getNextToken` call stops at position 1, inside the text, with the
current character equal to `NONE`, and the next call returns `EOF` there; the
byte after it is never read, and the line renders as `1`. -/
theorem C15_sentinel_collision :
    (NewLexer [49, 255, 50] >>= Lexer.getNextToken)
      = .ok (tokInt 1, { text := [49, 255, 50], pos := 1, currentChar := NONE }) ∧
    (1 : Nat) < ([49, 255, 50] : GoString).length ∧
    ({ text := [49, 255, 50], pos := 1, currentChar := NONE } : Lexer).getNextToken
      = .ok (tokEOF, { text := [49, 255, 50], pos := 1, currentChar := NONE }) ∧
    run [49, 255, 50] = .ok (str "1") := by
  decide

end GoCalc

namespace GoCalc

/-! ### Tokens of a text with something appended -/

theorem streamLoop_of_yields {s : GoString} {ts : List Token} {fin : Option Err}
    (h : Yields s ts fin) : ∀ (t : GoString) (p fuel : Nat), t.drop p = s →
      s.length < fuel → Lexer.streamLoop fuel (Lexer.seek t p) = (ts, fin) := by
  induction h with
  | eof hl hty =>
    intro t p fuel hs hf
    obtain ⟨f, rfl⟩ : ∃ f, fuel = f + 1 := ⟨fuel - 1, by omega⟩
    unfold Lexer.streamLoop
    rw [Lexer.getNextToken_seek, hs, hl]
    dsimp only
    rw [if_pos hty]
  | err hl =>
    intro t p fuel hs hf
    obtain ⟨f, rfl⟩ : ∃ f, fuel = f + 1 := ⟨fuel - 1, by omega⟩
    unfold Lexer.streamLoop
    rw [Lexer.getNextToken_seek, hs, hl]
  | @tok s tok k ts e hl hty _ ih =>
    intro t p fuel hs hf
    obtain ⟨f, rfl⟩ : ∃ f, fuel = f + 1 := ⟨fuel - 1, by omega⟩
    have hk : 1 ≤ k ∧ k ≤ s.length := by
      rcases lexRest_ok_cases hl with h1 | h1
      · exact absurd (by rw [h1.1]; rfl) hty
      · exact ⟨h1.2.1, h1.2.2.1⟩
    unfold Lexer.streamLoop
    rw [Lexer.getNextToken_seek, hs, hl]
    dsimp only
    rw [if_neg hty, ih t (p + k) f (by rw [← List.drop_drop, hs])
      (by simp only [List.length_drop]; omega)]

theorem lexStream_of_yields {t : GoString} {ts : List Token} {fin : Option Err}
    (hne : t ≠ []) (h : Yields t ts fin) : lexStream t = (ts, fin) := by
  obtain ⟨c, s, rfl⟩ := List.exists_cons_of_ne_nil hne
  unfold lexStream
  rw [NewLexer_cons]
  exact streamLoop_of_yields h _ 0 _ rfl (by omega)

theorem takeWhile_append_inside (f : Byte → Bool) (x : GoString) :
    ∀ s : GoString, s.drop (s.takeWhile f).length ≠ [] →
      (s ++ x).takeWhile f = s.takeWhile f := by
  intro s
  induction s with
  | nil => intro h; exact absurd rfl h
  | cons a s ih =>
    intro h
    by_cases ha : f a = true
    · rw [List.cons_append, List.takeWhile_cons_of_pos ha, List.takeWhile_cons_of_pos ha]
      rw [List.takeWhile_cons_of_pos ha] at h
      rw [ih (by simpa using h)]
    · rw [List.cons_append, List.takeWhile_cons_of_neg ha, List.takeWhile_cons_of_neg ha]

theorem takeWhile_append_stop (f : Byte → Bool) {x : GoString} (hx : f (peek x) = false) :
    ∀ s : GoString, (s ++ x).takeWhile f = s.takeWhile f := by
  intro s
  induction s with
  | nil =>
    cases x with
    | nil => rfl
    | cons b x =>
      simp only [peek] at hx
      rw [List.nil_append, List.takeWhile_cons_of_neg (by simp [hx])]
      rfl
  | cons a s ih =>
    by_cases ha : f a = true
    · rw [List.cons_append, List.takeWhile_cons_of_pos ha, List.takeWhile_cons_of_pos ha, ih]
    · rw [List.cons_append, List.takeWhile_cons_of_neg ha, List.takeWhile_cons_of_neg ha]

theorem peek_append_of_ne_nil {s : GoString} (h : s ≠ []) (x : GoString) :
    peek (s ++ x) = peek s := by
  cases s with
  | nil => exact absurd rfl h
  | cons a s => rfl

theorem ne_nil_of_peek_ne_NONE {s : GoString} (h : peek s ≠ NONE) : s ≠ [] := by
  intro hs; subst hs; exact h rfl

/-- The first token of a text, when it is not `EOF`, stays the same when
something that does not start with a digit is appended to the text. -/
theorem lexRest_append {s x : GoString} {tok : Token} {k : Nat}
    (h : lexRest s = .ok (tok, k)) (hty : tok.Typ ≠ .EOF)
    (hx : Lexer.isDigit (peek x) = false) : lexRest (s ++ x) = .ok (tok, k) := by
  have hcases := lexRest_ok_cases h
  rcases hcases with h1 | ⟨_, _, _, hp⟩
  · exact absurd (by rw [h1.1]; rfl) hty
  have hsne := ne_nil_of_peek_ne_NONE hp
  have hK : (s.takeWhile Lexer.isSpace).length ≤ s.length :=
    (List.takeWhile_sublist _).length_le
  -- the character after the leading spaces starts the token
  have hs1 : s.drop (s.takeWhile Lexer.isSpace).length ≠ [] := by
    intro hnil
    unfold lexRest at h
    rw [if_pos hp] at h
    simp only [hnil, peek] at h
    rw [if_neg (by decide), if_neg (by decide), if_neg (by decide), if_neg (by decide),
      if_neg (by decide), if_neg (by decide), if_neg (by decide)] at h
    cases h
  have e1 := takeWhile_append_inside Lexer.isSpace x s hs1
  have e2 : (s ++ x).drop (s.takeWhile Lexer.isSpace).length
      = s.drop (s.takeWhile Lexer.isSpace).length ++ x := List.drop_append_of_le_length hK
  have e3 := peek_append_of_ne_nil hs1 x
  have e4 := takeWhile_append_stop Lexer.isDigit hx
    (s.drop (s.takeWhile Lexer.isSpace).length)
  have e5 := peek_append_of_ne_nil hsne x
  unfold lexRest
  unfold lexRest at h
  rw [e5, e1]
  simp only [e2, e3, e4]
  exact h


theorem eq_nil_of_peek_NONE {s : GoString} (h : peek s = NONE) (hs : ∀ b ∈ s, b ≠ NONE) :
    s = [] := by
  cases s with
  | nil => rfl
  | cons a s => exact absurd h (hs a (by simp))

theorem lexRest_le_length {s : GoString} {tok : Token} {k : Nat}
    (h : lexRest s = .ok (tok, k)) : k ≤ s.length := by
  rcases lexRest_ok_cases h with h1 | h1
  · rw [h1.2.1]; exact Nat.zero_le _
  · exact h1.2.2.1

/-- Tokens of `s ++ x` when `s` has no byte `NONE` and ends with `EOF`: the
tokens of `s`, then those of `x`. -/
theorem yields_append {s : GoString} {ts : List Token} {fin : Option Err}
    (h : Yields s ts fin) : fin = none → (∀ b ∈ s, b ≠ NONE) →
    ∀ (x : GoString) (tx : List Token) (fx : Option Err),
      Lexer.isDigit (peek x) = false → Yields x tx fx → Yields (s ++ x) (ts ++ tx) fx := by
  induction h with
  | eof hl hty =>
    intro _ hs x tx fx _ hy
    rcases lexRest_ok_cases hl with h1 | h1
    · rw [eq_nil_of_peek_NONE h1.2.2 hs]
      exact hy
    · exact absurd hty h1.1
  | err _ => intro hfin; cases hfin
  | @tok s tok k ts e hl hty _ ih =>
    intro hfin hs x tx fx hx hy
    have hk := lexRest_le_length hl
    refine Yields.tok (lexRest_append hl hty hx) hty ?_
    rw [List.drop_append_of_le_length hk]
    exact ih hfin (fun b hb => hs b (List.mem_of_mem_drop hb)) x tx fx hx hy

/-- Tokens of `s ++ x` when `s` ends with `EOF`: the tokens of `s`, followed by
those of `x` unless a byte `NONE` of `s` ended them. -/
theorem yields_append_or {s : GoString} {ts : List Token} {fin : Option Err}
    (h : Yields s ts fin) : fin = none →
    ∀ (x : GoString) (tx : List Token) (fx : Option Err),
      Lexer.isDigit (peek x) = false → Yields x tx fx →
      Yields (s ++ x) (ts ++ tx) fx ∨ Yields (s ++ x) ts none := by
  induction h with
  | @eof s tok k hl hty =>
    intro _ x tx fx _ hy
    rcases lexRest_ok_cases hl with h1 | h1
    · cases s with
      | nil => exact Or.inl hy
      | cons a s =>
        right
        have ha : a = NONE := h1.2.2
        subst ha
        exact @Yields.eof _ tokEOF 0 (by rfl) rfl
    · exact absurd hty h1.1
  | err _ => intro hfin; cases hfin
  | @tok s tok k ts e hl hty _ ih =>
    intro hfin x tx fx hx hy
    have hk := lexRest_le_length hl
    rcases ih hfin x tx fx hx hy with h1 | h1
    · left
      refine Yields.tok (lexRest_append hl hty hx) hty ?_
      rw [List.drop_append_of_le_length hk]
      exact h1
    · right
      refine Yields.tok (lexRest_append hl hty hx) hty ?_
      rw [List.drop_append_of_le_length hk]
      exact h1


/-! ### An unknown character -/

theorem isSpace_eq {b : Byte} (h : Lexer.isSpace b = true) : b = 32 := by
  simpa [Lexer.isSpace] using h

theorem isUnknown_spec {c : Byte} (h : isUnknown c = true) :
    c ≠ NONE ∧ Lexer.isSpace c = false ∧ Lexer.isDigit c = false ∧ isSingle c = false := by
  simpa [isUnknown, and_assoc] using h

theorem lexRest_unknown {c : Byte} (h : isUnknown c = true) (suf : GoString) :
    lexRest (c :: suf) = .error (.LexError c) := by
  obtain ⟨h1, h2, h3, h4⟩ := isUnknown_spec h
  have h5 : c ≠ 40 ∧ c ≠ 41 ∧ c ≠ 43 ∧ c ≠ 45 ∧ c ≠ 42 ∧ c ≠ 47 := by
    refine ⟨?_, ?_, ?_, ?_, ?_, ?_⟩ <;> (rintro rfl; revert h4; decide)
  rw [lexRest_char suf h2 h1, if_neg (by simp [h3]), if_neg h5.1, if_neg h5.2.1,
    if_neg h5.2.2.1, if_neg h5.2.2.2.1, if_neg h5.2.2.2.2.1, if_neg h5.2.2.2.2.2]

theorem lexRest_spaces_unknown {c : Byte} (h : isUnknown c = true) (suf : GoString) :
    ∀ s : GoString, (∀ b ∈ s, Lexer.isSpace b = true) →
      lexRest (s ++ c :: suf) = .error (.LexError c) := by
  intro s
  induction s with
  | nil => intro _; exact lexRest_unknown h suf
  | cons a s ih =>
    intro hs
    have ha := isSpace_eq (hs a (by simp))
    subst ha
    have hrest := ih (fun b hb => hs b (by simp [hb]))
    have hp : peek (s ++ c :: suf) ≠ NONE := by
      cases s with
      | nil => exact (isUnknown_spec h).1
      | cons b s =>
        have hb := isSpace_eq (hs b (by simp))
        subst hb
        show (32 : Byte) ≠ NONE
        decide
    rw [List.cons_append, lexRest_space hp, hrest]

theorem isPlain_ne_NONE {b : Byte} (h : isPlain b = true) : b ≠ NONE := by
  rintro rfl; revert h; decide

theorem isPlain_cases {b : Byte} (h : isPlain b = true) (hs : Lexer.isSpace b = false) :
    Lexer.isDigit b = true ∨ b = 40 ∨ b = 41 ∨ b = 43 ∨ b = 45 ∨ b = 42 ∨ b = 47 := by
  simp only [isPlain, hs, Bool.or_false, Bool.or_eq_true] at h
  rcases h with h | h
  · exact Or.inl h
  · exact Or.inr (isSingle_cases h)

/-- On a text of digits, spaces and `( ) + - * /` the lexer fails only on
spaces that run to the end of the text. -/
theorem lexRest_error_plain {s : GoString} {e : Err} (hs : ∀ b ∈ s, isPlain b = true)
    (h : lexRest s = .error e) : ∀ b ∈ s, Lexer.isSpace b = true := by
  have hnil : s.drop (s.takeWhile Lexer.isSpace).length = [] := by
    by_contra hne
    obtain ⟨a, s1, hs1⟩ := List.exists_cons_of_ne_nil hne
    have ha : a ∈ s := List.mem_of_mem_drop (by rw [hs1]; simp)
    have hsp : Lexer.isSpace a = false := by
      have := peek_drop_takeWhile Lexer.isSpace (by decide) s
      rw [hs1] at this
      exact this
    have hp : peek s ≠ NONE := by
      cases s with
      | nil => simp at ha
      | cons b s => exact isPlain_ne_NONE (hs b (by simp))
    unfold lexRest at h
    rw [if_pos hp] at h
    simp only [hs1, peek] at h
    rcases isPlain_cases (hs a ha) hsp with hd | hd | hd | hd | hd | hd | hd <;>
      split_ifs at h
  have htake := take_length_takeWhile Lexer.isSpace s
  have hlen : s.length ≤ (s.takeWhile Lexer.isSpace).length := by
    have := congrArg List.length hnil
    simp only [List.length_drop, List.length_nil] at this
    omega
  rw [List.take_of_length_le hlen] at htake
  intro b hb
  rw [htake] at hb
  exact mem_takeWhile_imp _ _ b hb

theorem yields_nil_inv {ts : List Token} {fin : Option Err} (h : Yields [] ts fin) :
    ts = [] := by
  cases h with
  | eof _ _ => rfl
  | err _ => rfl
  | tok hl hty _ =>
    rw [lexRest_nil] at hl
    simp only [Except.ok.injEq, Prod.mk.injEq] at hl
    exact absurd (by rw [← hl.1]; rfl) hty

/-- Tokens of a text of digits, spaces and `( ) + - * /` followed by an unknown
character: the tokens of the text, then the lexer error on that character. -/
theorem yields_append_unknown {c : Byte} (hc : isUnknown c = true) (suf : GoString)
    {s : GoString} {ts : List Token} {fin : Option Err} (h : Yields s ts fin) :
    (∀ b ∈ s, isPlain b = true) → Yields (s ++ c :: suf) ts (some (.LexError c)) := by
  induction h with
  | eof hl hty =>
    intro hs
    rcases lexRest_ok_cases hl with h1 | h1
    · rw [eq_nil_of_peek_NONE h1.2.2 (fun b hb => isPlain_ne_NONE (hs b hb))]
      exact Yields.err (lexRest_unknown hc suf)
    · exact absurd hty h1.1
  | err hl =>
    intro hs
    exact Yields.err (lexRest_spaces_unknown hc suf _ (lexRest_error_plain hs hl))
  | @tok s tok k ts e hl hty _ ih =>
    intro hs
    have hk := lexRest_le_length hl
    refine Yields.tok (lexRest_append hl hty (isUnknown_spec hc).2.2.1) hty ?_
    rw [List.drop_append_of_le_length hk]
    exact ih (fun b hb => hs b (List.mem_of_mem_drop hb))

/-- The lexer on an unknown character: on a line made of a text of digits,
spaces and `( ) + - * /`, then a character `c` that no test of `getNextToken`
accepts, then anything, repeated `getNextToken` calls return the tokens of the
first text and then fail with `LexError c`. -/
theorem lexStream_unknown (pre suf : GoString) (c : Byte)
    (hpre : ∀ b ∈ pre, isPlain b = true) (hc : isUnknown c = true) :
    lexStream (pre ++ c :: suf) = ((lexStream pre).1, some (.LexError c)) := by
  obtain ⟨ts, fin, hy⟩ := yields_exists pre.length pre (Nat.le_refl _)
  rw [lexStream_of_yields (by simp) (yields_append_unknown hc suf hy hpre)]
  cases pre with
  | nil => rw [yields_nil_inv hy]; rfl
  | cons a s => rw [lexStream_of_yields (by simp) hy]

/-- Claim C11 at the failing input: the byte `0xFF` is not a digit, a space or
one of `( ) + - * /`, yet on the line `1`, `0xFF`, `@` the calls return the
token of `1` and then `EOF`, with no lexer error for either byte; on the line
`1 + @2` they return the tokens of `1 +` and then fail on `@`. -/
theorem C11_sentinel_byte_not_reported :
    lexStream [49, 255, 64] = ([tokInt 1], none) ∧
    Lexer.isDigit 255 = false ∧ Lexer.isSpace 255 = false ∧ isSingle 255 = false ∧
    lexStream (str "1 + @2") = ([tokInt 1, opTok 43], some (.LexError 64)) ∧
    (lexStream (str "1 + ")).1 = [tokInt 1, opTok 43] := by
  decide

end GoCalc

namespace GoCalc

/-! ### Fuel -/

theorem bind_mono {α β : Type} {x x1 : Except Err α} {g g1 : α → Except Err β}
    (hx : x ≠ .error .OutOfFuel → x1 = x)
    (hg : ∀ v, x = .ok v → g v ≠ .error .OutOfFuel → g1 v = g v)
    (h : (x >>= g) ≠ .error .OutOfFuel) : (x1 >>= g1) = (x >>= g) := by
  cases x with
  | error e =>
    rw [error_bind] at h
    have hx1 := hx (by intro h1; cases h1; exact h rfl)
    rw [hx1, error_bind, error_bind]
  | ok v =>
    rw [ok_bind] at h
    rw [hx (by intro h1; cases h1), ok_bind, ok_bind]
    exact hg v rfl h

theorem factorWith_mono {e e1 : AParser → Except Err (Node × AParser)} (he : FuelLe e e1) :
    FuelLe (AParser.factorWith e) (AParser.factorWith e1) := by
  intro a h
  unfold AParser.factorWith at h ⊢
  by_cases ht : a.cur.Typ = .LPAREN
  · simp only [if_pos ht] at h ⊢
    refine bind_mono (fun _ => rfl) (fun a1 _ h1 => ?_) h
    exact bind_mono (he a1) (fun r _ _ => rfl) h1
  · simp only [if_neg ht]

theorem termLoop_mono {e e1 : AParser → Except Err (Node × AParser)} (he : FuelLe e e1) :
    ∀ (k k1 : Nat), k ≤ k1 → ∀ n, FuelLe (AParser.termLoop e k n) (AParser.termLoop e1 k1 n) := by
  intro k
  induction k with
  | zero => intro k1 _ n a h; exact absurd rfl h
  | succ k ih =>
    intro k1 hk n a h
    obtain ⟨k2, rfl⟩ : ∃ k2, k1 = k2 + 1 := ⟨k1 - 1, by omega⟩
    unfold AParser.termLoop at h ⊢
    by_cases ht : a.cur.Typ = .MUL ∨ a.cur.Typ = .DIV
    · simp only [if_pos ht] at h ⊢
      refine bind_mono (fun _ => rfl) (fun a1 _ h1 => ?_) h
      refine bind_mono (factorWith_mono he a1) (fun r _ h2 => ?_) h1
      exact ih k2 (by omega) _ _ h2
    · simp only [if_neg ht]

theorem termWith_mono {e e1 : AParser → Except Err (Node × AParser)} (he : FuelLe e e1)
    {k k1 : Nat} (hk : k ≤ k1) : FuelLe (AParser.termWith e k) (AParser.termWith e1 k1) := by
  intro a h
  unfold AParser.termWith at h ⊢
  refine bind_mono (factorWith_mono he a) (fun r _ h1 => ?_) h
  exact termLoop_mono he k k1 hk _ _ h1

theorem exprLoop_mono {e e1 : AParser → Except Err (Node × AParser)} (he : FuelLe e e1) :
    ∀ (k k1 : Nat), k ≤ k1 → ∀ n, FuelLe (AParser.exprLoop e k n) (AParser.exprLoop e1 k1 n) := by
  intro k
  induction k with
  | zero => intro k1 _ n a h; exact absurd rfl h
  | succ k ih =>
    intro k1 hk n a h
    obtain ⟨k2, rfl⟩ : ∃ k2, k1 = k2 + 1 := ⟨k1 - 1, by omega⟩
    unfold AParser.exprLoop at h ⊢
    by_cases ht : a.cur.Typ = .PLUS ∨ a.cur.Typ = .MINUS
    · simp only [if_pos ht] at h ⊢
      refine bind_mono (fun _ => rfl) (fun a1 _ h1 => ?_) h
      refine bind_mono (termWith_mono he (by omega) a1) (fun r _ h2 => ?_) h1
      exact ih k2 (by omega) _ _ h2
    · simp only [if_neg ht]

/-- More fuel does not change a result other than `OutOfFuel`. -/
theorem expr_mono : ∀ (f f1 : Nat), f ≤ f1 → FuelLe (AParser.expr f) (AParser.expr f1) := by
  intro f
  induction f with
  | zero => intro f1 _ a h; exact absurd rfl h
  | succ f ih =>
    intro f1 hf a h
    obtain ⟨f2, rfl⟩ : ∃ f2, f1 = f2 + 1 := ⟨f1 - 1, by omega⟩
    unfold AParser.expr at h ⊢
    refine bind_mono (termWith_mono (ih f2 (by omega)) (by omega) a) (fun r _ h1 => ?_) h
    exact exprLoop_mono (ih f2 (by omega)) f f2 (by omega) _ _ h1

theorem tree_mono {ts : List Token} {fin : Option Err} {f f1 : Nat} (hf : f ≤ f1)
    (h : AParser.tree f ts fin ≠ .error .OutOfFuel) :
    AParser.tree f1 ts fin = AParser.tree f ts fin := by
  unfold AParser.tree at h ⊢
  refine bind_mono (fun _ => rfl) (fun a _ h1 => ?_) h
  exact bind_mono (expr_mono f f1 hf a) (fun r _ _ => rfl) h1

/-- The parser with any fuel computes the tree from the token sequence. -/
theorem parseWith_of_yields {t : GoString} {ts : List Token} {fin : Option Err} (hne : t ≠ [])
    (hy : Yields t ts fin) (f : Nat) : parseWith f t = AParser.tree f ts fin := by
  obtain ⟨c, s, rfl⟩ := List.exists_cons_of_ne_nil hne
  unfold parseWith AParser.tree
  rw [NewLexer_cons, ok_bind]
  rcases NewParser_sim hy with ⟨p, a, hp, ha, hs⟩ | ⟨e, hp, ha⟩
  · rw [hp, ha, ok_bind, ok_bind]
    rcases expr_sim f p a hs with ⟨n, p2, a2, hp2, ha2, _⟩ | ⟨e, hp2, ha2⟩
    · rw [hp2, ha2, ok_bind, ok_bind]
    · rw [hp2, ha2, error_bind, error_bind]
  · rw [hp, ha, error_bind, error_bind]

theorem parseLine_eq_parseWith (t : GoString) : parseLine t = parseWith (t.length + 2) t := by
  cases t with
  | nil => rfl
  | cons c s =>
    obtain ⟨ts, fin, hy⟩ := yields_exists (c :: s).length (c :: s) (Nat.le_refl _)
    rw [parseLine_of_yields (by simp) hy, parseWith_of_yields (by simp) hy]

end GoCalc

namespace GoCalc

theorem ext_cur {x : Token} {a b : AParser} (h : Ext x a b) (hc : a.cur.Typ ≠ .EOF) :
    b.cur = a.cur ∧ b.rest = a.rest ++ [x] := by
  rcases h.2.2.2 with ⟨_, h1, h2⟩ | ⟨h1, _⟩
  · exact ⟨h1, h2⟩
  · exact absurd h1 hc

theorem ext_eof {x : Token} {a b : AParser} (h : Ext x a b) (hc : a.cur.Typ = .EOF) :
    b.cur = x ∧ b.rest = [] := by
  rcases h.2.2.2 with ⟨h1, _⟩ | ⟨_, _, h1, h2⟩
  · exact absurd hc h1
  · exact ⟨h1, h2⟩

theorem start_ext (x : Token) {ts : List Token} {a : AParser}
    (hts : ∀ tok ∈ ts, tok.Typ ≠ .EOF) (h : AParser.start ts none = .ok a) :
    ∃ b, AParser.start (ts ++ [x]) none = .ok b ∧ Ext x a b := by
  cases ts with
  | nil =>
    cases h
    exact ⟨⟨x, [], none⟩, rfl, rfl, rfl, hts, Or.inr ⟨rfl, rfl, rfl, rfl⟩⟩
  | cons t r =>
    cases h
    refine ⟨⟨t, r ++ [x], none⟩, rfl, rfl, rfl, ?_, Or.inl ⟨?_, rfl, rfl⟩⟩
    · intro tok htok
      exact hts tok (List.mem_cons_of_mem _ htok)
    · exact hts t (List.mem_cons_self _ _)

theorem eat_ext {x : Token} {a b a1 : AParser} {tt : TokenType} (hab : Ext x a b)
    (h : a.eat tt = .ok a1) (htt : tt ≠ .EOF) :
    ∃ b1, b.eat tt = .ok b1 ∧ Ext x a1 b1 := by
  by_cases ht : a.cur.Typ = tt
  · have hc : a.cur.Typ ≠ .EOF := by rw [ht]; exact htt
    obtain ⟨hbc, hbr⟩ := ext_cur hab hc
    rw [AParser.eat_of_typ a tt ht, hab.1] at h
    rw [AParser.eat_of_typ b tt (by rw [hbc]; exact ht), hbr, hab.2.1]
    exact start_ext x hab.2.2.1 h
  · rw [AParser.eat_of_ne a tt ht] at h
    cases h

theorem factorWith_ext {x : Token} {e e1 : AParser → Except Err (Node × AParser)}
    (he : ExtFun x e e1) : ExtFun x (AParser.factorWith e) (AParser.factorWith e1) := by
  intro a b t a3 hab h
  by_cases ht : a.cur.Typ = .LPAREN
  · have hc : a.cur.Typ ≠ .EOF := by rw [ht]; decide
    obtain ⟨hbc, _⟩ := ext_cur hab hc
    rw [AParser.factorWith_lparen e a ht] at h
    rw [AParser.factorWith_lparen e1 b (by rw [hbc]; exact ht)]
    obtain ⟨a1, h1, h⟩ := bind_ok_inv h
    obtain ⟨r, h2, h⟩ := bind_ok_inv h
    obtain ⟨n, a2⟩ := r
    obtain ⟨a3', h3, h⟩ := bind_ok_inv h
    cases h
    obtain ⟨b1, hb1, hs1⟩ := eat_ext hab h1 (by decide)
    obtain ⟨b2, hb2, hs2⟩ := he a1 b1 n a2 hs1 h2
    obtain ⟨b3, hb3, hs3⟩ := eat_ext hs2 h3 (by decide)
    refine ⟨b3, ?_, hs3⟩
    rw [hb1, ok_bind, hb2, ok_bind]
    show b2.eat .RPAREN >>= _ = _
    rw [hb3, ok_bind]
    rfl
  · unfold AParser.factorWith at h ⊢
    rw [if_neg ht] at h
    cases hv : a.cur.Value with
    | string s => rw [hv] at h; cases h
    | int v =>
      rw [hv] at h
      dsimp only at h
      obtain ⟨a1, h1, h⟩ := bind_ok_inv h
      cases h
      have hty : a.cur.Typ = .INTEGER := by
        by_contra hne
        rw [AParser.eat_of_ne a _ hne] at h1
        cases h1
      have hc : a.cur.Typ ≠ .EOF := by rw [hty]; decide
      obtain ⟨hbc, _⟩ := ext_cur hab hc
      obtain ⟨b1, hb1, hs1⟩ := eat_ext hab h1 (by decide)
      refine ⟨b1, ?_, hs1⟩
      rw [hbc, if_neg ht, hv]
      dsimp only
      rw [← hbc, hb1, ok_bind, hbc]
      rfl

theorem termLoop_ext {x : Token} (hx : ¬ (x.Typ = .MUL ∨ x.Typ = .DIV))
    {e e1 : AParser → Except Err (Node × AParser)} (he : ExtFun x e e1) :
    ∀ (k : Nat) (n : Node), ExtFun x (AParser.termLoop e k n) (AParser.termLoop e1 k n) := by
  intro k
  induction k with
  | zero => intro n a b t a1 _ h; cases h
  | succ k ih =>
    intro n a b t a3 hab h
    by_cases ht : a.cur.Typ = .MUL ∨ a.cur.Typ = .DIV
    · have hc : a.cur.Typ ≠ .EOF := by rcases ht with h1 | h1 <;> (rw [h1]; decide)
      obtain ⟨hbc, _⟩ := ext_cur hab hc
      unfold AParser.termLoop at h ⊢
      rw [if_pos ht] at h
      rw [if_pos (by rw [hbc]; exact ht)]
      dsimp only at h ⊢
      obtain ⟨a1, h1, h⟩ := bind_ok_inv h
      obtain ⟨r, h2, h⟩ := bind_ok_inv h
      obtain ⟨right, a2⟩ := r
      dsimp only at h
      obtain ⟨b1, hb1, hs1⟩ := eat_ext hab h1 hc
      obtain ⟨b2, hb2, hs2⟩ := factorWith_ext he a1 b1 right a2 hs1 h2
      obtain ⟨b3, hb3, hs3⟩ := ih _ a2 b2 t a3 hs2 h
      refine ⟨b3, ?_, hs3⟩
      rw [hbc, hb1, ok_bind, hb2, ok_bind]
      exact hb3
    · rw [AParser.termLoop_stop e k n a ht] at h
      cases h
      have hb : ¬ (b.cur.Typ = .MUL ∨ b.cur.Typ = .DIV) := by
        by_cases hc : a.cur.Typ = .EOF
        · rw [(ext_eof hab hc).1]; exact hx
        · rw [(ext_cur hab hc).1]; exact ht
      exact ⟨b, AParser.termLoop_stop e1 k n b hb, hab⟩

theorem termWith_ext {x : Token} (hx : ¬ (x.Typ = .MUL ∨ x.Typ = .DIV))
    {e e1 : AParser → Except Err (Node × AParser)} (he : ExtFun x e e1) (k : Nat) :
    ExtFun x (AParser.termWith e k) (AParser.termWith e1 k) := by
  intro a b t a2 hab h
  unfold AParser.termWith at h ⊢
  obtain ⟨r, h1, h⟩ := bind_ok_inv h
  obtain ⟨n, a1⟩ := r
  dsimp only at h
  obtain ⟨b1, hb1, hs1⟩ := factorWith_ext he a b n a1 hab h1
  obtain ⟨b2, hb2, hs2⟩ := termLoop_ext hx he k n a1 b1 t a2 hs1 h
  exact ⟨b2, by rw [hb1, ok_bind]; exact hb2, hs2⟩

theorem exprLoop_ext {x : Token} (hx : ¬ (x.Typ = .MUL ∨ x.Typ = .DIV))
    (hx1 : ¬ (x.Typ = .PLUS ∨ x.Typ = .MINUS))
    {e e1 : AParser → Except Err (Node × AParser)} (he : ExtFun x e e1) :
    ∀ (k : Nat) (n : Node), ExtFun x (AParser.exprLoop e k n) (AParser.exprLoop e1 k n) := by
  intro k
  induction k with
  | zero => intro n a b t a1 _ h; cases h
  | succ k ih =>
    intro n a b t a3 hab h
    by_cases ht : a.cur.Typ = .PLUS ∨ a.cur.Typ = .MINUS
    · have hc : a.cur.Typ ≠ .EOF := by rcases ht with h1 | h1 <;> (rw [h1]; decide)
      obtain ⟨hbc, _⟩ := ext_cur hab hc
      unfold AParser.exprLoop at h ⊢
      rw [if_pos ht] at h
      rw [if_pos (by rw [hbc]; exact ht)]
      dsimp only at h ⊢
      obtain ⟨a1, h1, h⟩ := bind_ok_inv h
      obtain ⟨r, h2, h⟩ := bind_ok_inv h
      obtain ⟨right, a2⟩ := r
      dsimp only at h
      obtain ⟨b1, hb1, hs1⟩ := eat_ext hab h1 hc
      obtain ⟨b2, hb2, hs2⟩ := termWith_ext hx he k a1 b1 right a2 hs1 h2
      obtain ⟨b3, hb3, hs3⟩ := ih _ a2 b2 t a3 hs2 h
      refine ⟨b3, ?_, hs3⟩
      rw [hbc, hb1, ok_bind, hb2, ok_bind]
      exact hb3
    · rw [AParser.exprLoop_stop e k n a ht] at h
      cases h
      have hb : ¬ (b.cur.Typ = .PLUS ∨ b.cur.Typ = .MINUS) := by
        by_cases hc : a.cur.Typ = .EOF
        · rw [(ext_eof hab hc).1]; exact hx1
        · rw [(ext_cur hab hc).1]; exact ht
      exact ⟨b, AParser.exprLoop_stop e1 k n b hb, hab⟩

/-- A token that is no operator, put after the tokens of an expression, does
not change the tree that `expr` returns. -/
theorem expr_ext {x : Token} (hx : ¬ (x.Typ = .MUL ∨ x.Typ = .DIV))
    (hx1 : ¬ (x.Typ = .PLUS ∨ x.Typ = .MINUS)) :
    ∀ f : Nat, ExtFun x (AParser.expr f) (AParser.expr f) := by
  intro f
  induction f with
  | zero => intro a b t a1 _ h; cases h
  | succ f ih =>
    intro a b t a2 hab h
    unfold AParser.expr at h ⊢
    obtain ⟨r, h1, h⟩ := bind_ok_inv h
    obtain ⟨n, a1⟩ := r
    dsimp only at h
    obtain ⟨b1, hb1, hs1⟩ := termWith_ext hx ih f a b n a1 hab h1
    obtain ⟨b2, hb2, hs2⟩ := exprLoop_ext hx hx1 ih f n a1 b1 t a2 hs1 h
    exact ⟨b2, by rw [hb1, ok_bind]; exact hb2, hs2⟩

/-- The token view of a line that parses with all of its tokens consumed. -/
theorem parsed_tokens {e : GoString} {t : Node} {p : Parser}
    (h : parseState e = .ok (t, p)) (hEOF : p.currentToken.Typ = .EOF) :
    ∃ ts a0 a, e ≠ [] ∧ Yields e ts none ∧ AParser.start ts none = .ok a0 ∧
      AParser.expr (e.length + 2) a0 = .ok (t, a) ∧ a.cur.Typ = .EOF := by
  have hne := parseState_ne_nil h
  obtain ⟨ts, fin, hy⟩ := yields_exists e.length e (Nat.le_refl _)
  rcases parseState_of_yields hne hy with ⟨n, p1, a, a0, h1, h2, h3, hs⟩ | ⟨err, h1, _⟩
  · rw [h] at h1
    simp only [Except.ok.injEq, Prod.mk.injEq] at h1
    obtain ⟨rfl, rfl⟩ := h1
    have hcur : a.cur.Typ = .EOF := by rw [← hs.2.1]; exact hEOF
    obtain ⟨c, hc, _⟩ := expr_ok (e.length + 2) a0 t a (start_inv h2 (yields_isLex hy)) h3
    obtain ⟨_, rfl⟩ := consumes_all hc ts fin h2 (yields_isLex hy) hcur
    exact ⟨ts, a0, a, hne, hy, h2, h3, hcur⟩
  · rw [h] at h1; cases h1

/-- The tree of a token sequence eaten up to `EOF` is the tree of the sequence
followed by a token `x` that is no operator, which is then the lookahead. -/
theorem tree_ext {x : Token} (hx : ¬ (x.Typ = .MUL ∨ x.Typ = .DIV))
    (hx1 : ¬ (x.Typ = .PLUS ∨ x.Typ = .MINUS)) {ts : List Token}
    (hts : ∀ tok ∈ ts, tok.Typ ≠ .EOF) {f : Nat} {a0 a : AParser} {t : Node}
    (h2 : AParser.start ts none = .ok a0) (h3 : AParser.expr f a0 = .ok (t, a))
    (hcur : a.cur.Typ = .EOF) :
    ∃ b0 b, AParser.start (ts ++ [x]) none = .ok b0 ∧
      (∀ f1, f ≤ f1 → AParser.expr f1 b0 = .ok (t, b)) ∧
      b.cur = x ∧ b.rest = [] ∧ b.fin = none := by
  obtain ⟨b0, hb0, hs0⟩ := start_ext x hts h2
  obtain ⟨b, hb, hs⟩ := expr_ext hx hx1 f a0 b0 t a hs0 h3
  obtain ⟨h4, h5⟩ := ext_eof hs hcur
  refine ⟨b0, b, hb0, fun f1 hf => ?_, h4, h5, hs.2.1⟩
  rw [expr_mono f f1 hf b0 (by rw [hb]; intro h; cases h), hb]

theorem tree_of_expr {ts : List Token} {f : Nat} {a0 a : AParser} {t : Node}
    (h2 : AParser.start ts none = .ok a0) (h3 : AParser.expr f a0 = .ok (t, a)) :
    AParser.tree f ts none = .ok t := by
  unfold AParser.tree
  rw [h2, ok_bind, h3, ok_bind]
  rfl

/-- Claim C13. For every line `e` that parses to a tree `t` with all of its
tokens consumed (the lookahead after `parse` is `EOF`) and every integer
literal `n`, the line `e ++ " " ++ n` parses to the same tree `t` and the run on
it prints what the run on `e` prints; the line `1 2` parses to the literal `1`
and prints `1`. -/
theorem C13_trailing_literal_ignored (e n : GoString) (t : Node) (p : Parser)
    (h : parseState e = .ok (t, p)) (hEOF : p.currentToken.Typ = .EOF)
    (hn : isLiteral n = true) :
    parseLine (e ++ str " " ++ n) = .ok t
    ∧ run (e ++ str " " ++ n) = run e
    ∧ parseLine (str "1 2") = .ok (.Num (tokInt 1) 1)
    ∧ run (str "1 2") = .ok (str "1") := by
  obtain ⟨ts, a0, a, hne, hy, h2, h3, hcur⟩ := parsed_tokens h hEOF
  have v : VisitorNode := ⟨⟨Lexer.seek [] 0, tokEOF⟩⟩
  have htxt : e ++ str " " ++ n = e ++ (32 :: n) := by simp [str_space]
  have hne1 : e ++ (32 :: n) ≠ [] := by simp
  have hts : ∀ tok ∈ ts, tok.Typ ≠ .EOF := fun tok htok => (yields_isLex hy tok htok).2
  have ht0 : AParser.tree (e.length + 2) ts none = .ok t := tree_of_expr h2 h3
  have hle : e.length + 2 ≤ (e ++ (32 :: n)).length + 2 := by simp
  have hyn : Yields (32 :: n) [tokInt (atoi n)] none := by
    have h5 : Yields (n ++ []) [tokInt (atoi n)] none :=
      yields_digits (isLiteral_ne_nil hn) (isLiteral_digits hn) isDigit_peek_nil yields_nil
    rw [List.append_nil] at h5
    have hp : peek n ≠ NONE := by
      have := peek_append_literal hn []
      rwa [List.append_nil] at this
    exact yields_space hp h5
  have key : AParser.tree ((e ++ (32 :: n)).length + 2) ts none = .ok t ∧
      ∃ ts1, Yields (e ++ (32 :: n)) ts1 none ∧
        AParser.tree ((e ++ (32 :: n)).length + 2) ts1 none = .ok t := by
    have h0 : AParser.tree ((e ++ (32 :: n)).length + 2) ts none = .ok t := by
      rw [tree_mono hle (by rw [ht0]; intro h; cases h), ht0]
    refine ⟨h0, ?_⟩
    rcases yields_append_or hy rfl (32 :: n) _ none (isDigit_peek_false_of _ (by decide)) hyn
      with hy1 | hy1
    · refine ⟨_, hy1, ?_⟩
      obtain ⟨b0, b, hb0, hb, _⟩ :=
        tree_ext (x := tokInt (atoi n))
          (show ¬ (TokenType.INTEGER = .MUL ∨ TokenType.INTEGER = .DIV) by decide)
          (show ¬ (TokenType.INTEGER = .PLUS ∨ TokenType.INTEGER = .MINUS) by decide)
          hts h2 h3 hcur
      exact tree_of_expr hb0 (hb _ hle)
    · exact ⟨ts, hy1, h0⟩
  obtain ⟨_, ts1, hy1, ht1⟩ := key
  refine ⟨?_, ?_, by decide, by decide⟩
  · rw [htxt, parseLine_of_yields hne1 hy1, ht1]
  · rw [htxt, run_of_yields hne1 hy1 v, ht1, run_of_yields hne hy v, ht0]

/-- Claim C13, instance: `1 + 2` followed by the literal `34`. -/
theorem C13_trailing_literal_ignored_witness :
    (parseState (str "1 + 2") = .ok (.BinOp (.Num (tokInt 1) 1) (opTok 43) (.Num (tokInt 2) 2),
      ⟨Lexer.seek (str "1 + 2") 5, tokEOF⟩) ∧ tokEOF.Typ = .EOF ∧ isLiteral (str "34") = true) ∧
    parseLine (str "1 + 2" ++ str " " ++ str "34")
      = .ok (.BinOp (.Num (tokInt 1) 1) (opTok 43) (.Num (tokInt 2) 2))
    ∧ run (str "1 + 2" ++ str " " ++ str "34") = run (str "1 + 2")
    ∧ parseLine (str "1 2") = .ok (.Num (tokInt 1) 1)
    ∧ run (str "1 2") = .ok (str "1") :=
  ⟨by decide, C13_trailing_literal_ignored (str "1 + 2") (str "34") _ _
    (show parseState (str "1 + 2") = .ok (.BinOp (.Num (tokInt 1) 1) (opTok 43)
      (.Num (tokInt 2) 2), ⟨Lexer.seek (str "1 + 2") 5, tokEOF⟩) by decide) rfl (by decide)⟩

/-- Redundant parentheses around a line without the byte `0xFF` that parses
with all of its tokens consumed: the same tree and the same output. -/
theorem parens_same_tree (e : GoString) (t : Node) (p : Parser)
    (h : parseState e = .ok (t, p)) (hEOF : p.currentToken.Typ = .EOF)
    (hff : ∀ b ∈ e, b ≠ NONE) :
    parseLine (str "(" ++ e ++ str ")") = .ok t
    ∧ run (str "(" ++ e ++ str ")") = run e := by
  obtain ⟨ts, a0, a, hne, hy, h2, h3, hcur⟩ := parsed_tokens h hEOF
  have v : VisitorNode := ⟨⟨Lexer.seek [] 0, tokEOF⟩⟩
  have htxt : str "(" ++ e ++ str ")" = 40 :: (e ++ [41]) := by simp [str_lparen, str_rparen]
  have hne1 : (40 : Byte) :: (e ++ [41]) ≠ [] := by simp
  have hts : ∀ tok ∈ ts, tok.Typ ≠ .EOF := fun tok htok => (yields_isLex hy tok htok).2
  have ht0 : AParser.tree (e.length + 2) ts none = .ok t := tree_of_expr h2 h3
  have hlen : ((40 : Byte) :: (e ++ [41])).length + 2 = (e.length + 2 + 1) + 1 := by simp
  have hy1 : Yields (40 :: (e ++ [41])) (tokChar .LPAREN 40 :: (ts ++ [tokChar .RPAREN 41])) none :=
    yields_lparen (yields_append hy rfl hff [41] _ none (by decide) (yields_rparen yields_nil))
  obtain ⟨b0, b, hb0, hb, hbc, hbr, hbf⟩ :=
    tree_ext (x := tokChar .RPAREN 41) (by decide) (by decide) hts h2 h3 hcur
  have hfac : AParser.factorWith (AParser.expr (e.length + 2 + 1))
      ⟨tokChar .LPAREN 40, ts ++ [tokChar .RPAREN 41], none⟩ = .ok (t, ⟨tokEOF, [], none⟩) := by
    rw [AParser.factorWith_lparen _ _ rfl, AParser.eat_of_typ _ .LPAREN rfl]
    show AParser.start (ts ++ [tokChar .RPAREN 41]) none >>= _ = _
    rw [hb0, ok_bind, hb _ (by omega), ok_bind]
    show b.eat .RPAREN >>= _ = _
    rw [AParser.eat_of_typ b .RPAREN (by rw [hbc]; rfl), hbr, hbf]
    rfl
  have hterm : AParser.termWith (AParser.expr (e.length + 2 + 1)) (e.length + 2 + 1)
      ⟨tokChar .LPAREN 40, ts ++ [tokChar .RPAREN 41], none⟩ = .ok (t, ⟨tokEOF, [], none⟩) := by
    unfold AParser.termWith
    rw [hfac, ok_bind]
    exact AParser.termLoop_stop _ _ _ _ (by decide)
  have ht1 : AParser.tree ((e.length + 2 + 1) + 1)
      (tokChar .LPAREN 40 :: (ts ++ [tokChar .RPAREN 41])) none = .ok t := by
    refine @tree_of_expr _ _ ⟨tokChar .LPAREN 40, ts ++ [tokChar .RPAREN 41], none⟩
      ⟨tokEOF, [], none⟩ _ rfl ?_
    show AParser.termWith _ _ _ >>= _ = _
    rw [hterm, ok_bind]
    exact AParser.exprLoop_stop _ _ _ _ (by decide)
  constructor
  · rw [htxt, parseLine_of_yields hne1 hy1, hlen, ht1]
  · rw [htxt, run_of_yields hne1 hy1 v, hlen, ht1, run_of_yields hne hy v, ht0]

/-- Claim C20, failing input: the line `1` followed by the byte `0xFF` parses to
the literal `1` with all of its tokens consumed, for the lexer takes the byte
`0xFF` for the end of the text; within parentheses the lexer stops at the same
byte, the closing parenthesis is never read, and the parser reports a syntax
error where the line alone gives a tree and prints `1`. -/
theorem C20_parens_sentinel_fails :
    parseState [49, 255] = .ok (.Num (tokInt 1) 1, ⟨Lexer.seek [49, 255] 1, tokEOF⟩)
    ∧ tokEOF.Typ = .EOF
    ∧ parseLine [49, 255] = .ok (.Num (tokInt 1) 1)
    ∧ run [49, 255] = .ok (str "1")
    ∧ parseLine (str "(" ++ [49, 255] ++ str ")") = .error .SyntaxError
    ∧ run (str "(" ++ [49, 255] ++ str ")") = .error .SyntaxError := by
  decide

end GoCalc

namespace GoCalc

theorem good_nodes {t : Node} (h : t.Good) : ∀ n ∈ t.nodes, n.Good := by
  induction t with
  | Num tok value =>
    intro n hn
    simp only [Node.nodes, List.mem_singleton] at hn
    subst hn
    exact h
  | BinOp left op right ihl ihr =>
    intro n hn
    simp only [Node.nodes, List.mem_cons, List.mem_append] at hn
    rcases hn with rfl | hn | hn
    · exact h
    · exact ihl h.2.1 n hn
    · exact ihr h.2.2 n hn
  | other => exact absurd h (by simp [Node.Good])

/-- On a tree built as the parser builds it, `String` is `visit` with one more
space before each closing parenthesis. -/
theorem string_vs_visit (v : VisitorNode) (t : Node) (h : t.Good) :
    ∃ s1 s2, t.String = some s1 ∧ v.visit t = .ok s2 ∧
      s1.length = s2.length + t.numBinOp ∧
      s1.filter (fun c => c != 32) = s2.filter (fun c => c != 32) := by
  induction t with
  | Num tok value =>
    obtain ⟨rfl, _⟩ := h
    exact ⟨sprint value, sprint value, rfl, rfl, rfl, rfl⟩
  | BinOp left op right ihl ihr =>
    obtain ⟨l1, l2, hl1, hl2, hll, hlf⟩ := ihl h.2.1
    obtain ⟨r1, r2, hr1, hr2, hrl, hrf⟩ := ihr h.2.2
    refine ⟨str "(" ++ op.Literal ++ (str " " ++ l1 ++ str " " ++ r1 ++ str " ") ++ str ")",
      str "(" ++ op.Literal ++ str " " ++ l2 ++ str " " ++ r2 ++ str ")", ?_, ?_, ?_, ?_⟩
    · simp only [Node.String, hl1, hr1]
      rfl
    · simp only [VisitorNode.visit, hl2, hr2, ok_bind]
      rfl
    · simp only [str_lparen, str_rparen, str_space, List.length_append, List.length_cons,
        List.length_nil, Node.numBinOp]
      omega
    · simp only [str_lparen, str_rparen, str_space, List.filter_append, hlf, hrf,
        List.append_assoc]
      rfl
  | other => exact absurd h (by simp [Node.Good])

/-- Claim C19 (amended). For every node of a tree that `parse` returns, the
method `String` and the visitor both give a string; the two strings have the
same characters other than spaces, the string of `String` is longer by the
number of `BinOp` nodes (one space before each closing parenthesis), and so the
two are equal exactly on the `Num` nodes. -/
theorem C19_string_vs_visit (e : GoString) (t : Node) (p : Parser) (v : VisitorNode)
    (h : parseState e = .ok (t, p)) :
    ∀ n ∈ t.nodes, ∃ s1 s2, n.String = some s1 ∧ v.visit n = .ok s2 ∧
      s1.length = s2.length + n.numBinOp ∧
      s1.filter (fun c => c != 32) = s2.filter (fun c => c != 32) ∧
      (s1 = s2 ↔ n.numBinOp = 0) ∧
      (∀ tok value, n = .Num tok value → s1 = s2) ∧
      (∀ l op r, n = .BinOp l op r → s1 ≠ s2) := by
  have hne := parseState_ne_nil h
  obtain ⟨ts, fin, hy⟩ := yields_exists e.length e (Nat.le_refl _)
  have hgood : t.Good := by
    rcases parseState_of_yields hne hy with ⟨n, p1, a, a0, h1, h2, h3, hs⟩ | ⟨err, h1, _⟩
    · rw [h] at h1
      simp only [Except.ok.injEq, Prod.mk.injEq] at h1
      obtain ⟨rfl, rfl⟩ := h1
      obtain ⟨c, _, _, hg, _⟩ :=
        expr_ok (e.length + 2) a0 t a (start_inv h2 (yields_isLex hy)) h3
      exact hg
    · rw [h] at h1; cases h1
  intro n hn
  obtain ⟨s1, s2, h1, h2, hlen, hfil⟩ := string_vs_visit v n (good_nodes hgood n hn)
  have hiff : s1 = s2 ↔ n.numBinOp = 0 := by
    constructor
    · intro heq
      rw [heq] at hlen
      omega
    · intro h0
      have hg := good_nodes hgood n hn
      cases n with
      | Num tok value =>
        obtain ⟨rfl, _⟩ := hg
        simp only [Node.String, Option.some.injEq] at h1
        simp only [VisitorNode.visit, pure, Except.pure, Except.ok.injEq] at h2
        rw [← h1, ← h2]
        rfl
      | BinOp l op r => simp [Node.numBinOp] at h0
      | other => exact absurd hg (by simp [Node.Good])
  refine ⟨s1, s2, h1, h2, hlen, hfil, hiff, ?_, ?_⟩
  · intro tok value hnum
    subst hnum
    exact hiff.2 rfl
  · intro l op r hbin heq
    subst hbin
    have := hiff.1 heq
    simp [Node.numBinOp] at this

/-- Claim C19 (amended), instance: the three nodes of the tree of `1 + 2`. -/
theorem C19_string_vs_visit_witness :
    parseState (str "1 + 2") = .ok (.BinOp (.Num (tokInt 1) 1) (opTok 43) (.Num (tokInt 2) 2),
      ⟨Lexer.seek (str "1 + 2") 5, tokEOF⟩) ∧
    ∀ n ∈ (Node.BinOp (.Num (tokInt 1) 1) (opTok 43) (.Num (tokInt 2) 2)).nodes,
      ∃ s1 s2, n.String = some s1 ∧
      (NewVisitor ⟨Lexer.seek (str "1 + 2") 5, tokEOF⟩).visit n = .ok s2 ∧
      s1.length = s2.length + n.numBinOp ∧
      s1.filter (fun c => c != 32) = s2.filter (fun c => c != 32) ∧
      (s1 = s2 ↔ n.numBinOp = 0) ∧
      (∀ tok value, n = .Num tok value → s1 = s2) ∧
      (∀ l op r, n = .BinOp l op r → s1 ≠ s2) :=
  ⟨by decide, C19_string_vs_visit (str "1 + 2") _ _ _
    (show parseState (str "1 + 2") = .ok (.BinOp (.Num (tokInt 1) 1) (opTok 43)
      (.Num (tokInt 2) 2), ⟨Lexer.seek (str "1 + 2") 5, tokEOF⟩) by decide)⟩

/-- Claim C19 as stated fails on the tree of `1 + 2`: `String` gives `(+ 1 2 )`,
with a space before the closing parenthesis, and the visitor gives `(+ 1 2)`. -/
theorem C19_counterexample :
    parseLine (str "1 + 2") = .ok (.BinOp (.Num (tokInt 1) 1) (opTok 43) (.Num (tokInt 2) 2)) ∧
    (Node.BinOp (.Num (tokInt 1) 1) (opTok 43) (.Num (tokInt 2) 2)).String
      = some (str "(+ 1 2 )") ∧
    (NewVisitor ⟨Lexer.seek (str "1 + 2") 5, tokEOF⟩).visit
      (.BinOp (.Num (tokInt 1) 1) (opTok 43) (.Num (tokInt 2) 2)) = .ok (str "(+ 1 2)") ∧
    str "(+ 1 2 )" ≠ str "(+ 1 2)" := by
  decide

end GoCalc

namespace GoCalc

/-! ### The decimal text of `fmt.Sprint` -/

theorem natDigits_eq_digits : ∀ (fuel n : Nat) (acc : GoString), 0 < n → n < fuel →
    natDigits fuel n acc
      = (Nat.digits 10 n).reverse.map (fun d => (Fin.ofNat (48 + d) : Byte)) ++ acc := by
  intro fuel
  induction fuel with
  | zero => intro n acc _ h; omega
  | succ k ih =>
    intro n acc hn hlt
    unfold natDigits
    dsimp only
    rw [Nat.digits_def' (by decide) hn]
    split
    · rename_i h0
      have h10 : n < 10 := by omega
      rw [h0]
      simp
    · rename_i h0
      rw [ih (n / 10) _ (by omega) (by omega)]
      simp

/-- The model of `fmt.Sprint` on an `int` gives the decimal text of the value. -/
theorem sprint_eq_decimalText (v : Int) : sprint v = decimalText v := by
  cases v with
  | ofNat n =>
    have hlt : ¬ (Int.ofNat n < 0) := Int.not_lt.mpr (Int.ofNat_nonneg n)
    have hab : (Int.ofNat n).natAbs = n := rfl
    simp only [decimalText, if_neg hlt, hab, decimalNat]
    by_cases hn : n = 0
    · subst hn; rfl
    · rw [if_neg hn]
      show natDigits (n + 1) n [] = _
      rw [natDigits_eq_digits (n + 1) n [] (by omega) (by omega), List.append_nil]
  | negSucc n =>
    have hlt : Int.negSucc n < 0 := Int.negSucc_lt_zero n
    have hab : (Int.negSucc n).natAbs = n + 1 := rfl
    simp only [decimalText, if_pos hlt, hab, decimalNat]
    rw [if_neg (by omega)]
    show 45 :: natDigits (n + 2) (n + 1) [] = _
    rw [natDigits_eq_digits (n + 2) (n + 1) [] (by omega) (by omega), List.append_nil]

theorem decVal_eq_ofDigits (d : GoString) :
    decVal d = Nat.ofDigits 10 ((d.map (fun c => c.val - 48)).reverse) := by
  induction d using List.reverseRecOn with
  | nil => rfl
  | append_singleton xs c ih =>
    rw [decVal_append_single, ih]
    simp [Nat.ofDigits_cons]
    omega

theorem digit_roundtrip {c : Byte} (h : Lexer.isDigit c = true) :
    (Fin.ofNat (48 + (c.val - 48)) : Byte) = c := by
  simp only [Lexer.isDigit, decide_eq_true_eq] at h
  apply Fin.ext
  show (48 + (c.val - 48)) % 256 = c.val
  omega

/-- A digit string without a leading zero is the decimal text of its value. -/
theorem decimalNat_decVal {d : GoString} (hd : ∀ c ∈ d, Lexer.isDigit c = true)
    (hne : d ≠ []) (hc : noLeadingZero d = true) : decimalNat (decVal d) = d := by
  simp only [noLeadingZero, Bool.or_eq_true, decide_eq_true_eq] at hc
  rcases hc with rfl | hc
  · rfl
  · obtain ⟨c, cs, rfl⟩ := List.exists_cons_of_ne_nil hne
    have hc48 : c ≠ 48 := by
      intro h
      apply hc
      rw [h]; rfl
    have hcd := hd c (by simp)
    have hcv : c.val - 48 ≠ 0 := by
      simp only [Lexer.isDigit, decide_eq_true_eq] at hcd
      intro h0
      apply hc48
      apply Fin.ext
      show c.val = 48
      omega
    have hdig : Nat.digits 10 (decVal (c :: cs))
        = ((c :: cs).map (fun c => c.val - 48)).reverse := by
      rw [decVal_eq_ofDigits]
      apply Nat.digits_ofDigits 10 (by decide)
      · intro l hl
        simp only [List.mem_reverse, List.mem_map] at hl
        obtain ⟨x, hx, rfl⟩ := hl
        have := hd x hx
        simp only [Lexer.isDigit, decide_eq_true_eq] at this
        omega
      · intro hnil
        simp only [List.map_cons, List.reverse_cons, List.getLast_append_singleton]
        exact hcv
    have hpos : decVal (c :: cs) ≠ 0 := by
      intro h0
      rw [h0] at hdig
      simp at hdig
    unfold decimalNat
    rw [if_neg hpos, hdig, List.reverse_reverse, List.map_map]
    calc List.map ((fun d => (Fin.ofNat (48 + d) : Byte)) ∘ fun c => c.val - 48) (c :: cs)
        = List.map id (c :: cs) := by
          apply List.map_congr_left
          intro x hx
          exact digit_roundtrip (hd x hx)
      _ = c :: cs := List.map_id _

/-- The decimal text of a number has no leading zero. -/
theorem noLeadingZero_decimalNat (n : Nat) : noLeadingZero (decimalNat n) = true := by
  unfold decimalNat
  by_cases hn : n = 0
  · rw [if_pos hn]; rfl
  · rw [if_neg hn]
    have hne : Nat.digits 10 n ≠ [] := Nat.digits_ne_nil_iff_ne_zero.mpr hn
    have hlast := Nat.getLast_digit_ne_zero 10 hn
    have hlt : (Nat.digits 10 n).getLast hne < 10 :=
      Nat.digits_lt_base (by decide) (List.getLast_mem hne)
    simp only [noLeadingZero, Bool.or_eq_true, decide_eq_true_eq]
    right
    rw [List.head?_map, List.head?_reverse, List.getLast?_eq_getLast _ hne]
    simp only [Option.map_some', ne_eq, Option.some.injEq]
    intro h
    have hv := congrArg Fin.val h
    have hv1 : (48 + (Nat.digits 10 n).getLast hne) % 256 = 48 := hv
    omega

theorem decVal_decimalNat (n : Nat) : decVal (decimalNat n) = n := by
  have h := sprint_eq_decimalText (n : Int)
  have hlt : ¬ ((n : Int) < 0) := Int.not_lt.mpr (Int.ofNat_nonneg n)
  simp only [decimalText, if_neg hlt, Int.natAbs_ofNat] at h
  rw [← h]
  exact decVal_natDigits (n + 1) n (by omega)

/-- The text of an `INTEGER` token, the decimal text of the value read from the
digits `d`, is `d` itself exactly when `d` has no leading zero and denotes a
number below `2^63`. -/
theorem literal_text_iff {d : GoString} (h : isLiteral d = true) :
    sprint (atoi d) = d ↔ (noLeadingZero d = true ∧ decVal d < 2 ^ 63) := by
  have hlt : ∀ m : Nat, ¬ ((m : Int) < 0) := fun m => Int.not_lt.mpr (Int.ofNat_nonneg m)
  rw [atoi_digits h, sprint_eq_decimalText]
  simp only [decimalText, if_neg (hlt _), Int.natAbs_ofNat]
  constructor
  · intro heq
    have hv : decVal d = min (decVal d) (2 ^ 63 - 1) := by
      conv_lhs => rw [← heq]
      exact decVal_decimalNat _
    refine ⟨?_, by omega⟩
    rw [← heq]
    exact noLeadingZero_decimalNat _
  · rintro ⟨hc, hv⟩
    rw [Nat.min_eq_left (by omega)]
    exact decimalNat_decVal (isLiteral_digits h) (isLiteral_ne_nil h) hc

end GoCalc

namespace GoCalc

theorem isLiteral_of {d : GoString} (hne : d ≠ []) (hd : ∀ c ∈ d, Lexer.isDigit c = true) :
    isLiteral d = true := by
  simp only [isLiteral, Bool.and_eq_true, Bool.not_eq_true', List.all_eq_true]
  refine ⟨?_, hd⟩
  cases d with
  | nil => exact absurd rfl hne
  | cons c s => rfl

theorem slice_ne_nil {t : GoString} {p q : Nat} (h1 : p < q) (h2 : q ≤ t.length) :
    slice t p q ≠ [] := by
  intro h
  have hl := congrArg List.length h
  simp only [slice, List.length_take, List.length_drop, List.length_nil] at hl
  omega

/-- Claim C6 (amended). Whenever `getNextToken` is called with a decimal digit
as current character, it reads the maximal run of digits at the cursor (the
bytes `d = text[pos:pos1]` are digits and the current character afterwards is
not one) and returns an `INTEGER` token whose value is the `int` read from `d`,
the number that `d` denotes capped at `2^63 - 1`, and whose text is the decimal
text of that value; the text equals the consumed substring `d` exactly when `d`
has no leading zero and denotes a number below `2^63`. -/
theorem C6_integer_token (l : Lexer) (hwf : l.Wf) (hd : Lexer.isDigit l.currentChar = true) :
    ∃ tok l1, l.getNextToken = .ok (tok, l1) ∧ l1.text = l.text ∧ l.pos < l1.pos ∧
      l1.pos ≤ l.text.length ∧ l1.Wf ∧
      (∀ c ∈ slice l.text l.pos l1.pos, Lexer.isDigit c = true) ∧
      Lexer.isDigit l1.currentChar = false ∧
      tok.Typ = .INTEGER ∧ tok.Value = .int (atoi (slice l.text l.pos l1.pos)) ∧
      tok.Literal = sprint (atoi (slice l.text l.pos l1.pos)) ∧
      tok.Value = .int ((min (decVal (slice l.text l.pos l1.pos)) (2 ^ 63 - 1) : Nat) : Int) ∧
      tok.Literal
        = decimalText ((min (decVal (slice l.text l.pos l1.pos)) (2 ^ 63 - 1) : Nat) : Int) ∧
      (tok.Literal = slice l.text l.pos l1.pos ↔
        (noLeadingZero (slice l.text l.pos l1.pos) = true ∧
          decVal (slice l.text l.pos l1.pos) < 2 ^ 63)) := by
  obtain ⟨tok, l1, h1, h2, h3, h4, h5, h6, h7, h8, h9, h10⟩ := integer_token l hwf hd
  have hlit : isLiteral (slice l.text l.pos l1.pos) = true :=
    isLiteral_of (slice_ne_nil h3 h4) h6
  refine ⟨tok, l1, h1, h2, h3, h4, h5, h6, h7, h8, h9, h10, ?_, ?_, ?_⟩
  · rw [h9, atoi_digits hlit]
  · rw [h10, atoi_digits hlit, sprint_eq_decimalText]
  · rw [h10]
    exact literal_text_iff hlit

/-- Claim C6, instance of the amended statement: the lexer at the start of
`12+3` returns the token of value 12 and text `12` and stops on the `+`. -/
theorem C6_integer_token_witness :
    ((Lexer.seek (str "12+3") 0).Wf ∧
      Lexer.isDigit (Lexer.seek (str "12+3") 0).currentChar = true ∧
      (Lexer.seek (str "12+3") 0).getNextToken
        = .ok (⟨.INTEGER, .int 12, str "12"⟩, Lexer.seek (str "12+3") 2)) ∧
    ∃ tok l1, (Lexer.seek (str "12+3") 0).getNextToken = .ok (tok, l1) ∧
      l1.text = (Lexer.seek (str "12+3") 0).text ∧ (Lexer.seek (str "12+3") 0).pos < l1.pos ∧
      l1.pos ≤ (Lexer.seek (str "12+3") 0).text.length ∧ l1.Wf ∧
      (∀ c ∈ slice (Lexer.seek (str "12+3") 0).text (Lexer.seek (str "12+3") 0).pos l1.pos,
        Lexer.isDigit c = true) ∧
      Lexer.isDigit l1.currentChar = false ∧
      tok.Typ = .INTEGER ∧
      tok.Value = .int (atoi (slice (Lexer.seek (str "12+3") 0).text
        (Lexer.seek (str "12+3") 0).pos l1.pos)) ∧
      tok.Literal = sprint (atoi (slice (Lexer.seek (str "12+3") 0).text
        (Lexer.seek (str "12+3") 0).pos l1.pos)) ∧
      tok.Value = .int ((min (decVal (slice (Lexer.seek (str "12+3") 0).text
        (Lexer.seek (str "12+3") 0).pos l1.pos)) (2 ^ 63 - 1) : Nat) : Int) ∧
      tok.Literal = decimalText ((min (decVal (slice (Lexer.seek (str "12+3") 0).text
        (Lexer.seek (str "12+3") 0).pos l1.pos)) (2 ^ 63 - 1) : Nat) : Int) ∧
      (tok.Literal = slice (Lexer.seek (str "12+3") 0).text (Lexer.seek (str "12+3") 0).pos
          l1.pos ↔
        (noLeadingZero (slice (Lexer.seek (str "12+3") 0).text
            (Lexer.seek (str "12+3") 0).pos l1.pos) = true ∧
          decVal (slice (Lexer.seek (str "12+3") 0).text
            (Lexer.seek (str "12+3") 0).pos l1.pos) < 2 ^ 63)) :=
  ⟨⟨rfl, by decide, by decide⟩, C6_integer_token (Lexer.seek (str "12+3") 0) rfl (by decide)⟩

/-- Claim C7. On every node built from `Num` and `BinOp`, `visit` returns the
string that the reference function `render` gives for the node: the decimal
text of the value of a `Num` (the base-10 digits of the value, after a minus
sign when negative), and `"(" ++ text of the operator ++ " " ++ render left ++
" " ++ render right ++ ")"` for a `BinOp`; on such nodes `visit` never takes its
`Unknown Node` branch. -/
theorem C7_visit_eq_render (v : VisitorNode) (node : Node) (h : node.isTree = true) :
    ∃ ast, node.toAst = some ast ∧ v.visit node = .ok (render ast) := by
  induction node with
  | Num tok value =>
    refine ⟨.Literal value, rfl, ?_⟩
    show Except.ok (sprint value) = Except.ok (decimalText value)
    rw [sprint_eq_decimalText]
  | BinOp left op right ihl ihr =>
    simp only [Node.isTree, Bool.and_eq_true] at h
    obtain ⟨al, hl1, hl2⟩ := ihl h.1
    obtain ⟨ar, hr1, hr2⟩ := ihr h.2
    refine ⟨.BinaryOp op.Literal al ar, ?_, ?_⟩
    · simp only [Node.toAst, hl1, hr1]
    · simp only [VisitorNode.visit, hl2, hr2, ok_bind, render]
      rfl
  | other => simp [Node.isTree] at h

/-- Claim C7, instance: the tree of `12 + -7 * 305`, whose value `-7` no line
can give, renders as `(+ 12 (* -7 305))`. -/
theorem C7_visit_eq_render_witness :
    ((Node.BinOp (.Num (tokInt 12) 12) (opTok 43)
        (.BinOp (.Num (tokInt (-7)) (-7)) (opTok 42) (.Num (tokInt 305) 305))).isTree = true ∧
      (Node.BinOp (.Num (tokInt 12) 12) (opTok 43)
        (.BinOp (.Num (tokInt (-7)) (-7)) (opTok 42) (.Num (tokInt 305) 305))).toAst
        = some (.BinaryOp (str "+") (.Literal 12)
            (.BinaryOp (str "*") (.Literal (-7)) (.Literal 305))) ∧
      render (.BinaryOp (str "+") (.Literal 12)
          (.BinaryOp (str "*") (.Literal (-7)) (.Literal 305))) = str "(+ 12 (* -7 305))" ∧
      (NewVisitor ⟨Lexer.seek [] 0, tokEOF⟩).visit
        (Node.BinOp (.Num (tokInt 12) 12) (opTok 43)
          (.BinOp (.Num (tokInt (-7)) (-7)) (opTok 42) (.Num (tokInt 305) 305)))
        = .ok (str "(+ 12 (* -7 305))")) ∧
    ∃ ast, (Node.BinOp (.Num (tokInt 12) 12) (opTok 43)
        (.BinOp (.Num (tokInt (-7)) (-7)) (opTok 42) (.Num (tokInt 305) 305))).toAst = some ast ∧
      (NewVisitor ⟨Lexer.seek [] 0, tokEOF⟩).visit
        (Node.BinOp (.Num (tokInt 12) 12) (opTok 43)
          (.BinOp (.Num (tokInt (-7)) (-7)) (opTok 42) (.Num (tokInt 305) 305)))
        = .ok (render ast) :=
  ⟨⟨rfl, by decide, by simp [render, decimalText, decimalNat]; decide, by decide⟩,
    C7_visit_eq_render _ _ rfl⟩

end GoCalc

namespace GoCalc

/-! ### The tokens of a line and its text -/

theorem split_takeWhile (f : Byte → Bool) (s : GoString) :
    s = s.takeWhile f ++ s.drop (s.takeWhile f).length := by
  conv_lhs => rw [← List.take_append_drop (s.takeWhile f).length s, take_length_takeWhile]

theorem cons_of_peek {s : GoString} {c : Byte} (h : peek s = c) (hc : c ≠ NONE) :
    s = c :: s.drop 1 := by
  cases s with
  | nil => exact absurd h.symm hc
  | cons a r => simp only [peek] at h; rw [h]; rfl

/-- The bytes that one `getNextToken` call reads: spaces, then the digits of an
`INTEGER` token or the character of a single-character token. -/
theorem lexRest_text {s : GoString} {tok : Token} {k : Nat}
    (h : lexRest s = .ok (tok, k)) (hne : tok.Typ ≠ .EOF) :
    ∃ sp body, s = sp ++ (body ++ s.drop k) ∧ (∀ b ∈ sp, Lexer.isSpace b = true) ∧
      ((isLiteral body = true ∧ tok = tokInt (atoi body) ∧
          Lexer.isDigit (peek (s.drop k)) = false) ∨
        (∃ c, body = [c] ∧ isSingle c = true ∧ tok = tokChar (kindOf c) c)) := by
  unfold lexRest at h
  by_cases hp : peek s ≠ NONE
  · rw [if_pos hp] at h
    dsimp only at h
    have hsp := split_takeWhile Lexer.isSpace s
    have hspm : ∀ b ∈ s.takeWhile Lexer.isSpace, Lexer.isSpace b = true :=
      mem_takeWhile_imp _ _
    have hdrop : ∀ m, s.drop ((s.takeWhile Lexer.isSpace).length + m)
        = (s.drop (s.takeWhile Lexer.isSpace).length).drop m := by
      intro m; rw [List.drop_drop]
    generalize hs1 : s.drop (s.takeWhile Lexer.isSpace).length = s1 at h hsp hdrop
    generalize hk0 : (s.takeWhile Lexer.isSpace).length = k0 at h hdrop
    have hchar : ∀ c : Byte, peek s1 = c → c ≠ NONE → isSingle c = true →
        tok = tokChar (kindOf c) c → k = k0 + 1 →
        ∃ sp body, s = sp ++ (body ++ s.drop k) ∧ (∀ b ∈ sp, Lexer.isSpace b = true) ∧
          ((isLiteral body = true ∧ tok = tokInt (atoi body) ∧
              Lexer.isDigit (peek (s.drop k)) = false) ∨
            (∃ c, body = [c] ∧ isSingle c = true ∧ tok = tokChar (kindOf c) c)) := by
      intro c hpc hcn hcs htok hk
      refine ⟨s.takeWhile Lexer.isSpace, [c], ?_, hspm, Or.inr ⟨c, rfl, hcs, htok⟩⟩
      rw [hk, hdrop 1]
      conv_lhs => rw [hsp, cons_of_peek hpc hcn]
      rfl
    by_cases hd : Lexer.isDigit (peek s1) = true
    · rw [if_pos hd] at h
      simp only [Except.ok.injEq, Prod.mk.injEq] at h
      obtain ⟨htok, hk⟩ := h
      have hds := split_takeWhile Lexer.isDigit s1
      have hlit : isLiteral (s1.takeWhile Lexer.isDigit) = true := by
        apply isLiteral_of
        · intro hnil
          have := takeWhile_pos_of_peek hd (by decide)
          rw [hnil] at this
          simp at this
        · exact mem_takeWhile_imp _ _
      refine ⟨s.takeWhile Lexer.isSpace, s1.takeWhile Lexer.isDigit, ?_, hspm,
        Or.inl ⟨hlit, htok.symm, ?_⟩⟩
      · rw [← hk, hdrop]
        conv_lhs => rw [hsp, hds]
      · rw [← hk, hdrop]
        exact peek_drop_takeWhile _ (by decide) _
    · rw [if_neg hd] at h
      by_cases h40 : peek s1 = 40
      · rw [if_pos h40] at h
        simp only [Except.ok.injEq, Prod.mk.injEq] at h
        exact hchar 40 h40 (by decide) (by decide) h.1.symm h.2.symm
      rw [if_neg h40] at h
      by_cases h41 : peek s1 = 41
      · rw [if_pos h41] at h
        simp only [Except.ok.injEq, Prod.mk.injEq] at h
        exact hchar 41 h41 (by decide) (by decide) h.1.symm h.2.symm
      rw [if_neg h41] at h
      by_cases h43 : peek s1 = 43
      · rw [if_pos h43] at h
        simp only [Except.ok.injEq, Prod.mk.injEq] at h
        exact hchar 43 h43 (by decide) (by decide) h.1.symm h.2.symm
      rw [if_neg h43] at h
      by_cases h45 : peek s1 = 45
      · rw [if_pos h45] at h
        simp only [Except.ok.injEq, Prod.mk.injEq] at h
        exact hchar 45 h45 (by decide) (by decide) h.1.symm h.2.symm
      rw [if_neg h45] at h
      by_cases h42 : peek s1 = 42
      · rw [if_pos h42] at h
        simp only [Except.ok.injEq, Prod.mk.injEq] at h
        exact hchar 42 h42 (by decide) (by decide) h.1.symm h.2.symm
      rw [if_neg h42] at h
      by_cases h47 : peek s1 = 47
      · rw [if_pos h47] at h
        simp only [Except.ok.injEq, Prod.mk.injEq] at h
        exact hchar 47 h47 (by decide) (by decide) h.1.symm h.2.symm
      rw [if_neg h47] at h
      cases h
  · rw [if_neg hp] at h
    simp only [Except.ok.injEq, Prod.mk.injEq] at h
    exact absurd (by rw [← h.1]; rfl) hne

theorem digitRuns_spaces (sp rest : GoString) (h : ∀ b ∈ sp, Lexer.isSpace b = true) :
    digitRuns (sp ++ rest) = digitRuns rest := by
  induction sp with
  | nil => rfl
  | cons b sp ih =>
    have hb : Lexer.isDigit b = false := by
      rw [isSpace_eq (h b (by simp))]; decide
    unfold digitRuns at ih ⊢
    rw [List.cons_append, digitRunsAux_cons_nondigit b hb]
    exact ih (fun x hx => h x (by simp [hx]))

theorem digitRuns_literal_append {ds rest : GoString} (h : isLiteral ds = true)
    (hr : Lexer.isDigit (peek rest) = false) :
    digitRuns (ds ++ rest) = ds :: digitRuns rest := by
  cases rest with
  | nil => rw [List.append_nil, digitRuns_literal h]; rfl
  | cons c y =>
    have hc : Lexer.isDigit c = false := hr
    have h1 := digitRuns_literal h
    unfold digitRuns at h1 ⊢
    rw [digitRunsAux_split c hc y ds [], h1, digitRunsAux_cons_nondigit c hc]
    rfl

theorem digitRuns_cons_nondigit {c : Byte} (hc : Lexer.isDigit c = false) (rest : GoString) :
    digitRuns (c :: rest) = digitRuns rest := by
  unfold digitRuns
  exact digitRunsAux_cons_nondigit c hc rest

theorem count_spaces {sp : GoString} (h : ∀ b ∈ sp, Lexer.isSpace b = true) {x : Byte}
    (hx : x ≠ 32) : sp.count x = 0 := by
  apply List.count_eq_zero_of_not_mem
  intro hm
  exact hx (isSpace_eq (h x hm))

theorem countP_isOp_spaces {sp : GoString} (h : ∀ b ∈ sp, Lexer.isSpace b = true) :
    sp.countP isOp = 0 := by
  rw [List.countP_eq_zero]
  intro b hb
  rw [isSpace_eq (h b hb)]
  decide

theorem countP_isOp_literal {ds : GoString} (h : isLiteral ds = true) :
    ds.countP isOp = 0 := by
  rw [List.countP_eq_zero]
  intro b hb hop
  have h1 := isOp_not_digit hop
  rw [isLiteral_digits h b hb] at h1
  cases h1

theorem kindOf_op {c : Byte} (h : isOp c = true) : tokChar (kindOf c) c = opTok c := by
  rcases isOp_cases h with rfl | rfl | rfl | rfl <;> rfl

theorem item_single_paren {c : Byte} (h : isSingle c = true) (hn : isOp c = false) :
    (tokChar (kindOf c) c).item = none := by
  rcases isSingle_cases h with rfl | rfl | rfl | rfl | rfl | rfl
  · rfl
  · rfl
  · exact absurd hn (by decide)
  · exact absurd hn (by decide)
  · exact absurd hn (by decide)
  · exact absurd hn (by decide)

theorem isSingle_not_digit {c : Byte} (h : isSingle c = true) : Lexer.isDigit c = false := by
  rcases isSingle_cases h with rfl | rfl | rfl | rfl | rfl | rfl <;> rfl

theorem isOp_ne_space {x : Byte} (h : isOp x = true) : x ≠ 32 := by
  rintro rfl
  exact absurd h (by decide)

theorem digitRuns_nil : digitRuns [] = [] := rfl

/-- The tokens of a text without the byte `0xFF`, read against the text: the
values of the `INTEGER` tokens are the values of the maximal digit runs, and
the operator tokens are the operator characters. -/
theorem yields_text {s : GoString} {ts : List Token} {fin : Option Err}
    (h : Yields s ts fin) : fin = none → (∀ b ∈ s, b ≠ NONE) →
    (ts.filterMap Token.item).filterMap Item.litText
      = (digitRuns s).map (fun d => decimalText ((min (decVal d) (2 ^ 63 - 1) : Nat) : Int)) ∧
    (∀ x, isOp x = true → (ts.filterMap Token.item).count (.op [x]) = s.count x) ∧
    ((ts.filterMap Token.item).filter Item.isOp).length = s.countP isOp ∧
    (∀ d ∈ digitRuns s, isLiteral d = true) := by
  induction h with
  | @eof s tok k hl hty =>
    intro _ hs
    have hp : peek s = NONE := by
      rcases lexRest_ok_cases hl with h1 | h1
      · exact h1.2.2
      · exact absurd hty h1.1
    have hnil := eq_nil_of_peek_NONE hp hs
    subst hnil
    refine ⟨rfl, fun x _ => rfl, rfl, ?_⟩
    intro d hd
    rw [digitRuns_nil] at hd
    cases hd
  | err _ => intro h; cases h
  | @tok s tok k ts e hl hty hrest ih =>
    intro hfin hs
    obtain ⟨sp, body, hdec, hsp, hcase⟩ := lexRest_text hl hty
    have hs1 : ∀ b ∈ s.drop k, b ≠ NONE := fun b hb => hs b (List.mem_of_mem_drop hb)
    obtain ⟨ih1, ih2, ih3, ih4⟩ := ih hfin hs1
    clear hrest ih hs1 hl
    generalize s.drop k = rest at hdec ih1 ih2 ih3 ih4 hcase
    subst hdec
    rcases hcase with ⟨hlit, rfl, hpk⟩ | ⟨c, rfl, hcs, rfl⟩
    · have hruns : digitRuns (sp ++ (body ++ rest)) = body :: digitRuns rest := by
        rw [digitRuns_spaces _ _ hsp, digitRuns_literal_append hlit hpk]
      have hitem : List.filterMap Token.item (tokInt (atoi body) :: ts)
          = .lit (atoi body) :: List.filterMap Token.item ts :=
        List.filterMap_cons_some (item_tokInt _)
      rw [hitem, hruns]
      refine ⟨?_, ?_, ?_, ?_⟩
      · rw [List.filterMap_cons_some (show Item.litText (.lit (atoi body))
          = some (sprint (atoi body)) from rfl), List.map_cons, ih1, sprint_eq_decimalText,
          atoi_digits hlit]
      · intro x hx
        rw [List.count_cons_of_ne (by simp), ih2 x hx, List.count_append, List.count_append,
          count_spaces hsp (isOp_ne_space hx), count_literal_eq_zero hlit (isOp_not_digit hx)]
        omega
      · rw [List.filter_cons_of_neg (by simp [Item.isOp]), ih3, List.countP_append,
          List.countP_append, countP_isOp_spaces hsp, countP_isOp_literal hlit]
        omega
      · intro d hd
        rcases List.mem_cons.1 hd with rfl | hd
        · exact hlit
        · exact ih4 d hd
    · have hruns : digitRuns (sp ++ ([c] ++ rest)) = digitRuns rest := by
        rw [digitRuns_spaces _ _ hsp]
        exact digitRuns_cons_nondigit (isSingle_not_digit hcs) rest
      rw [hruns]
      by_cases hop : isOp c = true
      · have hitem : List.filterMap Token.item (tokChar (kindOf c) c :: ts)
            = .op [c] :: List.filterMap Token.item ts := by
          rw [kindOf_op hop]
          exact List.filterMap_cons_some (item_opTok hop)
        rw [hitem]
        refine ⟨?_, ?_, ?_, ih4⟩
        · rw [List.filterMap_cons_none (show Item.litText (.op [c]) = none from rfl), ih1]
        · intro x hx
          rw [List.count_append, List.count_append, count_spaces hsp (isOp_ne_space hx),
            List.count_cons, ih2 x hx]
          by_cases hcx : c = x
          · subst hcx; simp; omega
          · have hne : (Item.op [c] == Item.op [x]) = false := by
              simp [hcx]
            have hc0 : List.count x [c] = 0 :=
              List.count_eq_zero_of_not_mem (by simp only [List.mem_singleton]; exact Ne.symm hcx)
            simp [hne, hc0]
        · rw [List.filter_cons_of_pos (by simp [Item.isOp]), List.length_cons, ih3,
            List.countP_append, List.countP_append, countP_isOp_spaces hsp]
          simp [List.countP_cons, hop]
          omega
      · have hopf : isOp c = false := by simpa using hop
        have hitem : List.filterMap Token.item (tokChar (kindOf c) c :: ts)
            = List.filterMap Token.item ts :=
          List.filterMap_cons_none (item_single_paren hcs hopf)
        rw [hitem]
        refine ⟨ih1, ?_, ?_, ih4⟩
        · intro x hx
          have hcx : c ≠ x := by
            rintro rfl
            rw [hx] at hopf
            cases hopf
          have hc0 : List.count x [c] = 0 :=
            List.count_eq_zero_of_not_mem (by simp only [List.mem_singleton]; exact Ne.symm hcx)
          rw [ih2 x hx, List.count_append, List.count_append,
            count_spaces hsp (isOp_ne_space hx), hc0]
          omega
        · rw [ih3, List.countP_append, List.countP_append, countP_isOp_spaces hsp]
          simp [List.countP_cons, hopf]

end GoCalc

namespace GoCalc

theorem decimalText_natCast (m : Nat) : decimalText (m : Int) = decimalNat m := by
  have hlt : ¬ ((m : Int) < 0) := Int.not_lt.mpr (Int.ofNat_nonneg m)
  simp only [decimalText, if_neg hlt, Int.natAbs_ofNat]

/-- Claim C8 (amended). For every line `e` that parses with all of its tokens
consumed (the lookahead after `parse` is `EOF`): the in-order sequence of the
literal values and operators of the tree is the token sequence of `e` with the
parentheses removed, and the rendered string is counted against it.  When `e`
has no byte `0xFF`, the maximal digit runs of the rendered string are, in the
same order, the decimal texts of the values of the integer literals written in
`e`, each capped at `2^63 - 1`; they are the literals as written when every
literal has no leading zero and is below `2^63`; every operator character
occurs in the rendered string as often as in `e`, and the numbers of `(` and of
`)` are both the number of operator characters of `e`. -/
theorem C8_tokens_preserved (e : GoString) (t : Node) (p : Parser)
    (h : parseState e = .ok (t, p)) (hEOF : p.currentToken.Typ = .EOF) :
    ∃ ts s, tokenize e = .ok ts ∧
      (∀ tok ∈ ts, tok.item.isSome = true ∨ tok.Typ = .LPAREN ∨ tok.Typ = .RPAREN) ∧
      t.items = ts.filterMap Token.item ∧
      run e = .ok s ∧
      digitRuns s = (ts.filterMap Token.item).filterMap Item.litText ∧
      (∀ c, isOp c = true → s.count c = (ts.filterMap Token.item).count (.op [c])) ∧
      s.count 40 = ((ts.filterMap Token.item).filter Item.isOp).length ∧
      s.count 41 = ((ts.filterMap Token.item).filter Item.isOp).length ∧
      ((∀ b ∈ e, b ≠ NONE) →
        digitRuns s = (digitRuns e).map
          (fun d => decimalText ((min (decVal d) (2 ^ 63 - 1) : Nat) : Int)) ∧
        (∀ c, isOp c = true → s.count c = e.count c) ∧
        s.count 40 = e.countP isOp ∧
        s.count 41 = e.countP isOp ∧
        ((∀ d ∈ digitRuns e, noLeadingZero d = true ∧ decVal d < 2 ^ 63) →
          digitRuns s = digitRuns e)) := by
  obtain ⟨ts, s, h1, h2, h3, h4, h5, h6, h7, h8⟩ := tokens_preserved e t p h hEOF
  refine ⟨ts, s, h1, h2, h3, h4, h5, h6, h7, h8, ?_⟩
  intro hff
  obtain ⟨ts1, a0, a, hne, hy, _, _, _⟩ := parsed_tokens h hEOF
  have hts : ts1 = ts := by
    have := tokenize_of_yields hne hy
    rw [h1] at this
    simp only [Except.ok.injEq] at this
    exact this.symm
  subst hts
  obtain ⟨y1, y2, y3, y4⟩ := yields_text hy rfl hff
  have hruns : digitRuns s = (digitRuns e).map
      (fun d => decimalText ((min (decVal d) (2 ^ 63 - 1) : Nat) : Int)) := by
    rw [h5, y1]
  refine ⟨hruns, ?_, ?_, ?_, ?_⟩
  · intro c hc
    rw [h6 c hc, y2 c hc]
  · rw [h7, y3]
  · rw [h8, y3]
  · intro hcan
    rw [hruns]
    calc (digitRuns e).map (fun d => decimalText ((min (decVal d) (2 ^ 63 - 1) : Nat) : Int))
        = (digitRuns e).map id := by
          apply List.map_congr_left
          intro d hd
          obtain ⟨hc1, hc2⟩ := hcan d hd
          have hlit := y4 d hd
          show decimalText ((min (decVal d) (2 ^ 63 - 1) : Nat) : Int) = d
          rw [decimalText_natCast, Nat.min_eq_left (by omega)]
          exact decimalNat_decVal (isLiteral_digits hlit) (isLiteral_ne_nil hlit) hc1
      _ = digitRuns e := List.map_id _

/-- Claim C8, instance of the amended statement: the line `(12 + 007) * 3`,
without the byte `0xFF`, renders as `(* (+ 12 7) 3)`; the digit runs `12`, `7`,
`3` of the output are the decimal texts of the values of the literals `12`,
`007`, `3` of the line. -/
theorem C8_tokens_preserved_witness :
    (parseState (str "(12 + 007) * 3") = .ok (.BinOp (.BinOp (.Num (tokInt 12) 12) (opTok 43)
        (.Num (tokInt 7) 7)) (opTok 42) (.Num (tokInt 3) 3),
      ⟨Lexer.seek (str "(12 + 007) * 3") 14, tokEOF⟩) ∧ tokEOF.Typ = .EOF ∧
      (∀ b ∈ str "(12 + 007) * 3", b ≠ NONE) ∧
      run (str "(12 + 007) * 3") = .ok (str "(* (+ 12 7) 3)") ∧
      digitRuns (str "(12 + 007) * 3") = [str "12", str "007", str "3"] ∧
      digitRuns (str "(* (+ 12 7) 3)") = [str "12", str "7", str "3"]) ∧
    ∃ ts s, tokenize (str "(12 + 007) * 3") = .ok ts ∧
      (∀ tok ∈ ts, tok.item.isSome = true ∨ tok.Typ = .LPAREN ∨ tok.Typ = .RPAREN) ∧
      (Node.BinOp (.BinOp (.Num (tokInt 12) 12) (opTok 43) (.Num (tokInt 7) 7)) (opTok 42)
        (.Num (tokInt 3) 3)).items = ts.filterMap Token.item ∧
      run (str "(12 + 007) * 3") = .ok s ∧
      digitRuns s = (ts.filterMap Token.item).filterMap Item.litText ∧
      (∀ c, isOp c = true → s.count c = (ts.filterMap Token.item).count (.op [c])) ∧
      s.count 40 = ((ts.filterMap Token.item).filter Item.isOp).length ∧
      s.count 41 = ((ts.filterMap Token.item).filter Item.isOp).length ∧
      digitRuns s = (digitRuns (str "(12 + 007) * 3")).map
        (fun d => decimalText ((min (decVal d) (2 ^ 63 - 1) : Nat) : Int)) ∧
      (∀ c, isOp c = true → s.count c = (str "(12 + 007) * 3").count c) ∧
      s.count 40 = (str "(12 + 007) * 3").countP isOp ∧
      s.count 41 = (str "(12 + 007) * 3").countP isOp ∧
      ((∀ d ∈ digitRuns (str "(12 + 007) * 3"), noLeadingZero d = true ∧ decVal d < 2 ^ 63) →
        digitRuns s = digitRuns (str "(12 + 007) * 3")) := by
  have hff : ∀ b ∈ str "(12 + 007) * 3", b ≠ NONE := fun b hb hn => absurd (hn ▸ hb) (by decide)
  refine ⟨⟨by decide, rfl, hff, by decide, by decide, by decide⟩, ?_⟩
  obtain ⟨ts, s, h1, h2, h3, h4, h5, h6, h7, h8, h9⟩ :=
    C8_tokens_preserved (str "(12 + 007) * 3") _ _
      (show parseState (str "(12 + 007) * 3") = .ok (.BinOp (.BinOp (.Num (tokInt 12) 12)
          (opTok 43) (.Num (tokInt 7) 7)) (opTok 42) (.Num (tokInt 3) 3),
        ⟨Lexer.seek (str "(12 + 007) * 3") 14, tokEOF⟩) by decide) rfl
  exact ⟨ts, s, h1, h2, h3, h4, h5, h6, h7, h8, h9 hff⟩

/-- Claim C8 as stated fails on the line `9223372036854775808 + 007`: it parses
with all of its tokens consumed and renders as `(+ 9223372036854775807 7)`,
which contains neither of the two integer literals of the line. -/
theorem C8_counterexample :
    parseState (str "9223372036854775808 + 007")
      = .ok (.BinOp (.Num (tokInt 9223372036854775807) 9223372036854775807) (opTok 43)
          (.Num (tokInt 7) 7), ⟨Lexer.seek (str "9223372036854775808 + 007") 25, tokEOF⟩) ∧
    tokEOF.Typ = .EOF ∧
    run (str "9223372036854775808 + 007") = .ok (str "(+ 9223372036854775807 7)") ∧
    digitRuns (str "9223372036854775808 + 007") = [str "9223372036854775808", str "007"] ∧
    digitRuns (str "(+ 9223372036854775807 7)") = [str "9223372036854775807", str "7"] ∧
    ¬ (str "007" <:+: str "(+ 9223372036854775807 7)") ∧
    ¬ (str "9223372036854775808" <:+: str "(+ 9223372036854775807 7)") := by
  decide

end GoCalc
